import Mathlib

/-!
# magic-qoa: the QOA decoder of `magicqoa.cpp`

A shallow embedding of the container parsers (`FileReader`, `FileHeader`,
`FrameHeader`, `LSMState`, `slice`), of the slice decoder (`slice::decode`), of
the bulk frame decoder (`Frame::read`, `Frame::decode`) and of the streaming
engine (`QOAPlayer`), followed by the properties established about them.

Conventions of the embedding.

* A byte is a `Fin 256`. A `FileReader` is the list of bytes not yet consumed,
  which is what `StandardFileReader` over a finite file amounts to.  A short
  read delivers (and consumes) whatever is left.
* `expected<T, string>` is `Except String T`; every parser also returns the
  advanced reader, because the reader is advanced even when the parse fails.
* `u8`, `u16`, `u32`, `size_t`, `int` are `Nat`/`Int`; reductions modulo a
  power of two are written where the C++ arithmetic can leave the range
  (`to_i16`, `wrap_i32`, `size_sub`, `size_mul`).  `size_t` has 64 bits.
* Undefined behaviour and aborts (a failed `assert`, `operator[]` past the end
  of a vector, a division by zero) are results of type `Fault`.
-/

namespace magicqoa

deriving instance DecidableEq for Except

/-- `QOA_SLICE_SAMPLES`. -/
def QOA_SLICE_SAMPLES : Nat := 20

/-! ## Byte reader -/

/-- The byte source: the bytes that have not been consumed yet. -/
structure FileReader where
  bytes : List (Fin 256)
deriving DecidableEq, Repr

/-- `read(buf, size)`: the bytes delivered (at most `size`, fewer at the end of
the input) and the reader after the call. -/
def FileReader.read (rd : FileReader) (size : Nat) : List (Fin 256) × FileReader :=
  (rd.bytes.take size, ⟨rd.bytes.drop size⟩)

/-- `read_u32`: four bytes, big-endian. -/
def FileReader.read_u32 (rd : FileReader) : Except String Nat × FileReader :=
  match rd.read 4 with
  | ([b0, b1, b2, b3], rd1) =>
      (.ok (b0.val * 16777216 + b1.val * 65536 + b2.val * 256 + b3.val), rd1)
  | (_, rd1) => (.error "Failed to read u32", rd1)

/-- `read_u16`: two bytes, big-endian. -/
def FileReader.read_u16 (rd : FileReader) : Except String Nat × FileReader :=
  match rd.read 2 with
  | ([b0, b1], rd1) => (.ok (b0.val * 256 + b1.val), rd1)
  | (_, rd1) => (.error "Failed to read u16", rd1)

/-- `read_u8`: one byte. -/
def FileReader.read_u8 (rd : FileReader) : Except String Nat × FileReader :=
  match rd.read 1 with
  | ([b0], rd1) => (.ok b0.val, rd1)
  | (_, rd1) => (.error "Failed to read u8", rd1)

/-- `read_u24`: three bytes, big-endian (`htonl(val) >> 8` drops the byte that
was not read). -/
def FileReader.read_u24 (rd : FileReader) : Except String Nat × FileReader :=
  match rd.read 3 with
  | ([b0, b1, b2], rd1) => (.ok (b0.val * 65536 + b1.val * 256 + b2.val), rd1)
  | (_, rd1) => (.error "Failed to read u24", rd1)

/-! ## Container records -/

/-- `FileHeader` (the magic tag is checked and not kept). -/
structure FileHeader where
  samples : Nat
deriving DecidableEq, Repr

/-- The bytes of `"qoaf"`. -/
def qoaf_magic : List (Fin 256) := [0x71, 0x6f, 0x61, 0x66]

/-- `FileHeader::read`. -/
def FileHeader.read (rd : FileReader) : Except String FileHeader × FileReader :=
  match rd.read 4 with
  | (magic, rd1) =>
    if magic.length ≠ 4 ∨ magic ≠ qoaf_magic then (.error "Invalid magic", rd1)
    else
      match rd1.read_u32 with
      | (.error _, rd2) => (.error "Failed to read samples", rd2)
      | (.ok samples, rd2) => (.ok ⟨samples⟩, rd2)

/-- `FrameHeader`. -/
structure FrameHeader where
  num_channels : Nat
  sample_rate : Nat
  frame_samples : Nat
  frame_size : Nat
deriving DecidableEq, Repr

/-- `FrameHeader::read`. -/
def FrameHeader.read (rd : FileReader) : Except String FrameHeader × FileReader :=
  match rd.read_u8 with
  | (.error _, rd1) => (.error "Failed to read num_channels", rd1)
  | (.ok num_channels, rd1) =>
    if num_channels = 0 then (.error "num_channels cannot be 0", rd1)
    else
      match rd1.read_u24 with
      | (.error _, rd2) => (.error "Failed to read sample_rate", rd2)
      | (.ok sample_rate, rd2) =>
        if sample_rate = 0 then (.error "sample_rate cannot be 0", rd2)
        else
          match rd2.read_u16 with
          | (.error _, rd3) => (.error "Failed to read frame_samples", rd3)
          | (.ok frame_samples, rd3) =>
            if frame_samples = 0 then (.error "frame_samples cannot be 0", rd3)
            else
              match rd3.read_u16 with
              | (.error _, rd4) => (.error "Failed to read frame_size", rd4)
              | (.ok frame_size, rd4) =>
                if frame_size = 0 then (.error "frame_size cannot be 0", rd4)
                else (.ok ⟨num_channels, sample_rate, frame_samples, frame_size⟩, rd4)

/-- Conversion of an integer to `i16` (two's complement, modulo `2^16`). -/
def to_i16 (v : Int) : Int := (v + 32768) % 65536 - 32768

/-- Reduction of an integer to `int` (two's complement, modulo `2^32`). -/
def wrap_i32 (v : Int) : Int := (v + 2147483648) % 4294967296 - 2147483648

/-- An `array<i16, 4>`. -/
structure I16x4 where
  a0 : Int
  a1 : Int
  a2 : Int
  a3 : Int
deriving DecidableEq, Repr

/-- `LSMState`: the predictor state of one channel. -/
structure LSMState where
  history : I16x4
  weights : I16x4
deriving DecidableEq, Repr

/-- One of the two loops of `LSMState::read`: four `read_u16`, each stored into
an `i16`, stopping with the message `msg` at the first short read. -/
def LSMState.read_i16x4 (msg : String) (rd : FileReader) : Except String I16x4 × FileReader :=
  match rd.read_u16 with
  | (.error _, rd1) => (.error msg, rd1)
  | (.ok v0, rd1) =>
    match rd1.read_u16 with
    | (.error _, rd2) => (.error msg, rd2)
    | (.ok v1, rd2) =>
      match rd2.read_u16 with
      | (.error _, rd3) => (.error msg, rd3)
      | (.ok v2, rd3) =>
        match rd3.read_u16 with
        | (.error _, rd4) => (.error msg, rd4)
        | (.ok v3, rd4) => (.ok ⟨to_i16 v0, to_i16 v1, to_i16 v2, to_i16 v3⟩, rd4)

/-- `LSMState::read`. -/
def LSMState.read (rd : FileReader) : Except String LSMState × FileReader :=
  match LSMState.read_i16x4 "Failed to read history" rd with
  | (.error e, rd1) => (.error e, rd1)
  | (.ok history, rd1) =>
    match LSMState.read_i16x4 "Failed to read weights" rd1 with
    | (.error e, rd2) => (.error e, rd2)
    | (.ok weights, rd2) => (.ok ⟨history, weights⟩, rd2)

/-! ## Slices -/

/-- Four times `dequant_tab` (`0.75, -0.75, 2.5, -2.5, 4.5, -4.5, 7, -7`): every
entry is a multiple of a quarter, so the products `sf * dequant_tab[q]` are
computed exactly in `float` and are kept here as integers, in quarters. -/
def dequant_tab4 : List Int := [3, -3, 10, -10, 18, -18, 28, -28]

/-- `sf_dequant_tab`: the values of `(int)round(pow(k, 2.75))` for `k = 1..16`. -/
def sf_dequant_tab : List Int :=
  [1, 7, 21, 45, 84, 138, 211, 304, 421, 562, 731, 928, 1157, 1419, 1715, 2048]

/-- `SHRT_MAX`. -/
def SHRT_MAX : Int := 32767

/-- `SHRT_MIN`. -/
def SHRT_MIN : Int := -32768

/-- A `slice`: the quantisation index and the residual codes. -/
structure slice where
  quant : Nat
  qr : List Nat
deriving DecidableEq, Repr

/-- The loop `for (i = 19; i >= 0; i--) { qr[i] = data & 0x7; data >>= 3; }` of
`slice::read`, with `k` iterations left. -/
def slice.read_qr : Nat → Nat → List Nat → List Nat
  | 0, _, qr => qr
  | k + 1, data, qr => slice.read_qr k (data >>> 3) ((data &&& 0x7) :: qr)

/-- The 64-bit word of eight bytes, `be64toh`. -/
def be64 (b0 b1 b2 b3 b4 b5 b6 b7 : Fin 256) : Nat :=
  b0.val * 2 ^ 56 + b1.val * 2 ^ 48 + b2.val * 2 ^ 40 + b3.val * 2 ^ 32
    + b4.val * 2 ^ 24 + b5.val * 2 ^ 16 + b6.val * 2 ^ 8 + b7.val

/-- `slice::read`. -/
def slice.read (rd : FileReader) : Except String slice × FileReader :=
  match rd.read 8 with
  | ([b0, b1, b2, b3, b4, b5, b6, b7], rd1) =>
      let data := be64 b0 b1 b2 b3 b4 b5 b6 b7
      (.ok ⟨(data >>> 60) % 256, slice.read_qr QOA_SLICE_SAMPLES data []⟩, rd1)
  | (_, rd1) => (.error "Failed to read slice", rd1)

/-- The residual `r` of `slice::decode`: `fr = sf * dequant_tab[q]` (here `fr4`,
in quarters) and `r = fr < 0 ? ceil(fr - 0.5) : floor(fr + 0.5)`. -/
def slice.residual (sf : Int) (q : Nat) : Int :=
  let fr4 := sf * dequant_tab4.getD q 0
  if fr4 < 0 then -((2 - fr4) / 4) else (fr4 + 2) / 4

/-- The prediction `p` of `slice::decode`: the `int` accumulation of the four
products, then `p >>= 13`. -/
def slice.predict (state : LSMState) : Int :=
  let p := 0
  let p := wrap_i32 (p + state.history.a0 * state.weights.a0)
  let p := wrap_i32 (p + state.history.a1 * state.weights.a1)
  let p := wrap_i32 (p + state.history.a2 * state.weights.a2)
  let p := wrap_i32 (p + state.history.a3 * state.weights.a3)
  p >>> 13

/-- The two `if`s of `slice::decode` that bring `sample` into the `short` range. -/
def slice.clamp (sample : Int) : Int :=
  if sample > SHRT_MAX then SHRT_MAX
  else if sample < SHRT_MIN then SHRT_MIN
  else sample

/-- One iteration of the loop of `slice::decode` for the residual code `q`: the
value stored at `ptr[n * stride]` and the predictor state after the update. -/
def slice.decode_sample (sf : Int) (q : Nat) (state : LSMState) : Int × LSMState :=
  let r := slice.residual sf q
  let p := slice.predict state
  let sample := slice.clamp (r + p)
  let delta := r >>> 4
  let weights : I16x4 :=
    ⟨to_i16 (state.weights.a0 + (if state.history.a0 < 0 then -delta else delta)),
     to_i16 (state.weights.a1 + (if state.history.a1 < 0 then -delta else delta)),
     to_i16 (state.weights.a2 + (if state.history.a2 < 0 then -delta else delta)),
     to_i16 (state.weights.a3 + (if state.history.a3 < 0 then -delta else delta))⟩
  let history : I16x4 :=
    ⟨state.history.a1, state.history.a2, state.history.a3, to_i16 sample⟩
  (to_i16 sample, ⟨history, weights⟩)

/-- The loop of `slice::decode` over the residual codes still to do, `n` being
the index of the first of them; `buf` is the memory `ptr` points into and a
store is `buf[ptr + n * stride] = sample`. -/
def slice.decode_loop (sf : Int) (ptr stride : Nat) :
    List Nat → Nat → LSMState → List Int → LSMState × List Int
  | [], _, state, buf => (state, buf)
  | q :: qs, n, state, buf =>
      let (sample, state1) := slice.decode_sample sf q state
      slice.decode_loop sf ptr stride qs (n + 1) state1 (buf.set (ptr + n * stride) sample)

/-- `slice::decode(state, ptr, stride)`, `ptr` being an offset into `buf`. -/
def slice.decode (s : slice) (state : LSMState) (buf : List Int) (ptr stride : Nat) :
    LSMState × List Int :=
  slice.decode_loop (sf_dequant_tab.getD s.quant 0) ptr stride s.qr 0 state buf

/-! ## Faults and vectors -/

/-- What stops the program instead of a result: a failed `assert`, an access
`v[i]` with `i >= v.size()`, a division (or remainder) by zero, and, for the
embedding only, a loop that was given too few iterations. -/
inductive Fault where
  | assertion
  | out_of_bounds
  | division_by_zero
  | fuel
deriving DecidableEq, Repr

/-- `vector::resize(n)`: keeps the first `n` elements and pads with `d`. -/
def resize {α : Type} (v : List α) (n : Nat) (d : α) : List α :=
  v.take n ++ List.replicate (n - v.length) d

/-- The value-initialised `LSMState`. -/
def LSMState.zero : LSMState := ⟨⟨0, 0, 0, 0⟩, ⟨0, 0, 0, 0⟩⟩

/-- `a - b` in `size_t`. -/
def size_sub (a b : Nat) : Nat := (a + 2 ^ 64 - b % 2 ^ 64) % 2 ^ 64

/-- `a * b` in `size_t`. -/
def size_mul (a b : Nat) : Nat := (a * b) % 2 ^ 64

/-! ## Bulk frame decoder -/

/-- `Frame`. -/
structure Frame where
  header : FrameHeader
  states : List LSMState
  slices : List slice
deriving DecidableEq, Repr

/-- The first loop of `Frame::read`, `k` states still to read. -/
def Frame.read_states : Nat → FileReader → List LSMState →
    Except String (List LSMState) × FileReader
  | 0, rd, states => (.ok states, rd)
  | k + 1, rd, states =>
    match LSMState.read rd with
    | (.error _, rd1) => (.error "Failed to read state", rd1)
    | (.ok state, rd1) => Frame.read_states k rd1 (states ++ [state])

/-- The second loop of `Frame::read`, at most `k` slices still to read; a short
read ends the loop. -/
def Frame.read_slices : Nat → FileReader → List slice → List slice × FileReader
  | 0, rd, slices => (slices, rd)
  | k + 1, rd, slices =>
    match slice.read rd with
    | (.error _, rd1) => (slices, rd1)
    | (.ok s, rd1) => Frame.read_slices k rd1 (slices ++ [s])

/-- `Frame::read`. -/
def Frame.read (rd : FileReader) : Except String Frame × FileReader :=
  match FrameHeader.read rd with
  | (.error e, rd1) => (.error ("Failed to read header: " ++ e), rd1)
  | (.ok header, rd1) =>
    match Frame.read_states header.num_channels rd1 [] with
    | (.error e, rd2) => (.error e, rd2)
    | (.ok states, rd2) =>
      match Frame.read_slices (256 * header.num_channels) rd2 [] with
      | (slices, rd3) =>
        if slices.length % header.num_channels ≠ 0 then (.error "Unexpected end of file", rd3)
        else (.ok ⟨header, states, slices⟩, rd3)

/-- The loop of `Frame::decode` over the slices still to do, `sid` being the
index of the first of them. -/
def Frame.decode_loop (num_channels : Nat) :
    List slice → Nat → List LSMState → List Int → Except Fault (List LSMState × List Int)
  | [], _, states, samples => .ok (states, samples)
  | s :: rest, sid, states, samples =>
    if num_channels = 0 then .error .division_by_zero
    else
      let channel := sid % num_channels
      let occurrence := sid / num_channels
      match states[channel]? with
      | none => .error .out_of_bounds
      | some state =>
        let (state1, samples1) :=
          s.decode state samples (occurrence * num_channels * QOA_SLICE_SAMPLES + channel)
            num_channels
        Frame.decode_loop num_channels rest (sid + 1) (states.set channel state1) samples1

/-- `Frame::decode`: the predictor states after the call and the samples
returned.  The stores of `slice::decode` stay inside `samples` exactly when the
number of slices is a multiple of `num_channels`, which `Frame::read` checks. -/
def Frame.decode (f : Frame) : Except Fault (List LSMState × List Int) :=
  if f.header.num_channels ≠ 0 ∧ f.slices.length % f.header.num_channels ≠ 0 then
    .error .out_of_bounds
  else
    Frame.decode_loop f.header.num_channels f.slices 0 f.states
      (resize [] (f.slices.length * 20) 0)

/-! ## Streaming engine -/

/-- `StreamDecoderReadState`. -/
inductive StreamDecoderReadState where
  | ReadFrameHeader
  | ReadLSMState
  | ReadSlice
deriving DecidableEq, Repr

/-- The fields of `QOAPlayer`. -/
structure QOAPlayer where
  reader : FileReader
  header : FileHeader
  frame_header : FrameHeader
  buffered_pcm : List Int
  states : List LSMState
  num_channels : Nat
  read_state : StreamDecoderReadState
  lsm_read_idx : Nat
  slice_read_idx : Nat
  decoded_sample_ch : Nat
  slices : List slice
  decode_tmp : List Int
deriving DecidableEq, Repr

/-- The constructor `QOAPlayer(reader)`; an exception is an `Except.error`. -/
def QOAPlayer.new (rd : FileReader) : Except String QOAPlayer :=
  match FileHeader.read rd with
  | (.error e, _) => .error ("Failed to read header: " ++ e)
  | (.ok head, rd1) =>
    match FrameHeader.read rd1 with
    | (.error e, _) => .error ("Failed to read the first frame header: " ++ e)
    | (.ok frame_head, rd2) =>
      .ok { reader := rd2
            header := head
            frame_header := frame_head
            buffered_pcm := []
            states := []
            num_channels := frame_head.num_channels
            read_state := .ReadLSMState
            lsm_read_idx := 0
            slice_read_idx := 0
            decoded_sample_ch := 0
            slices := []
            decode_tmp := resize [] (frame_head.num_channels * QOA_SLICE_SAMPLES) 0 }

/-- `isStream`. -/
def QOAPlayer.isStream (p : QOAPlayer) : Bool := p.header.samples == 0

/-- `channels`. -/
def QOAPlayer.channels (p : QOAPlayer) : Nat := p.num_channels

/-- What one call of `decode` hands back: the value returned and the samples
stored into the destination, which are stored from index 0 on without a gap. -/
structure DecodeResult where
  ret : Nat
  written : List Int
deriving DecidableEq, Repr

/-- The loop `for (; lsm_read_idx < num_channels; lsm_read_idx++)` of the
`ReadLSMState` phase with `k` iterations left; the flag is `false` when a read
failed (the call then returns). -/
def QOAPlayer.read_lsm_states : Nat → FileReader → Nat → List LSMState →
    Bool × FileReader × Nat × List LSMState
  | 0, rd, idx, states => (true, rd, idx, states)
  | k + 1, rd, idx, states =>
    match LSMState.read rd with
    | (.error _, rd1) => (false, rd1, idx, states)
    | (.ok state, rd1) => QOAPlayer.read_lsm_states k rd1 (idx + 1) (states.set idx state)

/-- The loop `while (slice_read_idx < 256 * num_channels && slices.size() !=
num_channels)` of the `ReadSlice` phase, `k` being `256 * num_channels -
slice_read_idx`; a short read ends the loop. -/
def QOAPlayer.read_slices (num_channels : Nat) : Nat → FileReader → Nat → List slice →
    FileReader × Nat × List slice
  | 0, rd, idx, slices => (rd, idx, slices)
  | k + 1, rd, idx, slices =>
    if slices.length = num_channels then (rd, idx, slices)
    else
      match slice.read rd with
      | (.error _, rd1) => (rd1, idx, slices)
      | (.ok s, rd1) => QOAPlayer.read_slices num_channels k rd1 (idx + 1) (slices ++ [s])

/-- The loop `for (channel = 0; channel < num_channels; channel++)` of the
`ReadSlice` phase, `k` iterations left: `slices[channel]` and `states[channel]`
are accessed whatever the number of slices read. -/
def QOAPlayer.decode_channels (num_channels : Nat) (slices : List slice) :
    Nat → Nat → List LSMState → List Int → Except Fault (List LSMState × List Int)
  | 0, _, states, tmp => .ok (states, tmp)
  | k + 1, channel, states, tmp =>
    match slices[channel]?, states[channel]? with
    | some s, some state =>
      let (state1, tmp1) := s.decode state tmp channel num_channels
      QOAPlayer.decode_channels num_channels slices k (channel + 1)
        (states.set channel state1) tmp1
    | _, _ => .error .out_of_bounds

/-- How one pass through the body of `while(true)` ends: with a `return` (or the
`break` that leads to it), or with the next pass. -/
inductive LoopOutcome where
  | ret (r : DecodeResult) (p : QOAPlayer)
  | cont (p : QOAPlayer) (insert_pos : Nat) (buffer : List Int)
deriving DecidableEq, Repr

/-- The branch `read_state == ReadFrameHeader`. -/
def QOAPlayer.phase_frame_header (p : QOAPlayer) (insert_pos : Nat) (buffer : List Int) :
    Except Fault LoopOutcome :=
  match FrameHeader.read p.reader with
  | (.error _, rd1) => .ok (.ret ⟨insert_pos, buffer⟩ { p with reader := rd1 })
  | (.ok frame_head, rd1) =>
    .ok (.cont { p with reader := rd1, frame_header := frame_head,
                        read_state := .ReadLSMState, lsm_read_idx := 0 } insert_pos buffer)

/-- The branch `read_state == ReadLSMState`. -/
def QOAPlayer.phase_lsm_state (p : QOAPlayer) (insert_pos : Nat) (buffer : List Int) :
    Except Fault LoopOutcome :=
  let states := resize p.states p.frame_header.num_channels LSMState.zero
  match QOAPlayer.read_lsm_states (p.frame_header.num_channels - p.lsm_read_idx) p.reader
      p.lsm_read_idx states with
  | (false, rd1, idx, states1) =>
    .ok (.ret ⟨insert_pos, buffer⟩ { p with reader := rd1, lsm_read_idx := idx, states := states1 })
  | (true, rd1, idx, states1) =>
    .ok (.cont { p with reader := rd1, lsm_read_idx := idx, states := states1,
                        slice_read_idx := 0, decoded_sample_ch := 0,
                        read_state := .ReadSlice } insert_pos buffer)

/-- The branch `read_state == ReadSlice`. -/
def QOAPlayer.phase_slice (p : QOAPlayer) (buf_size_elements insert_pos : Nat)
    (buffer : List Int) : Except Fault LoopOutcome :=
  let num_channels := p.frame_header.num_channels
  match QOAPlayer.read_slices num_channels (256 * num_channels - p.slice_read_idx) p.reader
      p.slice_read_idx p.slices with
  | (rd1, slice_read_idx, slices) =>
    let decode_tmp := resize p.decode_tmp (num_channels * QOA_SLICE_SAMPLES) 0
    match QOAPlayer.decode_channels num_channels slices num_channels 0 p.states decode_tmp with
    | .error e => .error e
    | .ok (states, decode_tmp) =>
      if num_channels = 0 then .error .division_by_zero
      else
        let p1 : QOAPlayer :=
          { p with reader := rd1, slice_read_idx := slice_read_idx, slices := [],
                   states := states, decode_tmp := decode_tmp }
        let buf_size_aligned_channels := (buf_size_elements / num_channels) * num_channels
        if buf_size_aligned_channels = 0 then .ok (.ret ⟨0, buffer⟩ p1)
        else
          let can_copy :=
            min (min (size_sub buf_size_aligned_channels insert_pos) decode_tmp.length)
              (size_mul (size_sub p.header.samples p.decoded_sample_ch) num_channels)
          let buffer := buffer ++ decode_tmp.take can_copy
          let insert_pos := insert_pos + can_copy
          let decoded_sample_ch := p.decoded_sample_ch + can_copy / num_channels
          let p2 : QOAPlayer :=
            if slice_read_idx = 256 * num_channels ∨ decoded_sample_ch = p.header.samples then
              { p1 with decoded_sample_ch := decoded_sample_ch, slice_read_idx := 0,
                        read_state := .ReadFrameHeader }
            else { p1 with decoded_sample_ch := decoded_sample_ch }
          if insert_pos = buf_size_aligned_channels then
            .ok (.ret ⟨insert_pos, buffer⟩
              { p2 with buffered_pcm := p2.buffered_pcm ++ decode_tmp.drop can_copy })
          else .ok (.cont p2 insert_pos buffer)

/-- One pass through the body of `while(true)`. -/
def QOAPlayer.loop_body (p : QOAPlayer) (buf_size_elements insert_pos : Nat)
    (buffer : List Int) : Except Fault LoopOutcome :=
  match p.read_state with
  | .ReadFrameHeader => p.phase_frame_header insert_pos buffer
  | .ReadLSMState => p.phase_lsm_state insert_pos buffer
  | .ReadSlice => p.phase_slice buf_size_elements insert_pos buffer

/-- The loop `while(true)` of `decode`, given at most `fuel` passes. -/
def QOAPlayer.decode_loop (buf_size_elements : Nat) :
    Nat → QOAPlayer → Nat → List Int → Except Fault (DecodeResult × QOAPlayer)
  | 0, _, _, _ => .error .fuel
  | fuel + 1, p, insert_pos, buffer =>
    match p.loop_body buf_size_elements insert_pos buffer with
    | .error e => .error e
    | .ok (.ret r p1) => .ok (r, p1)
    | .ok (.cont p1 insert_pos1 buffer1) =>
      QOAPlayer.decode_loop buf_size_elements fuel p1 insert_pos1 buffer1

/-- The first part of `decode`: what is copied out of `buffered_pcm`. -/
def QOAPlayer.drain (p : QOAPlayer) (buf_size_elements : Nat) :
    Except Fault (QOAPlayer × Nat × List Int) :=
  if p.buffered_pcm.length > 0 then
    if p.num_channels = 0 then .error .division_by_zero
    else if p.buffered_pcm.length % p.num_channels ≠ 0 then .error .assertion
    else
      let can_copy := min buf_size_elements p.buffered_pcm.length
      .ok ({ p with buffered_pcm := p.buffered_pcm.drop can_copy }, can_copy,
            p.buffered_pcm.take can_copy)
  else .ok (p, 0, [])

/-- `QOAPlayer::decode(buffer, buf_size_elements)`.  Every pass of the loop that
does not return consumes input, except at most two at the start of a call, so
the number of passes given to the loop is never reached (`decode_total`). -/
def QOAPlayer.decode (p : QOAPlayer) (buf_size_elements : Nat) :
    Except Fault (DecodeResult × QOAPlayer) :=
  if buf_size_elements = 0 then .ok (⟨0, []⟩, p)
  else
    match p.drain buf_size_elements with
    | .error e => .error e
    | .ok (p1, insert_pos, buffer) =>
      if insert_pos = buf_size_elements then .ok (⟨insert_pos, buffer⟩, p1)
      else QOAPlayer.decode_loop buf_size_elements (p1.reader.bytes.length + 4) p1 insert_pos buffer

/-! ## Callers -/

/-- Successive calls of `decode`, one per destination size of the list: what
every call hands back, up to and including the first fault. -/
def QOAPlayer.decode_calls : QOAPlayer → List Nat → List (Except Fault DecodeResult)
  | _, [] => []
  | p, n :: ns =>
    match p.decode n with
    | .error e => [.error e]
    | .ok (r, p1) => .ok r :: QOAPlayer.decode_calls p1 ns

/-- The engine after successive calls of `decode`, one per destination size of
the list; there is none after a fault. -/
def QOAPlayer.after_calls : QOAPlayer → List Nat → Option QOAPlayer
  | p, [] => some p
  | p, n :: ns =>
    match p.decode n with
    | .error _ => none
    | .ok (_, p1) => QOAPlayer.after_calls p1 ns

/-- The loop of a caller: `decode` with a destination of `n` samples, at most
`calls` times, until it returns 0; the samples returned (`buffer[0 .. ret)` of
every call), concatenated. -/
def QOAPlayer.decode_until_zero (n : Nat) : Nat → QOAPlayer → Except Fault (List Int)
  | 0, _ => .error .fuel
  | calls + 1, p =>
    match p.decode n with
    | .error e => .error e
    | .ok (r, p1) =>
      if r.ret = 0 then .ok []
      else
        match QOAPlayer.decode_until_zero n calls p1 with
        | .error e => .error e
        | .ok pcm => .ok (r.written.take r.ret ++ pcm)

/-- `Frame::read` followed by `Frame::decode`, frame after frame until
`Frame::read` fails, at most `frames` times; the samples, concatenated. -/
def bulk_frames : Nat → FileReader → Except Fault (List Int)
  | 0, _ => .ok []
  | frames + 1, rd =>
    match Frame.read rd with
    | (.error _, _) => .ok []
    | (.ok f, rd1) =>
      match f.decode with
      | .error e => .error e
      | .ok (_, samples) =>
        match bulk_frames frames rd1 with
        | .error e => .error e
        | .ok pcm => .ok (samples ++ pcm)

/-- The bulk decoder on a whole stream: the stream header, then the frames one
by one.  A frame takes at least eight bytes, so `rd.bytes.length` frames are
never all used.  `none` when the stream header does not parse. -/
def bulk_decode (rd : FileReader) : Option (Except Fault (List Int)) :=
  match FileHeader.read rd with
  | (.error _, _) => none
  | (.ok _, rd1) => some (bulk_frames rd1.bytes.length rd1)

/-- The streaming engine on a whole stream with a destination of `n` samples
per call, at most `calls` calls.  `none` when the constructor throws. -/
def stream_decode (n calls : Nat) (rd : FileReader) : Option (Except Fault (List Int)) :=
  match QOAPlayer.new rd with
  | .error _ => none
  | .ok p => some (p.decode_until_zero n calls)

/-- The engine made from the whole stream `rd`, then successive calls of
`decode`: what the calls hand back.  `none` when the constructor throws. -/
def stream_calls (rd : FileReader) (ns : List Nat) : Option (List (Except Fault DecodeResult)) :=
  match QOAPlayer.new rd with
  | .error _ => none
  | .ok p => some (p.decode_calls ns)

/-- The engine made from the whole stream `rd`, after successive calls of
`decode`. -/
def stream_after (rd : FileReader) (ns : List Nat) : Option QOAPlayer :=
  match QOAPlayer.new rd with
  | .error _ => none
  | .ok p => p.after_calls ns

/-- The predictor state at the start of iteration `n` of the loop of
`slice::decode`, `state` being the one the call was given. -/
def slice.state_at (s : slice) (state : LSMState) (n : Nat) : LSMState :=
  (s.qr.take n).foldl
    (fun st q => (slice.decode_sample (sf_dequant_tab.getD s.quant 0) q st).2) state

/-- Two engines that differ at most in `states`, the first being before the
predictor states of a frame: waiting for a frame header, at the start of the
`ReadLSMState` phase, or in a `ReadLSMState` phase that met the end of the
input. -/
def QOAPlayer.reset_related (p q : QOAPlayer) : Prop :=
  q = { p with states := q.states } ∧
    (p.read_state = .ReadFrameHeader ∨
      (p.read_state = .ReadLSMState ∧
        (p.lsm_read_idx = 0 ∨
          (p.reader.bytes = [] ∧ p.lsm_read_idx < p.frame_header.num_channels))))

/-- Two outcomes of `decode` that a caller cannot tell apart and that leave
engines that are equal or `reset_related`. -/
def QOAPlayer.same_result (a b : Except Fault (DecodeResult × QOAPlayer)) : Prop :=
  match a, b with
  | .error e1, .error e2 => e1 = e2
  | .ok (r1, p1), .ok (r2, p2) => r1 = r2 ∧ (p1.reset_related p2 ∨ p1 = p2)
  | _, _ => False

/-! ## Reference decoding of a stream cut into records -/

/-- The state that `LSMState::read` parses from sixteen bytes. -/
def parse_state (chunk : List (Fin 256)) : LSMState :=
  match (LSMState.read ⟨chunk⟩).1 with
  | .ok s => s
  | .error _ => LSMState.zero

/-- The slice that `slice::read` parses from eight bytes. -/
def parse_slice (chunk : List (Fin 256)) : slice :=
  match (slice.read ⟨chunk⟩).1 with
  | .ok s => s
  | .error _ => ⟨0, []⟩

/-- The samples that `slice::decode` stores, in the order of the stores. -/
def slice.samples (s : slice) (state : LSMState) : List Int :=
  (s.decode state (List.replicate s.qr.length 0) 0 1).2

/-- The predictor state that `slice::decode` leaves. -/
def slice.final_state (s : slice) (state : LSMState) : LSMState :=
  (s.decode state [] 0 1).1

/-- The interleaved samples of one batch: sample `i / C` of the slice of channel
`i % C`, decoded from the predictor state of that channel. -/
def batch_out (C : Nat) (b : List slice) (states : List LSMState) : List Int :=
  (List.range (20 * C)).map fun i =>
    ((b.getD (i % C) ⟨0, []⟩).samples (states.getD (i % C) LSMState.zero)).getD (i / C) 0

/-- The predictor states after one batch. -/
def batch_states (C : Nat) (b : List slice) (states : List LSMState) : List LSMState :=
  (List.range C).map fun i =>
    (b.getD i ⟨0, []⟩).final_state (states.getD i LSMState.zero)

/-- The interleaved samples of the batches of one frame, the predictor states
being carried from batch to batch. -/
def frame_ref (C : Nat) : List LSMState → List (List slice) → List Int
  | _, [] => []
  | states, b :: bs => batch_out C b states ++ frame_ref C (batch_states C b states) bs

/-- The bytes of one frame, record by record: the frame header, one record of
predictor state per channel, and the batches, each with one slice record per
channel. -/
structure FrameBytes where
  header : List (Fin 256)
  states : List (List (Fin 256))
  batches : List (List (List (Fin 256)))

/-- The bytes of a list of batches. -/
def batches_bytes : List (List (List (Fin 256))) → List (Fin 256)
  | [] => []
  | b :: bs => b.flatten ++ batches_bytes bs

/-- The bytes of a list of frames. -/
def frames_bytes : List FrameBytes → List (Fin 256)
  | [] => []
  | f :: fs => f.header ++ (f.states.flatten ++ (batches_bytes f.batches ++ frames_bytes fs))

/-- The slices of a list of batches. -/
def parse_batches (bs : List (List (List (Fin 256)))) : List (List slice) :=
  bs.map fun b => b.map parse_slice

/-- The interleaved samples of a list of frames, every frame decoded from its
own predictor states. -/
def stream_ref (C : Nat) : List FrameBytes → List Int
  | [] => []
  | f :: fs => frame_ref C (f.states.map parse_state) (parse_batches f.batches) ++ stream_ref C fs

/-- A batch of `C` slice records of eight bytes. -/
def batch_wf (C : Nat) (b : List (List (Fin 256))) : Prop :=
  b.length = C ∧ ∀ s ∈ b, s.length = 8

/-- A frame of `C` channels: a header of eight bytes that `FrameHeader::read`
accepts with `num_channels = C`, `C` state records of sixteen bytes, and batches
of `C` slice records. -/
def frame_wf (C : Nat) (f : FrameBytes) : Prop :=
  f.header.length = 8
    ∧ (∃ fh r, FrameHeader.read ⟨f.header⟩ = (.ok fh, r) ∧ fh.num_channels = C)
    ∧ f.states.length = C ∧ (∀ s ∈ f.states, s.length = 16)
    ∧ ∀ b ∈ f.batches, batch_wf C b

/-- The streams on which the two decoders agree: frames of `C` channels with at
least one and at most 256 batches and at most `S / 20` batches, every frame with
256 batches except possibly the last one, which may instead have exactly
`S / 20` batches (`S` being the number of samples per channel of the stream
header). -/
def frames_ok (S C : Nat) : List FrameBytes → Prop
  | [] => True
  | f :: fs =>
    frame_wf C f ∧ 1 ≤ f.batches.length ∧ f.batches.length ≤ 256
      ∧ 20 * f.batches.length ≤ S
      ∧ (f.batches.length = 256 ∨ (20 * f.batches.length = S ∧ fs = []))
      ∧ frames_ok S C fs

/-- What holds of an engine between two records of such a stream: `ref` is what
is still to be delivered. -/
inductive Pos (S C : Nat) : QOAPlayer → List Int → Prop
  | frame (p : QOAPlayer) (fs : List FrameBytes) :
      p.reader.bytes = frames_bytes fs → frames_ok S C fs →
      p.read_state = .ReadFrameHeader →
      p.header.samples = S → p.buffered_pcm = [] → p.slices = [] →
      Pos S C p (stream_ref C fs)
  | lsm (p : QOAPlayer) (f : FrameBytes) (fs : List FrameBytes) :
      p.reader.bytes = f.states.flatten ++ (batches_bytes f.batches ++ frames_bytes fs) →
      frames_ok S C (f :: fs) →
      p.read_state = .ReadLSMState → p.lsm_read_idx = 0 → p.frame_header.num_channels = C →
      p.header.samples = S → p.buffered_pcm = [] → p.slices = [] →
      Pos S C p (stream_ref C (f :: fs))
  | batch (p : QOAPlayer) (bs : List (List (List (Fin 256)))) (fs : List FrameBytes) (kd : Nat) :
      p.reader.bytes = batches_bytes bs ++ frames_bytes fs →
      (∀ b ∈ bs, batch_wf C b) → bs ≠ [] → kd + bs.length ≤ 256 →
      20 * (kd + bs.length) ≤ S → (kd + bs.length = 256 ∨ 20 * (kd + bs.length) = S) →
      frames_ok S C fs →
      p.read_state = .ReadSlice → p.slice_read_idx = C * kd → p.decoded_sample_ch = 20 * kd →
      p.frame_header.num_channels = C → p.states.length = C →
      p.header.samples = S → p.buffered_pcm = [] → p.slices = [] →
      Pos S C p (frame_ref C p.states (parse_batches bs) ++ stream_ref C fs)

/-- The number of batches of a list of frames. -/
def total_batches : List FrameBytes → Nat
  | [] => 0
  | f :: fs => f.batches.length + total_batches fs

/-- The samples of one channel: its slices decoded one after the other, the
predictor state being carried from slice to slice. -/
def channel_decode : LSMState → List slice → List Int
  | _, [] => []
  | state, s :: rest => s.samples state ++ channel_decode (s.final_state state) rest

/-- The samples of channel `c` of a list of frames, decoded from the records of
that channel alone: in every frame, the predictor state of the channel and the
slice of the channel in every batch. -/
def channel_ref (c : Nat) : List FrameBytes → List Int
  | [] => []
  | f :: fs =>
    channel_decode ((f.states.map parse_state).getD c LSMState.zero)
        ((parse_batches f.batches).map fun b => b.getD c ⟨0, []⟩)
      ++ channel_ref c fs

/-- The samples at the even indices. -/
def evens : List Int → List Int
  | [] => []
  | [a] => [a]
  | a :: _ :: l => a :: evens l

/-- The samples at the odd indices. -/
def odds : List Int → List Int
  | [] => []
  | [_] => []
  | _ :: b :: l => b :: odds l

/-- The engine of an outcome. -/
def LoopOutcome.player : LoopOutcome → QOAPlayer
  | .ret _ p => p
  | .cont p _ _ => p

/-- The samples stored into the destination so far, for an outcome. -/
def LoopOutcome.written : LoopOutcome → List Int
  | .ret r _ => r.written
  | .cont _ _ buffer => buffer

/-- What the sample budget of the engine rests on: the counter is at most the
number of samples of the stream header, which fits 32 bits, and the channel
count of the frame header is a non-zero byte. -/
def QOAPlayer.budget_inv (p : QOAPlayer) : Prop :=
  p.decoded_sample_ch ≤ p.header.samples ∧ p.header.samples < 2 ^ 32
    ∧ 0 < p.frame_header.num_channels ∧ p.frame_header.num_channels < 256

/-- A bound on the number of passes of the loop of `decode` that do not return:
one per byte left, and up to three more at the start of a call. -/
def QOAPlayer.passes_bound (p : QOAPlayer) : Nat :=
  p.reader.bytes.length +
    (match p.read_state with
      | .ReadFrameHeader => 1
      | .ReadLSMState => 3
      | .ReadSlice => if p.slices = [] then 1 else 2)

/-! ## Error messages, frames as lists of slices, engines within a call -/

/-- The predictor state of channel `channel` in `Frame::decode` once the first
`occ` slices of that channel (the slices `channel`, `channel + num_channels`,
and so on) have been decoded, one after the other. -/
def Frame.channel_state (f : Frame) (channel : Nat) : Nat → LSMState
  | 0 => f.states.getD channel LSMState.zero
  | occ + 1 =>
    (f.slices.getD (occ * f.header.num_channels + channel) ⟨0, []⟩).final_state
      (Frame.channel_state f channel occ)

/-- The index at which `Frame::decode` has sample `n` of slice `sid` stored:
`slice::decode` is given `occurrence * num_channels * 20 + channel` and the
stride `num_channels`, and stores sample `n` at `ptr[n * stride]`. -/
def Frame.sample_index (num_channels sid n : Nat) : Nat :=
  (sid / num_channels) * num_channels * QOA_SLICE_SAMPLES + sid % num_channels
    + n * num_channels

/-- The first `m` groups of `C` consecutive elements of a list. -/
def chunks {α : Type} (C : Nat) : Nat → List α → List (List α)
  | 0, _ => []
  | m + 1, l => l.take C :: chunks C m (l.drop C)

/-- The predictor states after the first `occ` batches of a list of batches. -/
def states_after (C : Nat) (states : List LSMState) (pbs : List (List slice)) :
    Nat → List LSMState
  | 0 => states
  | occ + 1 => batch_states C (pbs.getD occ []) (states_after C states pbs occ)

/-- The messages with which `FileHeader::read` and `FrameHeader::read` report
that a field was cut short. -/
def short_read_errors : List String :=
  ["Failed to read samples", "Failed to read num_channels", "Failed to read sample_rate",
    "Failed to read frame_samples", "Failed to read frame_size"]

/-- The messages with which `FileHeader::read` and `FrameHeader::read` report a
value that is not allowed. -/
def bad_value_errors : List String :=
  ["Invalid magic", "num_channels cannot be 0", "sample_rate cannot be 0",
    "frame_samples cannot be 0", "frame_size cannot be 0"]

/-- The engines that the constructor and `decode` bring about, between two
calls as well as within a call: the engine that the constructor makes, an
engine after the first part of `decode` (the copy out of `buffered_pcm`), and an
engine after one more pass through the body of the loop of `decode`, whatever
the destination. -/
inductive QOAPlayer.reachable : QOAPlayer → Prop
  | new (rd : FileReader) (p : QOAPlayer) : QOAPlayer.new rd = .ok p → QOAPlayer.reachable p
  | drain (p p1 : QOAPlayer) (n ip : Nat) (buf : List Int) :
      QOAPlayer.reachable p → p.drain n = .ok (p1, ip, buf) → QOAPlayer.reachable p1
  | pass (p : QOAPlayer) (n ip : Nat) (buf : List Int) (out : LoopOutcome) :
      QOAPlayer.reachable p → p.loop_body n ip buf = .ok out →
      QOAPlayer.reachable out.player

/-! ## Streams used below -/

namespace sample

/-- A stream header announcing `s` samples per channel. -/
def file_header (s : Fin 256) : List (Fin 256) := [0x71, 0x6f, 0x61, 0x66, 0, 0, 0, s]

/-- A frame header: `c` channels, 44100 Hz, `fs` samples per channel, the size
field `sz`. -/
def frame_header (c fs sz : Fin 256) : List (Fin 256) := [c, 0, 0xAC, 0x44, 0, fs, 0, sz]

/-- The sixteen bytes of a predictor state. -/
def lsm : List (Fin 256) :=
  [0, 1, 0, 2, 0xff, 0xff, 0x80, 0, 0x10, 0, 0x20, 0, 0xf0, 0, 0, 5]

/-- The eight bytes of a slice. -/
def slice_a : List (Fin 256) := [0x12, 0x34, 0x56, 0x78, 0x9a, 0xbc, 0xde, 0xf0]

/-- The eight bytes of another slice. -/
def slice_b : List (Fin 256) := [0x72, 0x14, 0x56, 0x78, 0x9a, 0xbc, 0xde, 0xf1]

/-- One channel, one frame of 20 samples, one slice. -/
def mono20 : FileReader :=
  ⟨file_header 20 ++ frame_header 1 20 32 ++ lsm ++ slice_a⟩

/-- One channel, one frame of 30 samples, two slices. -/
def mono30 : FileReader :=
  ⟨file_header 30 ++ frame_header 1 30 40 ++ lsm ++ slice_a ++ slice_b⟩

/-- Two channels, one frame of 20 samples per channel, one batch. -/
def stereo20 : FileReader :=
  ⟨file_header 20 ++ frame_header 2 20 56 ++ lsm ++ lsm ++ slice_a ++ slice_b⟩

/-- Two channels, one frame of 30 samples per channel, two batches. -/
def stereo30 : FileReader :=
  ⟨file_header 30 ++ frame_header 2 30 72 ++ lsm ++ lsm ++ slice_a ++ slice_b
    ++ slice_b ++ slice_a⟩

/-- Two channels, one frame of 40 samples per channel whose second batch was cut
after its first slice and three more bytes. -/
def stereo_cut : FileReader :=
  ⟨file_header 40 ++ frame_header 2 40 72 ++ lsm ++ lsm ++ slice_a ++ slice_b
    ++ slice_b ++ [0x12, 0x34, 0x56]⟩

/-- A stream of unknown length (0 samples announced): one channel, one frame,
one slice. -/
def unknown_length : FileReader :=
  ⟨file_header 0 ++ frame_header 1 20 32 ++ lsm ++ slice_a⟩

/-- A stream announcing 3 samples per channel whose first frame has two channels
and whose second frame has three. -/
def channel_change : FileReader :=
  ⟨file_header 3 ++ frame_header 2 3 56 ++ lsm ++ lsm ++ slice_a ++ slice_b
    ++ frame_header 3 3 80 ++ lsm ++ lsm ++ lsm ++ slice_a ++ slice_b ++ slice_a⟩

/-- The single frame of `mono20`, record by record. -/
def mono20_frame : FrameBytes := ⟨frame_header 1 20 32, [lsm], [[slice_a]]⟩

/-- The single frame of `stereo30`, record by record. -/
def stereo30_frame : FrameBytes :=
  ⟨frame_header 2 30 72, [lsm, lsm], [[slice_a, slice_b], [slice_b, slice_a]]⟩

/-- A frame of two channels and 40 samples per channel, record by record. -/
def stereo40_frame : FrameBytes :=
  ⟨frame_header 2 40 72, [lsm, lsm], [[slice_a, slice_b], [slice_b, slice_a]]⟩

/-- The frame that `Frame::read` makes from the records of `stereo40_frame`. -/
def stereo40_parsed : Frame :=
  ⟨⟨2, 44100, 40, 72⟩, [⟨⟨1, 2, -1, -32768⟩, ⟨4096, 8192, -4096, 5⟩⟩,
      ⟨⟨1, 2, -1, -32768⟩, ⟨4096, 8192, -4096, 5⟩⟩],
    [parse_slice slice_a, parse_slice slice_b, parse_slice slice_b, parse_slice slice_a]⟩

/-- The engine that the constructor makes from `mono30`. -/
def mono30_engine : QOAPlayer :=
  { reader := ⟨lsm ++ slice_a ++ slice_b⟩
    header := ⟨30⟩
    frame_header := ⟨1, 44100, 30, 40⟩
    buffered_pcm := []
    states := []
    num_channels := 1
    read_state := .ReadLSMState
    lsm_read_idx := 0
    slice_read_idx := 0
    decoded_sample_ch := 0
    slices := []
    decode_tmp := List.replicate 20 0 }

/-- The engine `mono30_engine` after two calls of `decode` with a destination of
10 samples. -/
def mono30_later : QOAPlayer :=
  (mono30_engine.after_calls [10, 10]).getD mono30_engine

/-- The slice of `slice_a`. -/
def the_slice : slice := ⟨1, [1, 0, 6, 4, 2, 5, 4, 7, 4, 2, 3, 2, 5, 7, 1, 5, 7, 3, 6, 0]⟩

/-- The predictor state of `lsm`. -/
def the_state : LSMState := ⟨⟨1, 2, -1, -32768⟩, ⟨4096, 8192, -4096, 5⟩⟩

/-- The engine that the constructor makes from `stereo20`. -/
def stereo20_engine : QOAPlayer :=
  { reader := ⟨lsm ++ lsm ++ slice_a ++ slice_b⟩
    header := ⟨20⟩
    frame_header := ⟨2, 44100, 20, 56⟩
    buffered_pcm := []
    states := []
    num_channels := 2
    read_state := .ReadLSMState
    lsm_read_idx := 0
    slice_read_idx := 0
    decoded_sample_ch := 0
    slices := []
    decode_tmp := List.replicate 40 0 }

end sample

/-! ## Properties of the byte reader -/

theorem read_u16_spec (rd : FileReader) :
    (2 ≤ rd.bytes.length → ∃ v, rd.read_u16 = (.ok v, ⟨rd.bytes.drop 2⟩))
      ∧ (rd.bytes.length < 2 → rd.read_u16 = (.error "Failed to read u16", ⟨[]⟩)) := by
  rcases rd with ⟨_ | ⟨a, _ | ⟨b, l⟩⟩⟩ <;> simp [FileReader.read_u16, FileReader.read]

theorem read_i16x4_spec (msg : String) (rd : FileReader) :
    (8 ≤ rd.bytes.length → ∃ v, LSMState.read_i16x4 msg rd = (.ok v, ⟨rd.bytes.drop 8⟩))
      ∧ (rd.bytes.length < 8 → LSMState.read_i16x4 msg rd = (.error msg, ⟨[]⟩)) := by
  rcases rd with ⟨_ | ⟨b0, _ | ⟨b1, _ | ⟨b2, _ | ⟨b3, _ | ⟨b4, _ | ⟨b5, _ | ⟨b6, _ | ⟨b7, l⟩⟩⟩⟩⟩⟩⟩⟩⟩ <;>
    simp [LSMState.read_i16x4, FileReader.read_u16, FileReader.read]

theorem LSMState_read_spec (rd : FileReader) :
    (16 ≤ rd.bytes.length → ∃ st, LSMState.read rd = (.ok st, ⟨rd.bytes.drop 16⟩))
      ∧ (rd.bytes.length < 16 → ∃ e, LSMState.read rd = (.error e, ⟨[]⟩)) := by
  constructor
  · intro h
    obtain ⟨v, hv⟩ := (read_i16x4_spec "Failed to read history" rd).1 (by omega)
    obtain ⟨w, hw⟩ := (read_i16x4_spec "Failed to read weights" ⟨rd.bytes.drop 8⟩).1
      (by simp; omega)
    refine ⟨⟨v, w⟩, ?_⟩
    simp [LSMState.read, hv, hw]
  · intro h
    by_cases h8 : 8 ≤ rd.bytes.length
    · obtain ⟨v, hv⟩ := (read_i16x4_spec "Failed to read history" rd).1 h8
      have hw := (read_i16x4_spec "Failed to read weights" ⟨rd.bytes.drop 8⟩).2
        (by simp; omega)
      exact ⟨"Failed to read weights", by simp [LSMState.read, hv, hw]⟩
    · have hv := (read_i16x4_spec "Failed to read history" rd).2 (by omega)
      exact ⟨"Failed to read history", by simp [LSMState.read, hv]⟩

theorem slice_read_spec (rd : FileReader) :
    (8 ≤ rd.bytes.length → ∃ s, slice.read rd = (.ok s, ⟨rd.bytes.drop 8⟩))
      ∧ (rd.bytes.length < 8 → slice.read rd = (.error "Failed to read slice", ⟨[]⟩)) := by
  rcases rd with ⟨_ | ⟨b0, _ | ⟨b1, _ | ⟨b2, _ | ⟨b3, _ | ⟨b4, _ | ⟨b5, _ | ⟨b6, _ | ⟨b7, l⟩⟩⟩⟩⟩⟩⟩⟩⟩ <;>
    simp [slice.read, FileReader.read]

/-! ## Properties of the slice decoder -/

theorem to_i16_of_range (v : Int) (h1 : -32768 ≤ v) (h2 : v ≤ 32767) : to_i16 v = v := by
  unfold to_i16; omega

theorem clamp_range (v : Int) : -32768 ≤ slice.clamp v ∧ slice.clamp v ≤ 32767 := by
  unfold slice.clamp SHRT_MAX SHRT_MIN
  split_ifs <;> omega

theorem to_i16_clamp (v : Int) : to_i16 (slice.clamp v) = slice.clamp v :=
  to_i16_of_range _ (clamp_range v).1 (clamp_range v).2

theorem decode_loop_length (sf : Int) (ptr stride : Nat) :
    ∀ (qs : List Nat) (n : Nat) (st : LSMState) (buf : List Int),
      (slice.decode_loop sf ptr stride qs n st buf).2.length = buf.length := by
  intro qs
  induction qs with
  | nil => intro n st buf; rfl
  | cons q qs ih =>
    intro n st buf
    simp only [slice.decode_loop]
    rw [ih]; simp

theorem decode_loop_state (sf : Int) (ptr stride : Nat) :
    ∀ (qs : List Nat) (n : Nat) (st : LSMState) (buf : List Int),
      (slice.decode_loop sf ptr stride qs n st buf).1
        = qs.foldl (fun st q => (slice.decode_sample sf q st).2) st := by
  intro qs
  induction qs with
  | nil => intro n st buf; rfl
  | cons q qs ih =>
    intro n st buf
    simp only [slice.decode_loop, List.foldl_cons]
    rw [ih]

theorem decode_loop_get_other (sf : Int) (ptr stride : Nat) :
    ∀ (qs : List Nat) (n : Nat) (st : LSMState) (buf : List Int) (i : Nat),
      (∀ j, j < qs.length → i ≠ ptr + (n + j) * stride) →
      (slice.decode_loop sf ptr stride qs n st buf).2[i]? = buf[i]? := by
  intro qs
  induction qs with
  | nil => intro n st buf i _; rfl
  | cons q qs ih =>
    intro n st buf i h
    simp only [slice.decode_loop]
    rw [ih]
    · have h0 := h 0 (by simp)
      simp only [Nat.add_zero] at h0
      rw [List.getElem?_set_ne (Ne.symm h0)]
    · intro j hj
      have := h (j + 1) (by simp; omega)
      rwa [show n + (j + 1) = n + 1 + j by omega] at this

theorem decode_loop_get (sf : Int) (ptr stride : Nat) (hs : 0 < stride) :
    ∀ (qs : List Nat) (n : Nat) (st : LSMState) (buf : List Int) (j : Nat),
      j < qs.length → ptr + (n + j) * stride < buf.length →
      (slice.decode_loop sf ptr stride qs n st buf).2[ptr + (n + j) * stride]?
        = some (slice.decode_sample sf (qs.getD j 0)
            ((qs.take j).foldl (fun st q => (slice.decode_sample sf q st).2) st)).1 := by
  intro qs
  induction qs with
  | nil => intro n st buf j hj; simp at hj
  | cons q qs ih =>
    intro n st buf j hj hb
    simp only [slice.decode_loop]
    cases j with
    | zero =>
      rw [decode_loop_get_other]
      · simp only [Nat.add_zero] at hb ⊢
        rw [List.getElem?_set_self hb]
        simp
      · intro k _
        have : n * stride < (n + 1 + k) * stride :=
          Nat.mul_lt_mul_of_pos_right (by omega) hs
        simp only [Nat.add_zero]
        omega
    | succ j =>
      have e : n + (j + 1) = n + 1 + j := by omega
      rw [e] at hb ⊢
      rw [ih (n + 1) _ _ j (by simpa using hj) (by simpa using hb)]
      simp

/-- C7 (clamping).  Whatever the slice, the predictor state the call is given
and the position `n` among the residual codes, the value that `slice::decode`
stores at `ptr[n * stride]` is `r + p` when that lies in `-32768 .. 32767`,
`32767` when `r + p` is larger and `-32768` when it is smaller, `r` being the
dequantised residual of `qr[n]` and `p` the prediction from the predictor state
at the start of iteration `n`: the sample saturates and never wraps around. -/
theorem slice_decode_clamps (s : slice) (state : LSMState) (buf : List Int)
    (ptr stride n : Nat) (hstride : 0 < stride) (hn : n < s.qr.length)
    (hbuf : ptr + n * stride < buf.length) :
    (s.decode state buf ptr stride).2[ptr + n * stride]? =
      some
        (if slice.residual (sf_dequant_tab.getD s.quant 0) (s.qr.getD n 0)
              + slice.predict (s.state_at state n) > 32767 then 32767
         else if slice.residual (sf_dequant_tab.getD s.quant 0) (s.qr.getD n 0)
              + slice.predict (s.state_at state n) < -32768 then -32768
         else slice.residual (sf_dequant_tab.getD s.quant 0) (s.qr.getD n 0)
              + slice.predict (s.state_at state n)) := by
  have h := decode_loop_get (sf_dequant_tab.getD s.quant 0) ptr stride hstride s.qr 0 state buf n
    hn (by simpa using hbuf)
  simp only [Nat.zero_add] at h
  unfold slice.decode
  rw [h]
  simp only [slice.decode_sample, to_i16_clamp, slice.state_at]
  rfl

/-- The clamping theorem at sample 6 of the slice `slice_a` decoded from the
predictor state `lsm` into a buffer of 20 samples: there `r + p` is below
`-32768` and the stored sample is `-32768`. -/
theorem slice_decode_clamps_witness :
    (0 < 1 ∧ 6 < sample.the_slice.qr.length ∧ 0 + 6 * 1 < (List.replicate 20 (0 : Int)).length)
      ∧ slice.residual (sf_dequant_tab.getD sample.the_slice.quant 0)
            (sample.the_slice.qr.getD 6 0)
          + slice.predict (sample.the_slice.state_at sample.the_state 6) < -32768
      ∧ (sample.the_slice.decode sample.the_state (List.replicate 20 0) 0 1).2[0 + 6 * 1]?
          = some (-32768) := by
  refine ⟨by decide, by decide, ?_⟩
  rw [slice_decode_clamps sample.the_slice sample.the_state (List.replicate 20 0) 0 1 6
    (by decide) (by decide) (by decide)]
  decide

theorem same_result_refl (a : Except Fault (DecodeResult × QOAPlayer)) :
    QOAPlayer.same_result a a := by
  rcases a with e | ⟨r, p⟩
  · simp [QOAPlayer.same_result]
  · simp [QOAPlayer.same_result]

theorem resize_length {α : Type} (v : List α) (n : Nat) (d : α) : (resize v n d).length = n := by
  simp [resize]; omega

/-- The loop of the `ReadLSMState` phase on two vectors of states that agree
below `idx`. -/
theorem read_lsm_states_agree :
    ∀ (k : Nat) (rd : FileReader) (idx : Nat) (s1 s2 : List LSMState),
      s1.length = s2.length → idx + k = s1.length → s1.take idx = s2.take idx →
      ∃ flag rd1 idx1 t1 t2,
        QOAPlayer.read_lsm_states k rd idx s1 = (flag, rd1, idx1, t1)
          ∧ QOAPlayer.read_lsm_states k rd idx s2 = (flag, rd1, idx1, t2)
          ∧ (flag = true → t1 = t2)
          ∧ (flag = false → rd1.bytes = [] ∧ idx1 < s1.length) := by
  intro k
  induction k with
  | zero =>
    intro rd idx s1 s2 hl hk ht
    refine ⟨true, rd, idx, s1, s2, rfl, rfl, ?_, by simp⟩
    intro _
    have h1 : s1.take idx = s1 := List.take_of_length_le (by omega)
    have h2 : s2.take idx = s2 := List.take_of_length_le (by omega)
    rw [← h1, ← h2, ht]
  | succ k ih =>
    intro rd idx s1 s2 hl hk ht
    by_cases h16 : 16 ≤ rd.bytes.length
    · obtain ⟨st, hst⟩ := (LSMState_read_spec rd).1 h16
      obtain ⟨flag, rd1, idx1, t1, t2, e1, e2, hf, hg⟩ :=
        ih ⟨rd.bytes.drop 16⟩ (idx + 1) (s1.set idx st) (s2.set idx st)
          (by simp [hl]) (by simp; omega)
          (by
            apply List.ext_getElem?
            intro i
            simp only [List.getElem?_take, List.getElem?_set]
            by_cases hi : i < idx + 1
            · simp only [hi, if_true]
              by_cases hii : idx = i
              · subst hii
                simp [hl]
              · have : i < idx := by omega
                have h3 := congrArg (fun l => l[i]?) ht
                simp only [List.getElem?_take, this, if_true] at h3
                simp [hii, h3]
            · simp [hi])
      refine ⟨flag, rd1, idx1, t1, t2, ?_, ?_, hf, ?_⟩
      · simp [QOAPlayer.read_lsm_states, hst, e1]
      · simp [QOAPlayer.read_lsm_states, hst, e2]
      · intro h; have := hg h; simpa using this
    · obtain ⟨e, he⟩ := (LSMState_read_spec rd).2 (by omega)
      refine ⟨false, ⟨[]⟩, idx, s1, s2, ?_, ?_, by simp, ?_⟩
      · simp [QOAPlayer.read_lsm_states, he]
      · simp [QOAPlayer.read_lsm_states, he]
      · intro _; exact ⟨rfl, by omega⟩

theorem decode_loop_related (n : Nat) :
    ∀ (fuel : Nat) (p q : QOAPlayer) (ip : Nat) (buf : List Int),
      p.reset_related q →
      QOAPlayer.same_result (QOAPlayer.decode_loop n fuel p ip buf)
        (QOAPlayer.decode_loop n fuel q ip buf) := by
  intro fuel
  induction fuel with
  | zero => intro p q ip buf _; simp [QOAPlayer.decode_loop, QOAPlayer.same_result]
  | succ fuel ih =>
    intro p q ip buf h
    obtain ⟨rd, hdr, fh, bp, st, nc, rs, li, si, d, sl, tmp⟩ := p
    obtain ⟨hq, hph⟩ := h
    rw [hq]
    simp only at hph ⊢
    rcases hph with h1 | ⟨h1, h2⟩
    · subst h1
      simp only [QOAPlayer.decode_loop, QOAPlayer.loop_body, QOAPlayer.phase_frame_header]
      rcases hfr : FrameHeader.read rd with ⟨_ | fh1, rd1⟩
      · simp only [QOAPlayer.same_result, true_and]
        left
        exact ⟨rfl, Or.inl rfl⟩
      · simp only
        apply ih
        exact ⟨rfl, Or.inr ⟨rfl, Or.inl rfl⟩⟩
    · subst h1
      simp only [QOAPlayer.decode_loop, QOAPlayer.loop_body, QOAPlayer.phase_lsm_state]
      rcases h2 with h2 | ⟨h2, h3⟩
      · subst h2
        obtain ⟨flag, rd1, idx1, t1, t2, e1, e2, hf, hg⟩ :=
          read_lsm_states_agree (fh.num_channels - 0) rd 0
            (resize st fh.num_channels LSMState.zero)
            (resize q.states fh.num_channels LSMState.zero)
            (by simp [resize_length]) (by simp [resize_length]) (by simp)
        rw [e1, e2]
        cases flag with
        | true =>
          rw [hf rfl]
          exact same_result_refl _
        | false =>
          simp only [QOAPlayer.same_result, true_and]
          left
          obtain ⟨g1, g2⟩ := hg rfl
          rw [resize_length] at g2
          exact ⟨rfl, Or.inr ⟨rfl, Or.inr ⟨g1, g2⟩⟩⟩
      · obtain ⟨k, hk⟩ : ∃ k, fh.num_channels - li = k + 1 := ⟨fh.num_channels - li - 1, by omega⟩
        obtain ⟨e, he⟩ := (LSMState_read_spec rd).2 (by rw [h2]; simp)
        rw [hk]
        simp only [QOAPlayer.read_lsm_states, he, QOAPlayer.same_result, true_and]
        left
        exact ⟨rfl, Or.inr ⟨rfl, Or.inr ⟨rfl, h3⟩⟩⟩

theorem decode_related (p q : QOAPlayer) (n : Nat) (h : p.reset_related q) :
    QOAPlayer.same_result (p.decode n) (q.decode n) := by
  obtain ⟨rd, hdr, fh, bp, st, nc, rs, li, si, d, sl, tmp⟩ := p
  obtain ⟨hq, hph⟩ := h
  rw [hq]
  simp only at hph ⊢
  unfold QOAPlayer.decode
  by_cases hn : n = 0
  · simp only [hn, if_true, QOAPlayer.same_result, true_and]
    left
    exact ⟨rfl, hph⟩
  · simp only [hn, if_false, QOAPlayer.drain]
    by_cases hb : bp.length > 0
    · simp only [hb, if_true]
      by_cases hc : nc = 0
      · simp [hc, QOAPlayer.same_result]
      · simp only [hc, if_false]
        by_cases ha : bp.length % nc ≠ 0
        · simp [ha, QOAPlayer.same_result]
        · simp only [ha, if_false]
          by_cases hi : min n bp.length = n
          · simp only [hi, if_true, QOAPlayer.same_result, true_and]
            left
            exact ⟨rfl, hph⟩
          · simp only [hi, if_false]
            exact decode_loop_related n _ _ _ _ _ ⟨rfl, hph⟩
    · simp only [hb, if_false]
      by_cases hi : 0 = n
      · simp only [hi, if_true, QOAPlayer.same_result, true_and]
        left
        exact ⟨rfl, hph⟩
      · simp only [hi, if_false]
        exact decode_loop_related n _ _ _ _ _ ⟨rfl, hph⟩

theorem decode_calls_related :
    ∀ (ns : List Nat) (p q : QOAPlayer), p.reset_related q ∨ p = q →
      p.decode_calls ns = q.decode_calls ns := by
  intro ns
  induction ns with
  | nil => intro p q _; rfl
  | cons n ns ih =>
    intro p q h
    rcases h with h | h
    · have hr := decode_related p q n h
      simp only [QOAPlayer.decode_calls]
      rcases hp : p.decode n with e1 | ⟨r1, p1⟩ <;> rcases hq : q.decode n with e2 | ⟨r2, p2⟩ <;>
        rw [hp, hq] at hr <;> simp only [QOAPlayer.same_result] at hr
      · rw [hr]
      · obtain ⟨hr1, hr2⟩ := hr
        simp only
        rw [hr1, ih p1 p2 hr2]
    · rw [h]

theorem read_lsm_states_parsed :
    ∀ (k : Nat) (rd : FileReader) (idx : Nat) (s : List LSMState) (rd1 : FileReader)
      (idx1 : Nat) (t : List LSMState),
      idx + k ≤ s.length → QOAPlayer.read_lsm_states k rd idx s = (true, rd1, idx1, t) →
      (∀ c, c < k → ∃ x, (LSMState.read ⟨rd.bytes.drop (16 * c)⟩).1 = .ok x
          ∧ t[idx + c]? = some x)
        ∧ (∀ i, i < idx → t[i]? = s[i]?) := by
  intro k
  induction k with
  | zero =>
    intro rd idx s rd1 idx1 t _ h
    simp only [QOAPlayer.read_lsm_states, Prod.mk.injEq] at h
    obtain ⟨-, -, -, rfl⟩ := h
    exact ⟨by intro c hc; omega, fun _ _ => rfl⟩
  | succ k ih =>
    intro rd idx s rd1 idx1 t hl h
    by_cases h16 : 16 ≤ rd.bytes.length
    · obtain ⟨st, hst⟩ := (LSMState_read_spec rd).1 h16
      simp only [QOAPlayer.read_lsm_states, hst] at h
      obtain ⟨g1, g2⟩ := ih _ _ _ _ _ _ (by simp; omega) h
      constructor
      · intro c hc
        cases c with
        | zero =>
          refine ⟨st, by simp [hst], ?_⟩
          rw [Nat.add_zero, g2 idx (by omega), List.getElem?_set_self (by omega)]
        | succ c =>
          obtain ⟨x, hx1, hx2⟩ := g1 c (by omega)
          refine ⟨x, ?_, ?_⟩
          · have e : List.drop (16 * (c + 1)) rd.bytes
                = List.drop (16 * c) (List.drop 16 rd.bytes) := by
              rw [List.drop_drop]; congr 1; omega
            rw [e]; exact hx1
          · rw [← hx2]
            congr 1
            omega
      · intro i hi
        rw [g2 i (by omega), List.getElem?_set_ne (by omega)]
    · obtain ⟨e, he⟩ := (LSMState_read_spec rd).2 (by omega)
      simp [QOAPlayer.read_lsm_states, he] at h

/-- C10 (predictor reset).  For an engine at the start of the `ReadLSMState`
phase of a frame: when the phase completes, `states[c]` is, for every channel
`c` of the frame, the state parsed from the sixteen bytes of the frame for that
channel, whatever `states` held before; and an engine that differs only in the
contents of `states` hands back the same results (values returned, samples
written, faults) for every sequence of calls of `decode`, so for that frame and
all later frames. -/
theorem predictor_reset (p : QOAPlayer) (hstate : p.read_state = .ReadLSMState)
    (hidx : p.lsm_read_idx = 0) :
    (∀ ip buf p1 ip1 buf1, p.phase_lsm_state ip buf = .ok (.cont p1 ip1 buf1) →
        ∀ c, c < p.frame_header.num_channels →
          ∃ x, (LSMState.read ⟨p.reader.bytes.drop (16 * c)⟩).1 = .ok x ∧ p1.states[c]? = some x)
      ∧ (∀ states2 ns,
          p.decode_calls ns = ({ p with states := states2 } : QOAPlayer).decode_calls ns) := by
  constructor
  · intro ip buf p1 ip1 buf1 h c hc
    unfold QOAPlayer.phase_lsm_state at h
    rw [hidx] at h
    dsimp only at h
    rcases hr : QOAPlayer.read_lsm_states (p.frame_header.num_channels - 0) p.reader 0
        (resize p.states p.frame_header.num_channels LSMState.zero) with ⟨flag, rd1, idx1, t⟩
    rw [hr] at h
    cases flag with
    | false => simp at h
    | true =>
      simp only [Except.ok.injEq, LoopOutcome.cont.injEq] at h
      obtain ⟨rfl, -, -⟩ := h
      obtain ⟨g1, -⟩ := read_lsm_states_parsed _ _ _ _ _ _ _ (by simp [resize_length]) hr
      obtain ⟨x, hx1, hx2⟩ := g1 c (by omega)
      exact ⟨x, hx1, by simpa using hx2⟩
  · intro states2 ns
    apply decode_calls_related
    left
    exact ⟨rfl, Or.inr ⟨hstate, Or.inl hidx⟩⟩

/-- The predictor-reset theorem for the engine made from `stereo20`: started
with another vector of states it returns the same 40 samples. -/
theorem predictor_reset_witness :
    (QOAPlayer.new sample.stereo20 = .ok sample.stereo20_engine
        ∧ sample.stereo20_engine.read_state = .ReadLSMState
        ∧ sample.stereo20_engine.lsm_read_idx = 0)
      ∧ (sample.stereo20_engine.decode_calls [40, 40]).map (Except.map DecodeResult.ret)
          = [.ok 40, .ok 0]
      ∧ sample.stereo20_engine.decode_calls [40, 40]
          = ({ sample.stereo20_engine with states := [sample.the_state] } :
              QOAPlayer).decode_calls [40, 40] :=
  ⟨by decide, by decide,
    (predictor_reset sample.stereo20_engine rfl rfl).2 [sample.the_state] [40, 40]⟩

/-! ## Records at the head of the input, batches -/

theorem LSMState_read_append (chunk rest : List (Fin 256)) (h : chunk.length = 16) :
    LSMState.read ⟨chunk ++ rest⟩ = (.ok (parse_state chunk), ⟨rest⟩) := by
  rcases chunk with _ | ⟨b0, _ | ⟨b1, _ | ⟨b2, _ | ⟨b3, _ | ⟨b4, _ | ⟨b5, _ | ⟨b6, _ | ⟨b7,
    _ | ⟨b8, _ | ⟨b9, _ | ⟨b10, _ | ⟨b11, _ | ⟨b12, _ | ⟨b13, _ | ⟨b14, _ | ⟨b15, _ | ⟨b16, l⟩⟩⟩⟩⟩⟩⟩⟩⟩⟩⟩⟩⟩⟩⟩⟩⟩ <;>
    simp at h
  simp [LSMState.read, LSMState.read_i16x4, FileReader.read_u16, FileReader.read, parse_state]

theorem read_qr_length : ∀ (k data : Nat) (qr : List Nat),
    (slice.read_qr k data qr).length = k + qr.length := by
  intro k
  induction k with
  | zero => intro data qr; simp [slice.read_qr]
  | succ k ih => intro data qr; simp [slice.read_qr, ih]; omega

theorem slice_read_append (chunk rest : List (Fin 256)) (h : chunk.length = 8) :
    slice.read ⟨chunk ++ rest⟩ = (.ok (parse_slice chunk), ⟨rest⟩)
      ∧ (parse_slice chunk).qr.length = 20 := by
  rcases chunk with _ | ⟨b0, _ | ⟨b1, _ | ⟨b2, _ | ⟨b3, _ | ⟨b4, _ | ⟨b5, _ | ⟨b6, _ | ⟨b7,
    _ | ⟨b8, l⟩⟩⟩⟩⟩⟩⟩⟩⟩ <;> simp at h
  simp [slice.read, FileReader.read, parse_slice, read_qr_length, QOA_SLICE_SAMPLES]

theorem FrameHeader_read_append (h rest : List (Fin 256)) (fh : FrameHeader) (r : FileReader)
    (hl : h.length = 8) (hr : FrameHeader.read ⟨h⟩ = (.ok fh, r)) :
    FrameHeader.read ⟨h ++ rest⟩ = (.ok fh, ⟨rest⟩)
      ∧ 0 < fh.num_channels ∧ fh.num_channels < 256 := by
  rcases h with _ | ⟨b0, _ | ⟨b1, _ | ⟨b2, _ | ⟨b3, _ | ⟨b4, _ | ⟨b5, _ | ⟨b6, _ | ⟨b7,
    _ | ⟨b8, l⟩⟩⟩⟩⟩⟩⟩⟩⟩ <;> simp at hl
  simp only [FrameHeader.read, FileReader.read_u8, FileReader.read_u24, FileReader.read_u16,
    FileReader.read, List.take, List.drop, List.cons_append, List.nil_append] at hr ⊢
  split_ifs at hr ⊢ <;> simp_all
  obtain ⟨rfl, -⟩ := hr
  simp only
  omega

theorem FileHeader_read_append (h rest : List (Fin 256)) (hd : FileHeader) (r : FileReader)
    (hl : h.length = 8) (hr : FileHeader.read ⟨h⟩ = (.ok hd, r)) :
    FileHeader.read ⟨h ++ rest⟩ = (.ok hd, ⟨rest⟩) ∧ hd.samples < 2 ^ 32 := by
  rcases h with _ | ⟨b0, _ | ⟨b1, _ | ⟨b2, _ | ⟨b3, _ | ⟨b4, _ | ⟨b5, _ | ⟨b6, _ | ⟨b7,
    _ | ⟨b8, l⟩⟩⟩⟩⟩⟩⟩⟩⟩ <;> simp at hl
  simp only [FileHeader.read, FileReader.read_u32,
    FileReader.read, List.take, List.drop, List.cons_append, List.nil_append] at hr ⊢
  split_ifs at hr ⊢ <;> simp_all
  obtain ⟨rfl, -⟩ := hr
  simp only
  omega

theorem slice_decode_fst (s : slice) (state : LSMState) (buf : List Int) (ptr stride : Nat) :
    (s.decode state buf ptr stride).1 = s.final_state state := by
  simp only [slice.decode, slice.final_state, decode_loop_state]

theorem slice_decode_length (s : slice) (state : LSMState) (buf : List Int) (ptr stride : Nat) :
    (s.decode state buf ptr stride).2.length = buf.length := by
  simp only [slice.decode, decode_loop_length]

theorem slice_samples_length (s : slice) (state : LSMState) :
    (s.samples state).length = s.qr.length := by
  simp [slice.samples, slice_decode_length]

theorem slice_decode_get (s : slice) (state : LSMState) (buf : List Int) (ptr stride j : Nat)
    (hs : 0 < stride) (hj : j < s.qr.length) (hb : ptr + j * stride < buf.length) :
    (s.decode state buf ptr stride).2[ptr + j * stride]? = some ((s.samples state).getD j 0) := by
  have h1 := decode_loop_get (sf_dequant_tab.getD s.quant 0) ptr stride hs s.qr 0 state buf j hj
    (by simpa using hb)
  have h2 := decode_loop_get (sf_dequant_tab.getD s.quant 0) 0 1 (by omega) s.qr 0 state
    (List.replicate s.qr.length 0) j hj (by simpa using hj)
  simp only [Nat.zero_add, Nat.mul_one] at h1 h2
  have h3 : (s.samples state).getD j 0
      = (slice.decode_sample (sf_dequant_tab.getD s.quant 0) (s.qr.getD j 0)
          (List.foldl (fun st q => (slice.decode_sample (sf_dequant_tab.getD s.quant 0) q st).2)
            state (List.take j s.qr))).1 := by
    unfold slice.samples slice.decode
    generalize slice.decode_loop (sf_dequant_tab.getD s.quant 0) 0 1 s.qr 0 state
      (List.replicate s.qr.length 0) = r at h2 ⊢
    rw [List.getD_eq_getElem?_getD, h2]
    rfl
  rw [h3]
  exact h1

theorem slice_decode_get_other (s : slice) (state : LSMState) (buf : List Int)
    (ptr stride i : Nat) (h : ∀ j, j < s.qr.length → i ≠ ptr + j * stride) :
    (s.decode state buf ptr stride).2[i]? = buf[i]? := by
  unfold slice.decode
  apply decode_loop_get_other
  intro j hj
  simpa using h j hj

theorem decode_channels_spec (C : Nat) (b : List slice) (hb : b.length = C)
    (hqr : ∀ s ∈ b, s.qr.length = 20) :
    ∀ (k ch : Nat) (states : List LSMState) (tmp : List Int),
      ch + k = C → states.length = C → tmp.length = 20 * C →
      ∃ st1 tmp1, QOAPlayer.decode_channels C b k ch states tmp = .ok (st1, tmp1)
        ∧ st1.length = C ∧ tmp1.length = 20 * C
        ∧ (∀ i, i < ch → st1[i]? = states[i]?)
        ∧ (∀ i, ch ≤ i → i < C → st1[i]?
            = some ((b.getD i ⟨0, []⟩).final_state (states.getD i LSMState.zero)))
        ∧ (∀ i, i < 20 * C → tmp1[i]? =
            if i % C < ch then tmp[i]?
            else some (((b.getD (i % C) ⟨0, []⟩).samples
                  (states.getD (i % C) LSMState.zero)).getD (i / C) 0)) := by
  intro k
  induction k with
  | zero =>
    intro ch states tmp hk hs ht
    refine ⟨states, tmp, rfl, hs, ht, fun _ _ => rfl, ?_, ?_⟩
    · intro i h1 h2; omega
    · intro i hi
      have hC : 0 < C := by
        rcases Nat.eq_zero_or_pos C with h | h
        · subst h; omega
        · exact h
      have : i % C < ch := by
        have := Nat.mod_lt i hC
        omega
      simp [this]
  | succ k ih =>
    intro ch states tmp hk hs ht
    have hch : ch < C := by omega
    have hbs : b[ch]? = some (b.getD ch ⟨0, []⟩) := by
      rw [List.getD_eq_getElem?_getD, List.getElem?_eq_getElem (by omega)]; rfl
    have hss : states[ch]? = some (states.getD ch LSMState.zero) := by
      rw [List.getD_eq_getElem?_getD, List.getElem?_eq_getElem (by omega)]; rfl
    have hq : (b.getD ch ⟨0, []⟩).qr.length = 20 := by
      apply hqr
      rw [List.getD_eq_getElem?_getD, List.getElem?_eq_getElem (by omega)]
      exact List.getElem_mem _
    obtain ⟨st1, tmp1, e, l1, l2, g1, g2, g3⟩ :=
      ih (ch + 1)
        (states.set ch ((b.getD ch ⟨0, []⟩).decode (states.getD ch LSMState.zero) tmp ch C).1)
        ((b.getD ch ⟨0, []⟩).decode (states.getD ch LSMState.zero) tmp ch C).2
        (by omega) (by simp [hs]) (by rw [slice_decode_length, ht])
    refine ⟨st1, tmp1, ?_, l1, l2, ?_, ?_, ?_⟩
    · simp only [QOAPlayer.decode_channels, hbs, hss]
      exact e
    · intro i hi
      rw [g1 i (by omega), List.getElem?_set_ne (by omega)]
    · intro i h1 h2
      rcases Nat.eq_or_lt_of_le h1 with h | h
      · subst h
        rw [g1 ch (by omega), List.getElem?_set_self (by omega), slice_decode_fst]
      · rw [g2 i (by omega) h2, List.getD_eq_getElem?_getD (states.set _ _),
          List.getElem?_set_ne (by omega), ← List.getD_eq_getElem?_getD]
    · intro i hi
      rw [g3 i hi]
      by_cases h1 : i % C < ch
      · have h2 : i % C < ch + 1 := by omega
        simp only [h1, h2, if_true]
        apply slice_decode_get_other
        intro j _ hj
        have : (ch + j * C) % C = ch := by
          rw [Nat.add_mul_mod_self_right, Nat.mod_eq_of_lt hch]
        rw [hj, this] at h1
        omega
      · by_cases h2 : i % C = ch
        · have h3 : i % C < ch + 1 := by omega
          simp only [h1, h3, if_true, if_false]
          have hi2 : i = ch + (i / C) * C := by
            have := Nat.div_add_mod i C
            rw [h2] at this
            rw [Nat.mul_comm] at this
            omega
          have hj : i / C < 20 := by
            apply Nat.div_lt_of_lt_mul
            rw [Nat.mul_comm]; exact hi
          rw [h2]
          conv_lhs => rw [hi2]
          rw [slice_decode_get _ _ _ _ _ _ (by omega) (by rw [hq]; exact hj)
            (by rw [← hi2, ht]; exact hi)]
        · have h3 : ¬ i % C < ch + 1 := by omega
          simp only [h1, h3, if_false]
          rw [List.getD_eq_getElem?_getD (states.set _ _),
            List.getElem?_set_ne (by omega), ← List.getD_eq_getElem?_getD]

theorem batch_out_length (C : Nat) (b : List slice) (states : List LSMState) :
    (batch_out C b states).length = 20 * C := by
  simp [batch_out]

theorem batch_states_length (C : Nat) (b : List slice) (states : List LSMState) :
    (batch_states C b states).length = C := by
  simp [batch_states]

theorem decode_channels_eq (C : Nat) (b : List slice) (states : List LSMState) (tmp : List Int)
    (hb : b.length = C) (hqr : ∀ s ∈ b, s.qr.length = 20) (hs : states.length = C)
    (ht : tmp.length = 20 * C) :
    QOAPlayer.decode_channels C b C 0 states tmp
      = .ok (batch_states C b states, batch_out C b states) := by
  obtain ⟨st1, tmp1, e, l1, l2, -, g2, g3⟩ :=
    decode_channels_spec C b hb hqr C 0 states tmp (by omega) hs ht
  rw [e]
  have e1 : st1 = batch_states C b states := by
    apply List.ext_getElem?
    intro i
    by_cases hi : i < C
    · rw [g2 i (by omega) hi]
      simp [batch_states, hi]
    · rw [List.getElem?_eq_none (by omega), List.getElem?_eq_none (by simp [batch_states]; omega)]
  have e2 : tmp1 = batch_out C b states := by
    apply List.ext_getElem?
    intro i
    by_cases hi : i < 20 * C
    · rw [g3 i hi]
      simp [batch_out, hi]
    · rw [List.getElem?_eq_none (by omega), List.getElem?_eq_none (by simp [batch_out]; omega)]
  rw [e1, e2]

theorem read_slices_batch (C : Nat) (rest : List (Fin 256)) :
    ∀ (suf : List (List (Fin 256))) (pre : List slice) (k idx : Nat),
      pre.length + suf.length = C → suf.length ≤ k → (∀ s ∈ suf, s.length = 8) →
      QOAPlayer.read_slices C k ⟨suf.flatten ++ rest⟩ idx pre
        = (⟨rest⟩, idx + suf.length, pre ++ suf.map parse_slice) := by
  intro suf
  induction suf with
  | nil =>
    intro pre k idx h1 _ _
    cases k with
    | zero => simp [QOAPlayer.read_slices]
    | succ k =>
      have : pre.length = C := by simpa using h1
      simp [QOAPlayer.read_slices, this]
  | cons s suf ih =>
    intro pre k idx h1 h2 h3
    cases k with
    | zero => simp at h2
    | succ k =>
      have hne : pre.length ≠ C := by simp at h1; omega
      have hs := (slice_read_append s (suf.flatten ++ rest) (h3 s (by simp))).1
      simp only [List.flatten_cons, List.append_assoc, QOAPlayer.read_slices, hne, if_false, hs]
      rw [ih (pre ++ [parse_slice s]) k (idx + 1) (by simp at h1 ⊢; omega) (by simp at h2; omega)
        (fun x hx => h3 x (by simp [hx]))]
      simp
      omega

theorem take_set_succ {α : Type} : ∀ (l : List α) (i : Nat) (x : α), i < l.length →
    (l.set i x).take (i + 1) = l.take i ++ [x] := by
  intro l
  induction l with
  | nil => intro i x h; simp at h
  | cons a l ih =>
    intro i x h
    cases i with
    | zero => simp
    | succ i =>
      simp only [List.set_cons_succ, List.take_succ_cons, List.cons_append, List.cons.injEq, true_and]
      exact ih i x (by simpa using h)

theorem read_lsm_states_frame (rest : List (Fin 256)) :
    ∀ (chunks : List (List (Fin 256))) (idx : Nat) (states : List LSMState),
      idx + chunks.length = states.length → (∀ s ∈ chunks, s.length = 16) →
      QOAPlayer.read_lsm_states chunks.length ⟨chunks.flatten ++ rest⟩ idx states
        = (true, ⟨rest⟩, idx + chunks.length,
            states.take idx ++ chunks.map parse_state) := by
  intro chunks
  induction chunks with
  | nil =>
    intro idx states h1 _
    simp at h1
    simp [QOAPlayer.read_lsm_states, h1]
  | cons s chunks ih =>
    intro idx states h1 h3
    have hs := LSMState_read_append s (chunks.flatten ++ rest) (h3 s (by simp))
    simp only [List.flatten_cons, List.append_assoc, QOAPlayer.read_lsm_states, hs, List.length_cons]
    rw [ih (idx + 1) _ (by simp at h1 ⊢; omega) (fun x hx => h3 x (by simp [hx]))]
    simp only [List.length_cons] at h1
    rw [take_set_succ _ _ _ (by omega)]
    simp
    omega


theorem size_sub_eq (a b : Nat) (h : b ≤ a) (ha : a < 2 ^ 64) : size_sub a b = a - b := by
  unfold size_sub
  omega

theorem size_mul_eq (a b : Nat) (h : a * b < 2 ^ 64) : size_mul a b = a * b := by
  unfold size_mul
  exact Nat.mod_eq_of_lt h

theorem phase_slice_full (p : QOAPlayer) (C S n ip : Nat) (buf : List Int)
    (b : List (List (Fin 256))) (rest : List (Fin 256))
    (hr : p.reader.bytes = b.flatten ++ rest) (hb : batch_wf C b)
    (hfc : p.frame_header.num_channels = C) (hsl : p.slices = [])
    (hidx : p.slice_read_idx + C ≤ 256 * C) (hst : p.states.length = C)
    (hS : p.header.samples = S) (hS2 : S < 2 ^ 32) (hd : p.decoded_sample_ch + 20 ≤ S)
    (hC : 0 < C) (hC2 : C < 256) (hn : n < 2 ^ 64) (hdvd : 20 * C ∣ n)
    (hip : 20 * C ∣ ip) (hlt : ip < n) :
    p.phase_slice n ip buf =
      if ip + 20 * C = n then
        .ok (.ret ⟨ip + 20 * C, buf ++ batch_out C (b.map parse_slice) p.states⟩
          { p with
            reader := ⟨rest⟩
            slices := []
            states := batch_states C (b.map parse_slice) p.states
            decode_tmp := batch_out C (b.map parse_slice) p.states
            decoded_sample_ch := p.decoded_sample_ch + 20
            slice_read_idx :=
              if p.slice_read_idx + C = 256 * C ∨ p.decoded_sample_ch + 20 = S then 0
              else p.slice_read_idx + C
            read_state :=
              if p.slice_read_idx + C = 256 * C ∨ p.decoded_sample_ch + 20 = S then
                .ReadFrameHeader
              else p.read_state })
      else
        .ok (.cont
          { p with
            reader := ⟨rest⟩
            slices := []
            states := batch_states C (b.map parse_slice) p.states
            decode_tmp := batch_out C (b.map parse_slice) p.states
            decoded_sample_ch := p.decoded_sample_ch + 20
            slice_read_idx :=
              if p.slice_read_idx + C = 256 * C ∨ p.decoded_sample_ch + 20 = S then 0
              else p.slice_read_idx + C
            read_state :=
              if p.slice_read_idx + C = 256 * C ∨ p.decoded_sample_ch + 20 = S then
                .ReadFrameHeader
              else p.read_state }
          (ip + 20 * C) (buf ++ batch_out C (b.map parse_slice) p.states)) := by
  obtain ⟨⟨rd⟩, ⟨hdr⟩, fh, bp, st, nc, rs, li, si, d, sl, tmp⟩ := p
  simp only at hr hfc hsl hidx hst hS hd
  subst hr hsl hS
  have hread := read_slices_batch C rest b [] (256 * C - si) si (by simpa using hb.1)
    (by rw [hb.1]; omega) hb.2
  rw [List.nil_append, hb.1] at hread
  have hqr : ∀ s ∈ b.map parse_slice, s.qr.length = 20 := by
    intro s hs
    simp only [List.mem_map] at hs
    obtain ⟨c, hc, rfl⟩ := hs
    exact (slice_read_append c [] (hb.2 c hc)).2
  have hdec := decode_channels_eq C (b.map parse_slice) st
    (resize tmp (C * QOA_SLICE_SAMPLES) 0) (by simpa using hb.1) hqr hst
    (by rw [resize_length, QOA_SLICE_SAMPLES]; omega)
  have hal : n / C * C = n :=
    Nat.div_mul_cancel (Dvd.dvd.trans (Dvd.intro_left 20 rfl) hdvd)
  have hnpos : n ≠ 0 := by omega
  have hle : ip + 20 * C ≤ n := by
    obtain ⟨a, rfl⟩ := hdvd
    obtain ⟨c, rfl⟩ := hip
    have : c < a := Nat.lt_of_mul_lt_mul_left hlt
    calc 20 * C * c + 20 * C = 20 * C * (c + 1) := by ring
      _ ≤ 20 * C * a := Nat.mul_le_mul_left _ this
  have hsub : size_sub n ip = n - ip := size_sub_eq n ip (by omega) hn
  have hsub2 : size_sub hdr d = hdr - d := size_sub_eq hdr d (by omega) (by omega)
  have hmul : size_mul (hdr - d) C = (hdr - d) * C := by
    apply size_mul_eq
    calc (hdr - d) * C ≤ 2 ^ 32 * 256 :=
          Nat.mul_le_mul (by omega) (by omega)
      _ < 2 ^ 64 := by norm_num
  have hbig : 20 * C ≤ (hdr - d) * C := Nat.mul_le_mul_right C (by omega)
  have hcan : min (min (n - ip) (batch_out C (b.map parse_slice) st).length) ((hdr - d) * C)
      = 20 * C := by
    rw [batch_out_length]
    omega
  have hdiv : 20 * C / C = 20 := Nat.mul_div_cancel 20 hC
  have hC0 : C ≠ 0 := by omega
  simp only [QOAPlayer.phase_slice, hfc, hread, hb.1, hdec, hC0, if_false, hal, hnpos, hsub,
    hsub2, hmul, hcan, hdiv, List.take_of_length_le (Nat.le_of_eq (batch_out_length _ _ _)),
    List.drop_of_length_le (Nat.le_of_eq (batch_out_length _ _ _)), List.append_nil]
  by_cases hcond : si + C = 256 * C ∨ d + 20 = hdr
  · simp only [hcond, if_true]
  · simp only [hcond, if_false]


/-! ## The streaming engine along a stream -/

theorem flatten_pos {α : Type} (l : List (List α)) (k : Nat) (hk : 0 < k) (hl : 0 < l.length)
    (h : ∀ s ∈ l, s.length = k) : 0 < l.flatten.length := by
  rcases l with _ | ⟨a, l⟩
  · simp at hl
  · have := h a (by simp)
    simp only [List.flatten_cons, List.length_append]
    omega

theorem reader_eq (rd : FileReader) (l : List (Fin 256)) (h : rd.bytes = l) : rd = ⟨l⟩ := by
  cases rd; simp only at h; rw [h]

theorem phase_slice_batch (p : QOAPlayer) (C S n ip : Nat) (buf : List Int)
    (b : List (List (Fin 256))) (rest : List (Fin 256))
    (hr : p.reader.bytes = b.flatten ++ rest) (hb : batch_wf C b)
    (hfc : p.frame_header.num_channels = C) (hsl : p.slices = [])
    (hidx : p.slice_read_idx + C ≤ 256 * C) (hst : p.states.length = C)
    (hS : p.header.samples = S) (hS2 : S < 2 ^ 32) (hd : p.decoded_sample_ch + 20 ≤ S)
    (hC : 0 < C) (hC2 : C < 256) (hn : n < 2 ^ 64) (hdvd : 20 * C ∣ n)
    (hip : 20 * C ∣ ip) (hlt : ip < n) :
    ∃ p1 : QOAPlayer,
      p.phase_slice n ip buf =
          (if ip + 20 * C = n then
            .ok (.ret ⟨ip + 20 * C, buf ++ batch_out C (b.map parse_slice) p.states⟩ p1)
          else
            .ok (.cont p1 (ip + 20 * C) (buf ++ batch_out C (b.map parse_slice) p.states)))
        ∧ p1.reader.bytes = rest ∧ p1.slices = []
        ∧ p1.states = batch_states C (b.map parse_slice) p.states
        ∧ p1.decoded_sample_ch = p.decoded_sample_ch + 20
        ∧ p1.slice_read_idx =
            (if p.slice_read_idx + C = 256 * C ∨ p.decoded_sample_ch + 20 = S then 0
              else p.slice_read_idx + C)
        ∧ p1.read_state =
            (if p.slice_read_idx + C = 256 * C ∨ p.decoded_sample_ch + 20 = S then
              .ReadFrameHeader else p.read_state)
        ∧ p1.header = p.header ∧ p1.frame_header = p.frame_header
        ∧ p1.buffered_pcm = p.buffered_pcm :=
  ⟨_, phase_slice_full p C S n ip buf b rest hr hb hfc hsl hidx hst hS hS2 hd hC hC2 hn hdvd
      hip hlt, rfl, rfl, rfl, rfl, rfl, rfl, rfl, rfl, rfl⟩

theorem pos_step (S C n : Nat) (hS : S < 2 ^ 32) (hC : 0 < C) (hC2 : C < 256)
    (hn : n < 2 ^ 64) (hdvd : 20 * C ∣ n)
    (p : QOAPlayer) (ref : List Int) (hpos : Pos S C p ref)
    (ip : Nat) (buf : List Int) (hip : 20 * C ∣ ip) (hlt : ip < n) :
    ∃ out ref1 p1, ref = out ++ ref1 ∧ Pos S C p1 ref1 ∧ 20 * C ∣ ip + out.length ∧
      ((p.loop_body n ip buf = .ok (.cont p1 (ip + out.length) (buf ++ out))
          ∧ p1.reader.bytes.length < p.reader.bytes.length ∧ ip + out.length < n)
        ∨ (p.loop_body n ip buf = .ok (.ret ⟨ip + out.length, buf ++ out⟩ p1)
          ∧ (ref1 = [] ∨ ip + out.length = n))) := by
  cases hpos with
  | frame fs hr hok hrs hsm hbp hsl =>
    rcases fs with _ | ⟨f, fs⟩
    · refine ⟨[], [], { p with reader := ⟨[]⟩ }, rfl,
        Pos.frame _ [] rfl trivial hrs hsm hbp hsl, by simpa using hip, Or.inr ⟨?_, Or.inl rfl⟩⟩
      have : p.reader = ⟨[]⟩ := reader_eq _ _ hr
      simp [QOAPlayer.loop_body, hrs, QOAPlayer.phase_frame_header, this, FrameHeader.read,
        FileReader.read_u8, FileReader.read]
    · obtain ⟨hwf, h1, h2, h3, h4, hok2⟩ := hok
      obtain ⟨hl, ⟨fh, r, hfh, hfc⟩, hsl2, hs16, hbw⟩ := hwf
      have hread := (FrameHeader_read_append f.header
        (f.states.flatten ++ (batches_bytes f.batches ++ frames_bytes fs)) fh r hl hfh).1
      have hrd : p.reader = ⟨f.header ++
          (f.states.flatten ++ (batches_bytes f.batches ++ frames_bytes fs))⟩ :=
        reader_eq _ _ hr
      refine ⟨[], _,
        { p with
            reader := ⟨f.states.flatten ++ (batches_bytes f.batches ++ frames_bytes fs)⟩
            frame_header := fh
            read_state := .ReadLSMState
            lsm_read_idx := 0 }, rfl,
        Pos.lsm _ f fs rfl ⟨⟨hl, ⟨fh, r, hfh, hfc⟩, hsl2, hs16, hbw⟩, h1, h2, h3, h4, hok2⟩
          rfl rfl hfc hsm hbp hsl,
        by simpa using hip, Or.inl ⟨?_, ?_, by simpa using hlt⟩⟩
      · simp [QOAPlayer.loop_body, hrs, QOAPlayer.phase_frame_header, hrd, hread]
      · rw [hrd]; simp; omega
  | lsm f fs hr hok hrs hli hfc hsm hbp hsl =>
    obtain ⟨hwf, h1, h2, h3, h4, hok2⟩ := hok
    obtain ⟨hl, hfh, hsl2, hs16, hbw⟩ := hwf
    have hrd : p.reader = ⟨f.states.flatten ++ (batches_bytes f.batches ++ frames_bytes fs)⟩ :=
      reader_eq _ _ hr
    have hread := read_lsm_states_frame (batches_bytes f.batches ++ frames_bytes fs) f.states 0
      (resize p.states C LSMState.zero) (by rw [resize_length]; omega) hs16
    rw [hsl2] at hread
    obtain ⟨b, bs, hbs⟩ : ∃ b bs, f.batches = b :: bs := by
      rcases hfb : f.batches with _ | ⟨b, bs⟩
      · rw [hfb] at h1; simp at h1
      · exact ⟨b, bs, rfl⟩
    refine ⟨[], _,
      { p with
          reader := ⟨batches_bytes f.batches ++ frames_bytes fs⟩
          lsm_read_idx := 0 + C
          states := f.states.map parse_state
          slice_read_idx := 0
          decoded_sample_ch := 0
          read_state := .ReadSlice }, rfl,
      Pos.batch _ f.batches fs 0 rfl hbw (by rw [hbs]; simp) (by omega) (by omega)
        (by omega) hok2 rfl (by simp) (by simp) hfc (by simp [hsl2]) hsm hbp hsl,
      by simpa using hip, Or.inl ⟨?_, ?_, by simpa using hlt⟩⟩
    · simp [QOAPlayer.loop_body, hrs, QOAPlayer.phase_lsm_state, hrd, hli, hfc, hread]
    · rw [hrd]
      have := flatten_pos f.states 16 (by omega) (by omega) hs16
      simp only [List.length_append]; omega
  | batch bs fs kd hr hbw hne h256 h20 hlast hok hrs hsi hd hfc hst hsm hbp hsl =>
    rcases bs with _ | ⟨b, bs⟩
    · exact absurd rfl hne
    · simp only [List.length_cons] at h256 h20 hlast
      have hbwf : batch_wf C b := hbw b (by simp)
      have hmul1 : C * kd + C = C * (kd + 1) := by ring
      obtain ⟨p1, hfull, q1, q2, q3, q4, q5, q6, q7, q8, q9⟩ :=
        phase_slice_batch p C S n ip buf b (batches_bytes bs ++ frames_bytes fs)
          (by rw [hr]; simp [batches_bytes]) hbwf hfc hsl
          (by rw [hsi, hmul1, Nat.mul_comm 256 C]; exact Nat.mul_le_mul_left C (by omega))
          hst hsm hS (by omega) hC hC2 hn hdvd hip hlt
      have hlen : (batch_out C (b.map parse_slice) p.states).length = 20 * C :=
        batch_out_length _ _ _
      have hfp := flatten_pos b 8 (by omega) (by rw [hbwf.1]; exact hC) hbwf.2
      have hdv : 20 * C ∣ ip + (batch_out C (b.map parse_slice) p.states).length := by
        rw [hlen]; exact Dvd.dvd.add hip (dvd_refl _)
      have hdecr : p1.reader.bytes.length < p.reader.bytes.length := by
        rw [hr, q1]; simp only [batches_bytes, List.length_append]; omega
      have hsm1 : p1.header.samples = S := by rw [q7]; exact hsm
      have hfc1 : p1.frame_header.num_channels = C := by rw [q8]; exact hfc
      have hbp1 : p1.buffered_pcm = [] := by rw [q9]; exact hbp
      have hrun : (p.loop_body n ip buf
            = .ok (.cont p1 (ip + (batch_out C (b.map parse_slice) p.states).length)
                (buf ++ batch_out C (b.map parse_slice) p.states))
            ∧ p1.reader.bytes.length < p.reader.bytes.length
            ∧ ip + (batch_out C (b.map parse_slice) p.states).length < n)
          ∨ (p.loop_body n ip buf
              = .ok (.ret ⟨ip + (batch_out C (b.map parse_slice) p.states).length,
                  buf ++ batch_out C (b.map parse_slice) p.states⟩ p1)
            ∧ ip + (batch_out C (b.map parse_slice) p.states).length = n) := by
        have hle : ip + 20 * C ≤ n := by
          obtain ⟨a, rfl⟩ := hdvd
          obtain ⟨c, rfl⟩ := hip
          have : c < a := Nat.lt_of_mul_lt_mul_left hlt
          calc 20 * C * c + 20 * C = 20 * C * (c + 1) := by ring
            _ ≤ 20 * C * a := Nat.mul_le_mul_left _ this
        by_cases hfin : ip + 20 * C = n
        · right
          simp only [hfin, if_true] at hfull
          exact ⟨by simp only [QOAPlayer.loop_body, hrs, hfull, hlen, hfin],
            by rw [hlen]; exact hfin⟩
        · left
          simp only [hfin, if_false] at hfull
          exact ⟨by simp only [QOAPlayer.loop_body, hrs, hfull, hlen], hdecr,
            by rw [hlen]; omega⟩
      rcases bs with _ | ⟨b2, bs⟩
      · -- the last batch of the frame
        have hcond : p.slice_read_idx + C = 256 * C ∨ p.decoded_sample_ch + 20 = S := by
          rcases hlast with h | h
          · left
            rw [hsi, hmul1, Nat.mul_comm 256 C]
            simp only [List.length_nil] at h
            rw [show kd + 1 = 256 by omega]
          · right; rw [hd]; simp only [List.length_nil] at h; omega
        simp only [hcond, if_true] at q5 q6
        refine ⟨batch_out C (b.map parse_slice) p.states, stream_ref C fs, p1, ?_,
          Pos.frame p1 fs (by rw [q1]; simp [batches_bytes]) hok q6 hsm1 hbp1 q2, hdv, ?_⟩
        · simp [parse_batches, frame_ref]
        · rcases hrun with h | h
          · exact Or.inl h
          · exact Or.inr ⟨h.1, Or.inr h.2⟩
      · -- more batches follow in the frame
        have hcond : ¬ (p.slice_read_idx + C = 256 * C ∨ p.decoded_sample_ch + 20 = S) := by
          simp only [List.length_cons] at h256 h20 hlast
          intro h
          rcases h with h | h
          · rw [hsi, hmul1, Nat.mul_comm 256 C] at h
            have := Nat.eq_of_mul_eq_mul_left hC h
            omega
          · rw [hd] at h; omega
        simp only [hcond, if_false] at q5 q6
        have hpos1 := Pos.batch (S := S) (C := C) p1 (b2 :: bs) fs (kd + 1) q1
          (fun x hx => hbw x (by simp [hx])) (by simp)
          (by simp only [List.length_cons] at h256 ⊢; omega)
          (by simp only [List.length_cons] at h20 ⊢; omega)
          (by simp only [List.length_cons] at hlast ⊢; omega)
          hok (by rw [q6]; exact hrs) (by rw [q5, hsi]; ring) (by rw [q4, hd]; ring) hfc1
          (by rw [q3]; exact batch_states_length _ _ _) hsm1 hbp1 q2
        rw [q3] at hpos1
        refine ⟨batch_out C (b.map parse_slice) p.states, _, p1, ?_, hpos1, hdv, ?_⟩
        · simp [parse_batches, frame_ref]
        · rcases hrun with h | h
          · exact Or.inl h
          · exact Or.inr ⟨h.1, Or.inr h.2⟩


theorem pos_loop (S C n : Nat) (hS : S < 2 ^ 32) (hC : 0 < C) (hC2 : C < 256)
    (hn : n < 2 ^ 64) (hdvd : 20 * C ∣ n) :
    ∀ (fuel : Nat) (p : QOAPlayer) (ref : List Int) (ip : Nat) (buf : List Int),
      Pos S C p ref → 20 * C ∣ ip → ip < n → p.reader.bytes.length < fuel →
      ∃ out ref1 p1,
        QOAPlayer.decode_loop n fuel p ip buf = .ok (⟨ip + out.length, buf ++ out⟩, p1)
          ∧ ref = out ++ ref1 ∧ Pos S C p1 ref1 ∧ (ref1 = [] ∨ ip + out.length = n) := by
  intro fuel
  induction fuel with
  | zero => intro p ref ip buf _ _ _ h; omega
  | succ fuel ih =>
    intro p ref ip buf hpos hip hlt hfuel
    obtain ⟨out, ref1, p1, e1, hp1, hd1, hcase⟩ :=
      pos_step S C n hS hC hC2 hn hdvd p ref hpos ip buf hip hlt
    rcases hcase with ⟨hb, hdec, hlt1⟩ | ⟨hb, hfin⟩
    · obtain ⟨out2, ref2, p2, e2, e3, hp2, hfin2⟩ :=
        ih p1 ref1 (ip + out.length) (buf ++ out) hp1 hd1 hlt1 (by omega)
      refine ⟨out ++ out2, ref2, p2, ?_, ?_, hp2, ?_⟩
      · simp only [QOAPlayer.decode_loop, hb, e2, List.length_append, List.append_assoc,
          Nat.add_assoc]
      · rw [e1, e3, List.append_assoc]
      · rcases hfin2 with h | h
        · exact Or.inl h
        · right; rw [List.length_append, ← Nat.add_assoc]; exact h
    · exact ⟨out, ref1, p1, by simp only [QOAPlayer.decode_loop, hb], e1, hp1, hfin⟩

theorem pos_buffered (S C : Nat) (p : QOAPlayer) (ref : List Int) (h : Pos S C p ref) :
    p.buffered_pcm = [] := by
  cases h <;> assumption

theorem pos_decode (S C n : Nat) (hS : S < 2 ^ 32) (hC : 0 < C) (hC2 : C < 256)
    (hn : n < 2 ^ 64) (hdvd : 20 * C ∣ n) (hpos : 0 < n)
    (p : QOAPlayer) (ref : List Int) (hp : Pos S C p ref) :
    ∃ out ref1 p1, p.decode n = .ok (⟨out.length, out⟩, p1)
      ∧ ref = out ++ ref1 ∧ Pos S C p1 ref1 ∧ (ref1 = [] ∨ out.length = n) := by
  obtain ⟨out, ref1, p1, e, e1, hp1, hfin⟩ :=
    pos_loop S C n hS hC hC2 hn hdvd (p.reader.bytes.length + 4) p ref 0 [] hp (by simp) hpos
      (by omega)
  refine ⟨out, ref1, p1, ?_, e1, hp1, by simpa using hfin⟩
  have hb := pos_buffered S C p ref hp
  have hn0 : n ≠ 0 := by omega
  have hn1 : ¬ 0 = n := by omega
  simp only [QOAPlayer.decode, hn0, if_false, QOAPlayer.drain, hb, List.length_nil,
    gt_iff_lt, Nat.lt_irrefl, hn1, e, Nat.zero_add, List.nil_append]

theorem pos_run (S C n : Nat) (hS : S < 2 ^ 32) (hC : 0 < C) (hC2 : C < 256)
    (hn : n < 2 ^ 64) (hdvd : 20 * C ∣ n) (hpos : 0 < n) :
    ∀ (calls : Nat) (p : QOAPlayer) (ref : List Int), Pos S C p ref → ref.length < calls →
      p.decode_until_zero n calls = .ok ref := by
  intro calls
  induction calls with
  | zero => intro p ref _ h; omega
  | succ calls ih =>
    intro p ref hp hcalls
    obtain ⟨out, ref1, p1, e, e1, hp1, hfin⟩ := pos_decode S C n hS hC hC2 hn hdvd hpos p ref hp
    simp only [QOAPlayer.decode_until_zero, e]
    by_cases h0 : out.length = 0
    · have hout : out = [] := List.length_eq_zero.mp h0
      have : ref1 = [] := by
        rcases hfin with h | h
        · exact h
        · omega
      simp [h0, e1, hout, this]
    · have hl : ref1.length < calls := by
        rw [e1, List.length_append] at hcalls; omega
      simp only [h0, if_false, ih p1 ref1 hp1 hl, List.take_length, e1]

theorem new_pos (S C : Nat) (hdr : List (Fin 256)) (r : FileReader) (f : FrameBytes)
    (fs : List FrameBytes) (hl : hdr.length = 8)
    (hh : FileHeader.read ⟨hdr⟩ = (.ok ⟨S⟩, r)) (hok : frames_ok S C (f :: fs)) :
    ∃ p, QOAPlayer.new ⟨hdr ++ frames_bytes (f :: fs)⟩ = .ok p ∧ Pos S C p (stream_ref C (f :: fs))
      ∧ S < 2 ^ 32 ∧ 0 < C ∧ C < 256 := by
  obtain ⟨e1, hS⟩ := FileHeader_read_append hdr (frames_bytes (f :: fs)) ⟨S⟩ r hl hh
  obtain ⟨hl2, ⟨fh, r2, hfh, hfc⟩, _⟩ := hok.1
  obtain ⟨e2, hc1, hc2⟩ := FrameHeader_read_append f.header
    (f.states.flatten ++ (batches_bytes f.batches ++ frames_bytes fs)) fh r2 hl2 hfh
  rw [hfc] at hc1 hc2
  refine ⟨
    { reader := ⟨f.states.flatten ++ (batches_bytes f.batches ++ frames_bytes fs)⟩
      header := ⟨S⟩
      frame_header := fh
      buffered_pcm := []
      states := []
      num_channels := fh.num_channels
      read_state := .ReadLSMState
      lsm_read_idx := 0
      slice_read_idx := 0
      decoded_sample_ch := 0
      slices := []
      decode_tmp := resize [] (fh.num_channels * QOA_SLICE_SAMPLES) 0 }, ?_,
    Pos.lsm _ f fs rfl hok rfl rfl hfc rfl rfl rfl, hS, hc1, hc2⟩
  simp only [QOAPlayer.new, e1]
  simp only [frames_bytes, e2]


/-! ## The bulk decoder along a stream -/

theorem decode_loop_window (sf : Int) (C ch : Nat) (done todo : List Int) :
    ∀ (qs : List Nat) (n : Nat) (st : LSMState) (seg : List Int),
      (∀ j, j < qs.length → ch + (n + j) * C < seg.length) →
      slice.decode_loop sf (done.length + ch) C qs n st (done ++ seg ++ todo)
        = ((slice.decode_loop sf ch C qs n st seg).1,
            done ++ (slice.decode_loop sf ch C qs n st seg).2 ++ todo) := by
  intro qs
  induction qs with
  | nil => intro n st seg _; rfl
  | cons q qs ih =>
    intro n st seg h
    have h0 := h 0 (by simp)
    simp only [Nat.add_zero] at h0
    simp only [slice.decode_loop]
    have e : (done ++ seg ++ todo).set (done.length + ch + n * C)
          (slice.decode_sample sf q st).1
        = done ++ seg.set (ch + n * C) (slice.decode_sample sf q st).1 ++ todo := by
      rw [List.append_assoc, List.set_append_right _ _ (by omega),
        List.set_append_left _ _ (by omega), List.append_assoc]
      congr 3
      omega
    rw [e]
    rw [ih (n + 1) _ _ (by
      intro j hj
      have := h (j + 1) (by simp; omega)
      rw [List.length_set]
      rwa [show n + (j + 1) = n + 1 + j by omega] at this)]

theorem slice_decode_window (s : slice) (st : LSMState) (C ch : Nat) (done seg todo : List Int)
    (hq : s.qr.length = 20) (hch : ch < C) (hseg : seg.length = 20 * C) :
    s.decode st (done ++ seg ++ todo) (done.length + ch) C
      = ((s.decode st seg ch C).1, done ++ (s.decode st seg ch C).2 ++ todo) := by
  unfold slice.decode
  apply decode_loop_window
  intro j hj
  rw [hq] at hj
  rw [hseg, Nat.zero_add]
  calc ch + j * C < C + j * C := by omega
    _ = (j + 1) * C := by ring
    _ ≤ 20 * C := Nat.mul_le_mul_right C (by omega)

theorem frame_decode_batch (C occ : Nat) (b rest : List slice) (done todo : List Int)
    (hb : b.length = C) (hqr : ∀ s ∈ b, s.qr.length = 20) (hd : done.length = occ * C * 20) :
    ∀ (k ch sid : Nat) (states : List LSMState) (seg : List Int),
      sid = occ * C + ch → ch + k = C → states.length = C → seg.length = 20 * C →
      Frame.decode_loop C (b.drop ch ++ rest) sid states (done ++ seg ++ todo)
        = match QOAPlayer.decode_channels C b k ch states seg with
          | .ok (st1, seg1) =>
            Frame.decode_loop C rest (occ * C + C) st1 (done ++ seg1 ++ todo)
          | .error e => .error e := by
  intro k
  induction k with
  | zero =>
    intro ch sid states seg hsid hk _ _
    have : ch = C := by omega
    subst this
    subst hsid
    simp [QOAPlayer.decode_channels, List.drop_of_length_le (Nat.le_of_eq hb)]
  | succ k ih =>
    intro ch sid states seg hsid hk hs hseg
    have hch : ch < C := by omega
    have hC0 : C ≠ 0 := by omega
    have hdrop : b.drop ch = b[ch] :: b.drop (ch + 1) := by
      rw [List.drop_eq_getElem_cons (by omega)]
    have hbs : b[ch]? = some b[ch] := List.getElem?_eq_getElem (by omega)
    have hss : states[ch]? = some states[ch] := List.getElem?_eq_getElem (by omega)
    have hmod : sid % C = ch := by
      rw [hsid, Nat.add_comm, Nat.add_mul_mod_self_right, Nat.mod_eq_of_lt hch]
    have hdiv : sid / C = occ := by
      rw [hsid, Nat.add_comm, Nat.add_mul_div_right _ _ (by omega), Nat.div_eq_of_lt hch,
        Nat.zero_add]
    have hq := hqr b[ch] (List.getElem_mem _)
    have hw := slice_decode_window b[ch] states[ch] C ch done seg todo hq hch hseg
    have hptr : occ * C * QOA_SLICE_SAMPLES + ch = done.length + ch := by
      rw [hd, QOA_SLICE_SAMPLES]
    rw [hdrop]
    rw [List.cons_append, Frame.decode_loop, QOAPlayer.decode_channels]
    simp only [hC0, if_false, hmod, hdiv, hss, hbs]
    rw [hptr, hw]
    exact ih (ch + 1) (sid + 1) _ _ (by omega) (by omega) (by simp [hs])
      (by rw [slice_decode_length, hseg])


theorem frame_decode_batches (C : Nat) :
    ∀ (pbs : List (List slice)) (occ : Nat) (states : List LSMState) (done : List Int),
      (∀ b ∈ pbs, b.length = C ∧ ∀ s ∈ b, s.qr.length = 20) → states.length = C →
      done.length = occ * C * 20 →
      ∃ st1, Frame.decode_loop C pbs.flatten (occ * C) states
          (done ++ List.replicate (pbs.length * (20 * C)) 0)
        = .ok (st1, done ++ frame_ref C states pbs) := by
  intro pbs
  induction pbs with
  | nil =>
    intro occ states done _ _ _
    exact ⟨states, by simp [Frame.decode_loop, frame_ref]⟩
  | cons b pbs ih =>
    intro occ states done hb hs hd
    obtain ⟨hb1, hb2⟩ := hb b (by simp)
    have hrep : List.replicate ((b :: pbs).length * (20 * C)) (0 : Int)
        = List.replicate (20 * C) 0 ++ List.replicate (pbs.length * (20 * C)) 0 := by
      rw [List.length_cons, Nat.add_mul, Nat.one_mul, Nat.add_comm, List.replicate_add]
    have h1 := frame_decode_batch C occ b pbs.flatten done
      (List.replicate (pbs.length * (20 * C)) 0) hb1 hb2 hd C 0 (occ * C) states
      (List.replicate (20 * C) 0) rfl (by omega) hs (by simp)
    rw [List.drop_zero, decode_channels_eq C b states _ hb1 hb2 hs (by simp)] at h1
    obtain ⟨st1, h2⟩ := ih (occ + 1) (batch_states C b states) (done ++ batch_out C b states)
      (fun x hx => hb x (by simp [hx])) (batch_states_length _ _ _)
      (by rw [List.length_append, batch_out_length, hd]; ring)
    refine ⟨st1, ?_⟩
    rw [List.flatten_cons, hrep, ← List.append_assoc, h1]
    rw [Nat.add_mul, Nat.one_mul] at h2
    simp only [frame_ref, ← List.append_assoc]
    exact h2

theorem frame_read_states (rest : List (Fin 256)) :
    ∀ (chunks : List (List (Fin 256))) (acc : List LSMState),
      (∀ s ∈ chunks, s.length = 16) →
      Frame.read_states chunks.length ⟨chunks.flatten ++ rest⟩ acc
        = (.ok (acc ++ chunks.map parse_state), ⟨rest⟩) := by
  intro chunks
  induction chunks with
  | nil => intro acc _; simp [Frame.read_states]
  | cons s chunks ih =>
    intro acc h
    have hs := LSMState_read_append s (chunks.flatten ++ rest) (h s (by simp))
    simp only [List.flatten_cons, List.append_assoc, List.length_cons, Frame.read_states, hs]
    rw [ih _ (fun x hx => h x (by simp [hx]))]
    simp

theorem frame_read_slices (rest : List (Fin 256)) :
    ∀ (chunks : List (List (Fin 256))) (k : Nat) (acc : List slice),
      (∀ s ∈ chunks, s.length = 8) → chunks.length ≤ k → (chunks.length = k ∨ rest = []) →
      Frame.read_slices k ⟨chunks.flatten ++ rest⟩ acc
        = (acc ++ chunks.map parse_slice, ⟨rest⟩) := by
  intro chunks
  induction chunks with
  | nil =>
    intro k acc _ _ h
    cases k with
    | zero => simp [Frame.read_slices]
    | succ k =>
      have hr : rest = [] := by
        rcases h with h | h
        · simp at h
        · exact h
      subst hr
      have := (slice_read_spec ⟨[]⟩).2 (by simp)
      simp [Frame.read_slices, this]
  | cons s chunks ih =>
    intro k acc h hk hor
    cases k with
    | zero => simp at hk
    | succ k =>
      have hs := (slice_read_append s (chunks.flatten ++ rest) (h s (by simp))).1
      simp only [List.flatten_cons, List.append_assoc, Frame.read_slices, hs]
      rw [ih k _ (fun x hx => h x (by simp [hx])) (by simpa using hk)
        (by rcases hor with h | h
            · left; simpa using h
            · right; exact h)]
      simp

theorem batches_bytes_eq : ∀ (bs : List (List (List (Fin 256)))),
    batches_bytes bs = bs.flatten.flatten := by
  intro bs
  induction bs with
  | nil => rfl
  | cons b bs ih => simp [batches_bytes, ih]

theorem flatten_length_eq {α : Type} (C : Nat) : ∀ (bs : List (List α)),
    (∀ b ∈ bs, b.length = C) → bs.flatten.length = C * bs.length := by
  intro bs
  induction bs with
  | nil => intro _; simp
  | cons b bs ih =>
    intro h
    rw [List.flatten_cons, List.length_append, h b (by simp),
      ih (fun x hx => h x (by simp [hx])), List.length_cons]
    ring


theorem frame_read_ok (S C : Nat) (f : FrameBytes) (fs : List FrameBytes)
    (hok : frames_ok S C (f :: fs)) :
    ∃ fh, Frame.read ⟨frames_bytes (f :: fs)⟩
        = (.ok ⟨fh, f.states.map parse_state, f.batches.flatten.map parse_slice⟩,
            ⟨frames_bytes fs⟩)
      ∧ fh.num_channels = C ∧ 0 < C := by
  obtain ⟨hwf, h1, h2, h3, h4, hok2⟩ := hok
  obtain ⟨hl, ⟨fh, r, hfh, hfc⟩, hsl, hs16, hbw⟩ := hwf
  obtain ⟨e1, hc1, -⟩ := FrameHeader_read_append f.header
    (f.states.flatten ++ (batches_bytes f.batches ++ frames_bytes fs)) fh r hl hfh
  rw [hfc] at hc1
  refine ⟨fh, ?_, hfc, hc1⟩
  have e2 := frame_read_states (batches_bytes f.batches ++ frames_bytes fs) f.states [] hs16
  rw [hsl] at e2
  have hlen : f.batches.flatten.length = C * f.batches.length :=
    flatten_length_eq C f.batches (fun b hb => (hbw b hb).1)
  have e3 := frame_read_slices (frames_bytes fs) f.batches.flatten (256 * C) []
    (by
      intro s hs
      simp only [List.mem_flatten] at hs
      obtain ⟨b, hb, hsb⟩ := hs
      exact (hbw b hb).2 s hsb)
    (by rw [hlen, Nat.mul_comm 256 C]; exact Nat.mul_le_mul_left C h2)
    (by
      rcases h4 with h | ⟨-, h⟩
      · left; rw [hlen, h, Nat.mul_comm]
      · right; rw [h]; rfl)
  rw [← batches_bytes_eq] at e3
  have hmod : (f.batches.flatten.map parse_slice).length % C = 0 := by
    rw [List.length_map, hlen, Nat.mul_mod_right]
  simp only [frames_bytes, Frame.read, e1, hfc, e2, e3, List.nil_append, hmod, ne_eq,
    not_true_eq_false, if_false]

theorem frame_decode_ok (C : Nat) (fh : FrameHeader) (hfc : fh.num_channels = C)
    (states : List LSMState) (bs : List (List (List (Fin 256))))
    (hs : states.length = C) (hbw : ∀ b ∈ bs, batch_wf C b) :
    ∃ st1, (⟨fh, states, bs.flatten.map parse_slice⟩ : Frame).decode
      = .ok (st1, frame_ref C states (parse_batches bs)) := by
  have hlen : bs.flatten.length = C * bs.length :=
    flatten_length_eq C bs (fun b hb => (hbw b hb).1)
  have hpb : ∀ b ∈ parse_batches bs, b.length = C ∧ ∀ s ∈ b, s.qr.length = 20 := by
    intro b hb
    simp only [parse_batches, List.mem_map] at hb
    obtain ⟨c, hc, rfl⟩ := hb
    refine ⟨by simpa using (hbw c hc).1, ?_⟩
    intro s hs
    simp only [List.mem_map] at hs
    obtain ⟨x, hx, rfl⟩ := hs
    exact (slice_read_append x [] ((hbw c hc).2 x hx)).2
  obtain ⟨st1, h⟩ := frame_decode_batches C (parse_batches bs) 0 states [] hpb hs (by simp)
  refine ⟨st1, ?_⟩
  have hfl : bs.flatten.map parse_slice = (parse_batches bs).flatten := by
    simp [parse_batches, List.map_flatten]
  have hres : resize ([] : List Int) (bs.flatten.length * 20) 0
      = List.replicate ((parse_batches bs).length * (20 * C)) 0 := by
    simp only [resize, List.take_nil, List.length_nil, Nat.sub_zero, List.nil_append, hlen,
      parse_batches, List.length_map]
    congr 1
    ring
  have hmod : (bs.flatten.map parse_slice).length % C = 0 := by
    rw [List.length_map, hlen, Nat.mul_mod_right]
  have hmod2 : bs.flatten.length % C = 0 := by rw [hlen, Nat.mul_mod_right]
  simp only [Frame.decode, hfc, hmod, hmod2, ne_eq, not_true_eq_false, and_false, if_false,
    List.length_map, hres]
  rw [hfl]
  simpa using h

theorem frame_read_nil : ∃ e r, Frame.read ⟨[]⟩ = (.error e, r) := by
  simp [Frame.read, FrameHeader.read, FileReader.read_u8, FileReader.read]

theorem bulk_frames_ok (S C : Nat) :
    ∀ (fs : List FrameBytes) (fuel : Nat), frames_ok S C fs → fs.length ≤ fuel →
      bulk_frames fuel ⟨frames_bytes fs⟩ = .ok (stream_ref C fs) := by
  intro fs
  induction fs with
  | nil =>
    intro fuel _ _
    cases fuel with
    | zero => rfl
    | succ fuel =>
      obtain ⟨e, r, h⟩ := frame_read_nil
      simp [bulk_frames, frames_bytes, h, stream_ref]
  | cons f fs ih =>
    intro fuel hok hfuel
    cases fuel with
    | zero => simp at hfuel
    | succ fuel =>
      obtain ⟨fh, hread, hfc, hC⟩ := frame_read_ok S C f fs hok
      obtain ⟨st1, hdec⟩ := frame_decode_ok C fh hfc (f.states.map parse_state) f.batches
        (by rw [List.length_map]; exact hok.1.2.2.1) hok.1.2.2.2.2
      have hrec := ih fuel hok.2.2.2.2.2 (by simpa using hfuel)
      simp only [bulk_frames, hread, hdec, hrec, stream_ref]

theorem frames_bytes_length (S C : Nat) : ∀ (fs : List FrameBytes), frames_ok S C fs →
    fs.length ≤ (frames_bytes fs).length := by
  intro fs
  induction fs with
  | nil => intro _; simp
  | cons f fs ih =>
    intro hok
    have := ih hok.2.2.2.2.2
    have h8 := hok.1.1
    simp only [frames_bytes, List.length_append, List.length_cons]
    omega


/-! ## The two decoders on a stream cut into records -/

set_option maxRecDepth 100000

theorem frame_ref_length (C : Nat) : ∀ (pbs : List (List slice)) (states : List LSMState),
    (frame_ref C states pbs).length = 20 * C * pbs.length := by
  intro pbs
  induction pbs with
  | nil => intro _; simp [frame_ref]
  | cons b pbs ih =>
    intro states
    simp only [frame_ref, List.length_append, batch_out_length, ih, List.length_cons]
    ring

theorem stream_ref_length (C : Nat) : ∀ (fs : List FrameBytes),
    (stream_ref C fs).length = 20 * C * total_batches fs := by
  intro fs
  induction fs with
  | nil => simp [stream_ref, total_batches]
  | cons f fs ih =>
    simp only [stream_ref, List.length_append, frame_ref_length, ih, total_batches,
      parse_batches, List.length_map]
    ring

theorem stream_decode_ok (S C m calls : Nat) (hdr : List (Fin 256)) (r : FileReader)
    (f : FrameBytes) (fs : List FrameBytes)
    (hl : hdr.length = 8) (hh : FileHeader.read ⟨hdr⟩ = (.ok ⟨S⟩, r))
    (hok : frames_ok S C (f :: fs)) (hm : 0 < m) (hn : 20 * C * m < 2 ^ 64)
    (hcalls : 20 * C * total_batches (f :: fs) < calls) :
    stream_decode (20 * C * m) calls ⟨hdr ++ frames_bytes (f :: fs)⟩
      = some (.ok (stream_ref C (f :: fs))) := by
  obtain ⟨p, hnew, hpos, hS, hC, hC2⟩ := new_pos S C hdr r f fs hl hh hok
  have hrun := pos_run S C (20 * C * m) hS hC hC2 hn (Dvd.intro m rfl)
    (Nat.mul_pos (Nat.mul_pos (by omega) hC) hm) calls p _ hpos
    (by rw [stream_ref_length]; exact hcalls)
  simp only [stream_decode, hnew, hrun]

theorem bulk_decode_ok (S C : Nat) (hdr : List (Fin 256)) (r : FileReader)
    (fs : List FrameBytes)
    (hl : hdr.length = 8) (hh : FileHeader.read ⟨hdr⟩ = (.ok ⟨S⟩, r))
    (hok : frames_ok S C fs) :
    bulk_decode ⟨hdr ++ frames_bytes fs⟩ = some (.ok (stream_ref C fs)) := by
  obtain ⟨e1, -⟩ := FileHeader_read_append hdr (frames_bytes fs) ⟨S⟩ r hl hh
  simp only [bulk_decode, e1,
    bulk_frames_ok S C fs _ hok (frames_bytes_length S C fs hok)]

theorem stereo40_ok : frames_ok 40 2 [sample.stereo40_frame] := by
  refine ⟨⟨rfl, ⟨⟨2, 44100, 40, 72⟩, ⟨[]⟩, by decide, rfl⟩, rfl, by decide, ?_⟩, by decide,
    by decide, by decide, Or.inr ⟨rfl, rfl⟩, trivial⟩
  intro b hb
  simp only [sample.stereo40_frame, List.mem_cons, List.mem_singleton, List.not_mem_nil,
    or_false] at hb
  rcases hb with rfl | rfl <;> exact ⟨rfl, by decide⟩

/-- C1 (round-trip batching), amended.  For a stream made of a stream header
announcing `S` samples per channel and of at least one frame, all frames having
`C` channels, complete batches only, between 1 and 256 batches and at most
`S / 20` batches, every frame having 256 batches except possibly the last one,
which may instead have exactly `S / 20` batches: calling `decode` with a
destination of `20 * C * m` samples (`m ≥ 1`, so exactly one batch or any whole
number of batches, also more than a whole frame) until it returns 0 and
concatenating the samples returned yields the same samples as `Frame::read` and
`Frame::decode` applied frame by frame to the same bytes, and these are 20
samples per channel and batch. -/
theorem streaming_matches_bulk (S C m calls : Nat) (hdr : List (Fin 256)) (r : FileReader)
    (f : FrameBytes) (fs : List FrameBytes)
    (hl : hdr.length = 8) (hh : FileHeader.read ⟨hdr⟩ = (.ok ⟨S⟩, r))
    (hok : frames_ok S C (f :: fs)) (hm : 0 < m) (hn : 20 * C * m < 2 ^ 64)
    (hcalls : 20 * C * total_batches (f :: fs) < calls) :
    stream_decode (20 * C * m) calls ⟨hdr ++ frames_bytes (f :: fs)⟩
        = bulk_decode ⟨hdr ++ frames_bytes (f :: fs)⟩
      ∧ ∃ pcm, bulk_decode ⟨hdr ++ frames_bytes (f :: fs)⟩ = some (.ok pcm)
          ∧ pcm.length = 20 * C * total_batches (f :: fs) := by
  rw [stream_decode_ok S C m calls hdr r f fs hl hh hok hm hn hcalls,
    bulk_decode_ok S C hdr r (f :: fs) hl hh hok]
  exact ⟨rfl, _, rfl, stream_ref_length C _⟩

/-- The amended C1 for the stream of one frame `stereo40_frame` (two channels,
two batches, 40 samples per channel announced) and a destination of 40
samples. -/
theorem streaming_matches_bulk_witness :
    ((sample.file_header 40).length = 8
        ∧ FileHeader.read ⟨sample.file_header 40⟩ = (.ok ⟨40⟩, ⟨[]⟩)
        ∧ frames_ok 40 2 [sample.stereo40_frame] ∧ 0 < 1 ∧ 20 * 2 * 1 < 2 ^ 64
        ∧ 20 * 2 * total_batches [sample.stereo40_frame] < 81)
      ∧ stream_decode (20 * 2 * 1) 81
            ⟨sample.file_header 40 ++ frames_bytes [sample.stereo40_frame]⟩
          = bulk_decode ⟨sample.file_header 40 ++ frames_bytes [sample.stereo40_frame]⟩
      ∧ ∃ pcm, bulk_decode ⟨sample.file_header 40 ++ frames_bytes [sample.stereo40_frame]⟩
            = some (.ok pcm)
          ∧ pcm.length = 20 * 2 * total_batches [sample.stereo40_frame] :=
  ⟨⟨rfl, by decide, stereo40_ok, by decide, by decide, by decide⟩,
    streaming_matches_bulk 40 2 1 81 (sample.file_header 40) ⟨[]⟩ sample.stereo40_frame []
      rfl (by decide) stereo40_ok (by decide) (by decide) (by decide)⟩

/-- C1 as stated fails on `mono30` (one channel, 30 samples announced, two
slices) with a destination of exactly `20 * num_channels = 20` samples: the
streaming engine delivers 30 samples and then returns 0, the bulk decoder
delivers 40. -/
theorem streaming_differs_from_bulk :
    (stream_decode 20 3 sample.mono30).map (Except.map List.length) = some (.ok 30)
      ∧ (bulk_decode sample.mono30).map (Except.map List.length) = some (.ok 40)
      ∧ stream_decode 20 3 sample.mono30 ≠ bulk_decode sample.mono30 := by
  decide

/-! ## The two channels of a stereo stream -/

theorem evens_append : ∀ (a b : List Int), a.length % 2 = 0 →
    evens (a ++ b) = evens a ++ evens b
  | [], _, _ => rfl
  | [_], _, h => by simp at h
  | x :: y :: a, b, h => by
    have h2 : a.length % 2 = 0 := by simp only [List.length_cons] at h; omega
    simp [evens, evens_append a b h2]

theorem odds_append : ∀ (a b : List Int), a.length % 2 = 0 →
    odds (a ++ b) = odds a ++ odds b
  | [], _, _ => rfl
  | [_], _, h => by simp at h
  | x :: y :: a, b, h => by
    have h2 : a.length % 2 = 0 := by simp only [List.length_cons] at h; omega
    simp [odds, odds_append a b h2]

theorem evens_get : ∀ (l : List Int) (i : Nat), (evens l)[i]? = l[2 * i]?
  | [], i => by simp [evens]
  | [a], i => by
    cases i with
    | zero => simp [evens]
    | succ i => simp [evens]; omega
  | a :: b :: l, i => by
    cases i with
    | zero => simp [evens]
    | succ i =>
      simp only [evens, List.getElem?_cons_succ, evens_get l i,
        show 2 * (i + 1) = 2 * i + 1 + 1 by ring]

theorem odds_get : ∀ (l : List Int) (i : Nat), (odds l)[i]? = l[2 * i + 1]?
  | [], i => by simp [odds]
  | [a], i => by simp [odds]
  | a :: b :: l, i => by
    cases i with
    | zero => simp [odds]
    | succ i =>
      simp only [odds, List.getElem?_cons_succ, odds_get l i,
        show 2 * (i + 1) + 1 = 2 * i + 1 + 1 + 1 by ring]

theorem evens_batch_out (b : List slice) (states : List LSMState)
    (hq : (b.getD 0 ⟨0, []⟩).qr.length = 20) :
    evens (batch_out 2 b states)
      = (b.getD 0 ⟨0, []⟩).samples (states.getD 0 LSMState.zero) := by
  apply List.ext_getElem?
  intro i
  rw [evens_get]
  by_cases hi : i < 20
  · have h1 : 2 * i < 20 * 2 := by omega
    have h2 : 2 * i % 2 = 0 := by omega
    have h3 : 2 * i / 2 = i := by omega
    simp only [batch_out, List.getElem?_map, List.getElem?_range h1, Option.map_some', h2, h3]
    rw [List.getD_eq_getElem?_getD (slice.samples _ _),
      List.getElem?_eq_getElem (by rw [slice_samples_length, hq]; exact hi)]
    rfl
  · rw [List.getElem?_eq_none (by rw [batch_out_length]; omega),
      List.getElem?_eq_none (by rw [slice_samples_length, hq]; omega)]

theorem odds_batch_out (b : List slice) (states : List LSMState)
    (hq : (b.getD 1 ⟨0, []⟩).qr.length = 20) :
    odds (batch_out 2 b states)
      = (b.getD 1 ⟨0, []⟩).samples (states.getD 1 LSMState.zero) := by
  apply List.ext_getElem?
  intro i
  rw [odds_get]
  by_cases hi : i < 20
  · have h1 : 2 * i + 1 < 20 * 2 := by omega
    have h2 : (2 * i + 1) % 2 = 1 := by omega
    have h3 : (2 * i + 1) / 2 = i := by omega
    simp only [batch_out, List.getElem?_map, List.getElem?_range h1, Option.map_some', h2, h3]
    rw [List.getD_eq_getElem?_getD (slice.samples _ _),
      List.getElem?_eq_getElem (by rw [slice_samples_length, hq]; exact hi)]
    rfl
  · rw [List.getElem?_eq_none (by rw [batch_out_length]; omega),
      List.getElem?_eq_none (by rw [slice_samples_length, hq]; omega)]

theorem batch_states_getD (b : List slice) (states : List LSMState) (c : Nat) (hc : c < 2) :
    (batch_states 2 b states).getD c LSMState.zero
      = (b.getD c ⟨0, []⟩).final_state (states.getD c LSMState.zero) := by
  have : c = 0 ∨ c = 1 := by omega
  rcases this with rfl | rfl <;> simp [batch_states, List.range_succ]

theorem evens_frame_ref : ∀ (pbs : List (List slice)) (states : List LSMState),
    (∀ b ∈ pbs, b.length = 2 ∧ ∀ s ∈ b, s.qr.length = 20) →
    evens (frame_ref 2 states pbs)
        = channel_decode (states.getD 0 LSMState.zero) (pbs.map fun b => b.getD 0 ⟨0, []⟩)
      ∧ odds (frame_ref 2 states pbs)
        = channel_decode (states.getD 1 LSMState.zero) (pbs.map fun b => b.getD 1 ⟨0, []⟩) := by
  intro pbs
  induction pbs with
  | nil => intro states _; simp [frame_ref, channel_decode, evens, odds]
  | cons b pbs ih =>
    intro states h
    obtain ⟨hb1, hb2⟩ := h b (by simp)
    have hq : ∀ c, c < 2 → (b.getD c ⟨0, []⟩).qr.length = 20 := by
      intro c hc
      apply hb2
      rw [List.getD_eq_getElem?_getD, List.getElem?_eq_getElem (by omega)]
      exact List.getElem_mem _
    obtain ⟨i1, i2⟩ := ih (batch_states 2 b states) (fun x hx => h x (by simp [hx]))
    have hl : (batch_out 2 b states).length % 2 = 0 := by rw [batch_out_length]
    simp only [frame_ref, List.map_cons, channel_decode]
    rw [evens_append _ _ hl, odds_append _ _ hl, i1, i2, evens_batch_out b states (hq 0 (by omega)),
      odds_batch_out b states (hq 1 (by omega)), batch_states_getD b states 0 (by omega),
      batch_states_getD b states 1 (by omega)]
    exact ⟨rfl, rfl⟩

theorem evens_stream_ref (S : Nat) : ∀ (fs : List FrameBytes), frames_ok S 2 fs →
    evens (stream_ref 2 fs) = channel_ref 0 fs ∧ odds (stream_ref 2 fs) = channel_ref 1 fs := by
  intro fs
  induction fs with
  | nil => intro _; simp [stream_ref, channel_ref, evens, odds]
  | cons f fs ih =>
    intro hok
    obtain ⟨i1, i2⟩ := ih hok.2.2.2.2.2
    have hpb : ∀ b ∈ parse_batches f.batches, b.length = 2 ∧ ∀ s ∈ b, s.qr.length = 20 := by
      intro b hb
      simp only [parse_batches, List.mem_map] at hb
      obtain ⟨c, hc, rfl⟩ := hb
      refine ⟨by simpa using (hok.1.2.2.2.2 c hc).1, ?_⟩
      intro s hs
      simp only [List.mem_map] at hs
      obtain ⟨x, hx, rfl⟩ := hs
      exact (slice_read_append x [] ((hok.1.2.2.2.2 c hc).2 x hx)).2
    obtain ⟨j1, j2⟩ := evens_frame_ref (parse_batches f.batches) (f.states.map parse_state) hpb
    have hl : (frame_ref 2 (f.states.map parse_state) (parse_batches f.batches)).length % 2
        = 0 := by
      rw [frame_ref_length]; omega
    simp only [stream_ref, channel_ref]
    rw [evens_append _ _ hl, odds_append _ _ hl, i1, i2, j1, j2]
    exact ⟨rfl, rfl⟩

/-- C9 (channel multiplexing), amended.  For a stream of frames of two channels
as in the amended C1 (complete batches, every frame with 256 batches except
possibly the last one, which may have exactly `S / 20`), decoded with a
destination of one batch (40 samples) per call until `decode` returns 0: the
samples of the concatenated output at even indices are the samples obtained by
decoding, frame by frame, the slices of channel 0 in order from the predictor
state of channel 0 of the frame, and those at odd indices are the same for
channel 1; neither refers to a record of the other channel. -/
theorem channels_are_independent (S calls : Nat) (hdr : List (Fin 256)) (r : FileReader)
    (f : FrameBytes) (fs : List FrameBytes)
    (hl : hdr.length = 8) (hh : FileHeader.read ⟨hdr⟩ = (.ok ⟨S⟩, r))
    (hok : frames_ok S 2 (f :: fs))
    (hcalls : 40 * total_batches (f :: fs) < calls) :
    ∃ pcm, stream_decode 40 calls ⟨hdr ++ frames_bytes (f :: fs)⟩ = some (.ok pcm)
      ∧ evens pcm = channel_ref 0 (f :: fs) ∧ odds pcm = channel_ref 1 (f :: fs) := by
  have h := stream_decode_ok S 2 1 calls hdr r f fs hl hh hok (by omega) (by norm_num)
    (by omega)
  exact ⟨_, h, evens_stream_ref S (f :: fs) hok⟩

/-- The amended C9 for the stream of one frame `stereo40_frame`. -/
theorem channels_are_independent_witness :
    ((sample.file_header 40).length = 8
        ∧ FileHeader.read ⟨sample.file_header 40⟩ = (.ok ⟨40⟩, ⟨[]⟩)
        ∧ frames_ok 40 2 [sample.stereo40_frame]
        ∧ 40 * total_batches [sample.stereo40_frame] < 81)
      ∧ ∃ pcm, stream_decode 40 81
            ⟨sample.file_header 40 ++ frames_bytes [sample.stereo40_frame]⟩ = some (.ok pcm)
          ∧ evens pcm = channel_ref 0 [sample.stereo40_frame]
          ∧ odds pcm = channel_ref 1 [sample.stereo40_frame] :=
  ⟨⟨rfl, by decide, stereo40_ok, by decide⟩,
    channels_are_independent 40 81 (sample.file_header 40) ⟨[]⟩ sample.stereo40_frame []
      rfl (by decide) stereo40_ok (by decide)⟩

/-- C9 as stated fails on `stereo30` (two channels, 30 samples per channel
announced, two batches) with a destination of 40 samples: the output holds 30
samples at even indices, the slices of channel 0 decode to 40. -/
theorem channel_output_is_cut :
    sample.stereo30.bytes = sample.file_header 30 ++ frames_bytes [sample.stereo30_frame]
      ∧ (stream_decode 40 3 sample.stereo30).map (Except.map fun pcm => (evens pcm).length)
          = some (.ok 30)
      ∧ (channel_ref 0 [sample.stereo30_frame]).length = 40
      ∧ (stream_decode 40 3 sample.stereo30).map (Except.map evens)
          ≠ some (.ok (channel_ref 0 [sample.stereo30_frame])) := by
  decide

/-! ## The sample budget -/

theorem FrameHeader_read_bounds (rd rd1 : FileReader) (fh : FrameHeader)
    (h : FrameHeader.read rd = (.ok fh, rd1)) :
    0 < fh.num_channels ∧ fh.num_channels < 256 := by
  rcases rd with ⟨_ | ⟨b0, _ | ⟨b1, _ | ⟨b2, _ | ⟨b3, _ | ⟨b4, _ | ⟨b5, _ | ⟨b6, _ | ⟨b7, l⟩⟩⟩⟩⟩⟩⟩⟩⟩ <;>
    simp only [FrameHeader.read, FileReader.read_u8, FileReader.read_u24, FileReader.read_u16,
      FileReader.read, List.take, List.drop] at h <;>
    (try split_ifs at h) <;> simp at h
  obtain ⟨rfl, -⟩ := h
  simp only
  omega

theorem FileHeader_read_bounds (rd rd1 : FileReader) (hd : FileHeader)
    (h : FileHeader.read rd = (.ok hd, rd1)) : hd.samples < 2 ^ 32 := by
  rcases rd with ⟨_ | ⟨b0, _ | ⟨b1, _ | ⟨b2, _ | ⟨b3, _ | ⟨b4, _ | ⟨b5, _ | ⟨b6, _ | ⟨b7, l⟩⟩⟩⟩⟩⟩⟩⟩⟩ <;>
    simp only [FileHeader.read, FileReader.read_u32, FileReader.read, List.take, List.drop] at h <;>
    (try split_ifs at h) <;> simp at h
  obtain ⟨rfl, -⟩ := h
  simp only
  omega

theorem new_budget_inv (rd : FileReader) (p : QOAPlayer) (h : QOAPlayer.new rd = .ok p) :
    p.budget_inv := by
  unfold QOAPlayer.new at h
  rcases h1 : FileHeader.read rd with ⟨e | hd, rd1⟩
  · rw [h1] at h; simp at h
  · rw [h1] at h
    simp only at h
    rcases h2 : FrameHeader.read rd1 with ⟨e | fh, rd2⟩
    · rw [h2] at h; simp at h
    · rw [h2] at h
      simp only [Except.ok.injEq] at h
      subst h
      have b1 := FileHeader_read_bounds _ _ _ h1
      have b2 := FrameHeader_read_bounds _ _ _ h2
      exact ⟨Nat.zero_le _, b1, b2.1, b2.2⟩

theorem decode_channels_length (C : Nat) (slices : List slice) :
    ∀ (k ch : Nat) (states st1 : List LSMState) (tmp tmp1 : List Int),
      QOAPlayer.decode_channels C slices k ch states tmp = .ok (st1, tmp1) →
      tmp1.length = tmp.length := by
  intro k
  induction k with
  | zero =>
    intro ch states st1 tmp tmp1 h
    simp only [QOAPlayer.decode_channels, Except.ok.injEq, Prod.mk.injEq] at h
    rw [← h.2]
  | succ k ih =>
    intro ch states st1 tmp tmp1 h
    unfold QOAPlayer.decode_channels at h
    split at h
    · exact (ih _ _ _ _ _ h).trans (slice_decode_length _ _ _ _ _)
    · simp at h

theorem phase_slice_budget (p : QOAPlayer) (n ip : Nat) (buf : List Int) (out : LoopOutcome)
    (hinv : p.budget_inv) (h : p.phase_slice n ip buf = .ok out) :
    ∃ k, out.written.length = buf.length + k
      ∧ k ≤ 20 * p.frame_header.num_channels
      ∧ k ≤ (p.header.samples - p.decoded_sample_ch) * p.frame_header.num_channels
      ∧ out.player.decoded_sample_ch = p.decoded_sample_ch + k / p.frame_header.num_channels
      ∧ out.player.budget_inv := by
  obtain ⟨i1, i2, i3, i4⟩ := hinv
  unfold QOAPlayer.phase_slice at h
  dsimp only at h
  rcases hrs : QOAPlayer.read_slices p.frame_header.num_channels
      (256 * p.frame_header.num_channels - p.slice_read_idx) p.reader p.slice_read_idx p.slices
    with ⟨rd1, idx1, sl1⟩
  rw [hrs] at h
  dsimp only at h
  rcases hdc : QOAPlayer.decode_channels p.frame_header.num_channels sl1
      p.frame_header.num_channels 0 p.states
      (resize p.decode_tmp (p.frame_header.num_channels * QOA_SLICE_SAMPLES) 0)
    with e | ⟨st1, tmp1⟩
  · rw [hdc] at h; simp at h
  · rw [hdc] at h
    dsimp only at h
    have hlen : tmp1.length = 20 * p.frame_header.num_channels := by
      rw [decode_channels_length _ _ _ _ _ _ _ _ hdc, resize_length, QOA_SLICE_SAMPLES,
        Nat.mul_comm]
    have hC0 : p.frame_header.num_channels ≠ 0 := by omega
    have hsub : size_sub p.header.samples p.decoded_sample_ch
        = p.header.samples - p.decoded_sample_ch := size_sub_eq _ _ i1 (by omega)
    have hmul : size_mul (p.header.samples - p.decoded_sample_ch) p.frame_header.num_channels
        = (p.header.samples - p.decoded_sample_ch) * p.frame_header.num_channels := by
      apply size_mul_eq
      calc (p.header.samples - p.decoded_sample_ch) * p.frame_header.num_channels
          ≤ 2 ^ 32 * 256 := Nat.mul_le_mul (by omega) (by omega)
        _ < 2 ^ 64 := by norm_num
    rw [hsub, hmul] at h
    simp only [hC0, if_false] at h
    generalize hcc : min (min (size_sub (n / p.frame_header.num_channels
        * p.frame_header.num_channels) ip) tmp1.length)
        ((p.header.samples - p.decoded_sample_ch) * p.frame_header.num_channels) = cc at h
    have hc1 : cc ≤ tmp1.length := by rw [← hcc]; omega
    have hc2 : cc ≤ (p.header.samples - p.decoded_sample_ch) * p.frame_header.num_channels := by
      rw [← hcc]; omega
    have hc3 : cc / p.frame_header.num_channels ≤ p.header.samples - p.decoded_sample_ch :=
      Nat.div_le_of_le_mul (by rw [Nat.mul_comm]; exact hc2)
    have htake : (buf ++ tmp1.take cc).length = buf.length + cc := by
      rw [List.length_append, List.length_take, Nat.min_eq_left hc1]
    split_ifs at h with g1 g2 g3 g4
    · simp only [Except.ok.injEq] at h
      subst h
      exact ⟨0, by simp [LoopOutcome.written], by omega, by omega,
        by simp [LoopOutcome.player], ⟨i1, i2, i3, i4⟩⟩
    all_goals
      simp only [Except.ok.injEq] at h
      subst h
      exact ⟨cc, htake, by omega, hc2, rfl, ⟨by simp only [LoopOutcome.player]; omega, i2, i3, i4⟩⟩

theorem loop_body_budget_inv (p : QOAPlayer) (n ip : Nat) (buf : List Int) (out : LoopOutcome)
    (hinv : p.budget_inv) (h : p.loop_body n ip buf = .ok out) : out.player.budget_inv := by
  unfold QOAPlayer.loop_body at h
  split at h
  · unfold QOAPlayer.phase_frame_header at h
    split at h
    · simp only [Except.ok.injEq] at h
      subst h
      exact hinv
    · rename_i fh rd1 hfh
      simp only [Except.ok.injEq] at h
      subst h
      have b := FrameHeader_read_bounds _ _ _ hfh
      exact ⟨hinv.1, hinv.2.1, b.1, b.2⟩
  · unfold QOAPlayer.phase_lsm_state at h
    dsimp only at h
    split at h
    · simp only [Except.ok.injEq] at h
      subst h
      exact hinv
    · simp only [Except.ok.injEq] at h
      subst h
      exact ⟨Nat.zero_le _, hinv.2.1, hinv.2.2.1, hinv.2.2.2⟩
  · obtain ⟨k, -, -, -, -, hk⟩ := phase_slice_budget p n ip buf out hinv h
    exact hk

theorem decode_loop_budget_inv (n : Nat) :
    ∀ (fuel : Nat) (p : QOAPlayer) (ip : Nat) (buf : List Int) (r : DecodeResult)
      (p1 : QOAPlayer), p.budget_inv → QOAPlayer.decode_loop n fuel p ip buf = .ok (r, p1) →
      p1.budget_inv := by
  intro fuel
  induction fuel with
  | zero => intro p ip buf r p1 _ h; simp [QOAPlayer.decode_loop] at h
  | succ fuel ih =>
    intro p ip buf r p1 hinv h
    unfold QOAPlayer.decode_loop at h
    rcases hb : p.loop_body n ip buf with e | out
    · rw [hb] at h; simp at h
    · have hi := loop_body_budget_inv p n ip buf out hinv hb
      rw [hb] at h
      rcases out with ⟨r2, p2⟩ | ⟨p2, ip2, buf2⟩
      · simp only [Except.ok.injEq, Prod.mk.injEq] at h
        rw [← h.2]; exact hi
      · exact ih _ _ _ _ _ hi h

theorem decode_budget_inv (p p1 : QOAPlayer) (n : Nat) (r : DecodeResult)
    (hinv : p.budget_inv) (h : p.decode n = .ok (r, p1)) : p1.budget_inv := by
  unfold QOAPlayer.decode at h
  split_ifs at h with g1
  · simp only [Except.ok.injEq, Prod.mk.injEq] at h
    rw [← h.2]; exact hinv
  · rcases hd : p.drain n with e | ⟨p2, ip, buf⟩
    · rw [hd] at h; simp at h
    · rw [hd] at h
      have hp2 : p2.budget_inv := by
        unfold QOAPlayer.drain at hd
        split_ifs at hd <;> simp only [Except.ok.injEq, Prod.mk.injEq] at hd <;>
          (obtain ⟨rfl, -, -⟩ := hd; exact hinv)
      dsimp only at h
      split_ifs at h with g2
      · simp only [Except.ok.injEq, Prod.mk.injEq] at h
        rw [← h.2]; exact hp2
      · exact decode_loop_budget_inv n _ _ _ _ _ _ hp2 h

theorem after_calls_budget_inv : ∀ (ns : List Nat) (p p1 : QOAPlayer),
    p.budget_inv → p.after_calls ns = some p1 → p1.budget_inv := by
  intro ns
  induction ns with
  | nil =>
    intro p p1 hinv h
    simp only [QOAPlayer.after_calls, Option.some.injEq] at h
    rw [← h]; exact hinv
  | cons n ns ih =>
    intro p p1 hinv h
    unfold QOAPlayer.after_calls at h
    rcases hd : p.decode n with e | ⟨r, p2⟩
    · rw [hd] at h; simp at h
    · rw [hd] at h
      exact ih p2 p1 (decode_budget_inv p p2 n r hinv hd) h

/-- C6 (per-frame sample budget).  On `mono30` (one frame of one channel; the
stream header and the frame header both announce 30 samples per channel) with
destinations of 10 samples, four calls of `decode` return 10 samples each, 40
samples of that one frame.  After the first call 10 samples are in
`buffered_pcm` and `decoded_sample_ch` is 10; after the fourth call
`decoded_sample_ch` is 20: the part of a batch that goes to `buffered_pcm` is
neither held against `header.samples - decoded_sample_ch` nor counted in
`decoded_sample_ch`. -/
theorem queued_samples_exceed_budget :
    (stream_calls sample.mono30 [10, 10, 10, 10]).map (List.map (Except.map DecodeResult.ret))
        = some [.ok 10, .ok 10, .ok 10, .ok 10]
      ∧ (stream_after sample.mono30 [10]).map
          (fun p => (p.buffered_pcm.length, p.decoded_sample_ch)) = some (10, 10)
      ∧ (stream_after sample.mono30 [10, 10, 10, 10]).map
          (fun p => (p.header.samples, p.frame_header.num_channels,
            p.frame_header.frame_samples, p.decoded_sample_ch)) = some (30, 1, 30, 20) := by
  decide

/-! ## The loop of `decode` ends -/

theorem FrameHeader_read_consumes (rd rd1 : FileReader) (fh : FrameHeader)
    (h : FrameHeader.read rd = (.ok fh, rd1)) : rd1.bytes.length + 8 = rd.bytes.length := by
  rcases rd with ⟨_ | ⟨b0, _ | ⟨b1, _ | ⟨b2, _ | ⟨b3, _ | ⟨b4, _ | ⟨b5, _ | ⟨b6, _ | ⟨b7, l⟩⟩⟩⟩⟩⟩⟩⟩⟩ <;>
    simp only [FrameHeader.read, FileReader.read_u8, FileReader.read_u24, FileReader.read_u16,
      FileReader.read, List.take, List.drop] at h <;>
    (try split_ifs at h) <;> simp at h
  obtain ⟨-, rfl⟩ := h
  simp

theorem LSMState_read_consumes (rd : FileReader) :
    (LSMState.read rd).2.bytes.length ≤ rd.bytes.length := by
  by_cases h : 16 ≤ rd.bytes.length
  · obtain ⟨st, hst⟩ := (LSMState_read_spec rd).1 h
    rw [hst]; simp
  · obtain ⟨e, he⟩ := (LSMState_read_spec rd).2 (by omega)
    rw [he]; simp

theorem read_lsm_states_consumes :
    ∀ (k : Nat) (rd : FileReader) (idx : Nat) (st : List LSMState),
      (QOAPlayer.read_lsm_states k rd idx st).2.1.bytes.length ≤ rd.bytes.length := by
  intro k
  induction k with
  | zero => intro rd idx st; simp [QOAPlayer.read_lsm_states]
  | succ k ih =>
    intro rd idx st
    have h := LSMState_read_consumes rd
    unfold QOAPlayer.read_lsm_states
    rcases hr : LSMState.read rd with ⟨e | s, rd1⟩
    · rw [hr] at h; simpa using h
    · rw [hr] at h
      exact Nat.le_trans (ih rd1 _ _) h

theorem read_slices_consumes (C : Nat) :
    ∀ (k : Nat) (rd : FileReader) (idx : Nat) (sl : List slice),
      (QOAPlayer.read_slices C k rd idx sl).1.bytes.length
          + 8 * ((QOAPlayer.read_slices C k rd idx sl).2.2.length - sl.length)
        ≤ rd.bytes.length := by
  intro k
  induction k with
  | zero => intro rd idx sl; simp [QOAPlayer.read_slices]
  | succ k ih =>
    intro rd idx sl
    unfold QOAPlayer.read_slices
    split_ifs with hc
    · simp
    · by_cases h8 : 8 ≤ rd.bytes.length
      · obtain ⟨s, hs⟩ := (slice_read_spec rd).1 h8
        rw [hs]
        have := ih ⟨rd.bytes.drop 8⟩ (idx + 1) (sl ++ [s])
        simp only [List.length_append, List.length_singleton, List.length_drop] at this ⊢
        omega
      · have hs := (slice_read_spec rd).2 (by omega)
        rw [hs]; simp

theorem decode_channels_nonempty (C : Nat) (hC : 0 < C) (sl : List slice)
    (states st1 : List LSMState) (tmp tmp1 : List Int)
    (h : QOAPlayer.decode_channels C sl C 0 states tmp = .ok (st1, tmp1)) : sl ≠ [] := by
  obtain ⟨k, rfl⟩ : ∃ k, C = k + 1 := ⟨C - 1, by omega⟩
  intro hsl
  subst hsl
  simp [QOAPlayer.decode_channels] at h

theorem phase_slice_passes (p p1 : QOAPlayer) (n ip ip1 : Nat) (buf buf1 : List Int)
    (hst : p.read_state = .ReadSlice)
    (h : p.phase_slice n ip buf = .ok (.cont p1 ip1 buf1)) :
    p1.slices = [] ∧ p1.read_state ≠ .ReadLSMState
      ∧ p1.reader.bytes.length ≤ p.reader.bytes.length
      ∧ (p.slices = [] → p1.reader.bytes.length + 8 ≤ p.reader.bytes.length) := by
  unfold QOAPlayer.phase_slice at h
  dsimp only at h
  have hcons := read_slices_consumes p.frame_header.num_channels
    (256 * p.frame_header.num_channels - p.slice_read_idx) p.reader p.slice_read_idx p.slices
  rcases hrs : QOAPlayer.read_slices p.frame_header.num_channels
      (256 * p.frame_header.num_channels - p.slice_read_idx) p.reader p.slice_read_idx p.slices
    with ⟨rd1, idx1, sl1⟩
  rw [hrs] at h hcons
  dsimp only at h hcons
  rcases hdc : QOAPlayer.decode_channels p.frame_header.num_channels sl1
      p.frame_header.num_channels 0 p.states
      (resize p.decode_tmp (p.frame_header.num_channels * QOA_SLICE_SAMPLES) 0)
    with e | ⟨st1, tmp1⟩
  · rw [hdc] at h; simp at h
  · rw [hdc] at h
    dsimp only at h
    by_cases hC0 : p.frame_header.num_channels = 0
    · simp [hC0] at h
    · have hne := decode_channels_nonempty _ (by omega) _ _ _ _ _ hdc
      have hlen : 0 < sl1.length := List.length_pos.mpr hne
      have hb : p.slices = [] → rd1.bytes.length + 8 ≤ p.reader.bytes.length := by
        intro hs
        rw [hs] at hcons
        simp only [List.length_nil, Nat.sub_zero] at hcons
        omega
      simp only [hC0, if_false] at h
      split_ifs at h with g1 g2 g3 g4 <;>
        simp only [Except.ok.injEq, LoopOutcome.cont.injEq, reduceCtorEq] at h
      · obtain ⟨rfl, -, -⟩ := h
        exact ⟨rfl, by simp, by simp only; omega, hb⟩
      · obtain ⟨rfl, -, -⟩ := h
        refine ⟨rfl, ?_, by simp only; omega, hb⟩
        simp only [hst]
        simp

theorem loop_body_passes (p p1 : QOAPlayer) (n ip ip1 : Nat) (buf buf1 : List Int)
    (h : p.loop_body n ip buf = .ok (.cont p1 ip1 buf1)) :
    p1.passes_bound < p.passes_bound := by
  unfold QOAPlayer.loop_body at h
  split at h
  · rename_i hst
    unfold QOAPlayer.phase_frame_header at h
    split at h
    · simp at h
    · rename_i fh rd1 hfh
      simp only [Except.ok.injEq, LoopOutcome.cont.injEq] at h
      obtain ⟨rfl, -, -⟩ := h
      have := FrameHeader_read_consumes _ _ _ hfh
      simp only [QOAPlayer.passes_bound, hst]
      omega
  · rename_i hst
    unfold QOAPlayer.phase_lsm_state at h
    dsimp only at h
    have hc := read_lsm_states_consumes (p.frame_header.num_channels - p.lsm_read_idx) p.reader
      p.lsm_read_idx (resize p.states p.frame_header.num_channels LSMState.zero)
    split at h
    · simp at h
    · rename_i rd1 idx1 st1 hr
      rw [hr] at hc
      simp only [Except.ok.injEq, LoopOutcome.cont.injEq] at h
      obtain ⟨rfl, -, -⟩ := h
      simp only [QOAPlayer.passes_bound, hst]
      simp only at hc
      split_ifs <;> omega
  · rename_i hst
    obtain ⟨h1, h2, h3, h4⟩ := phase_slice_passes p p1 n ip ip1 buf buf1 hst h
    simp only [QOAPlayer.passes_bound, hst, h1, if_true]
    have hr : (match p1.read_state with
        | .ReadFrameHeader => 1
        | .ReadLSMState => 3
        | .ReadSlice => 1) = 1 := by
      cases hp : p1.read_state <;> simp_all
    rw [hr]
    by_cases hs : p.slices = []
    · have := h4 hs
      simp only [hs, if_true]
      omega
    · simp only [hs, if_false]
      omega

theorem decode_channels_fault (C : Nat) (sl : List slice) :
    ∀ (k ch : Nat) (states : List LSMState) (tmp : List Int) (e : Fault),
      QOAPlayer.decode_channels C sl k ch states tmp = .error e → e = .out_of_bounds := by
  intro k
  induction k with
  | zero => intro ch states tmp e h; simp [QOAPlayer.decode_channels] at h
  | succ k ih =>
    intro ch states tmp e h
    unfold QOAPlayer.decode_channels at h
    split at h
    · exact ih _ _ _ _ h
    · simp only [Except.error.injEq] at h
      exact h.symm

theorem loop_body_no_fuel (p : QOAPlayer) (n ip : Nat) (buf : List Int) :
    p.loop_body n ip buf ≠ .error .fuel := by
  unfold QOAPlayer.loop_body
  split
  · unfold QOAPlayer.phase_frame_header
    split <;> simp
  · unfold QOAPlayer.phase_lsm_state
    dsimp only
    split <;> simp
  · unfold QOAPlayer.phase_slice
    dsimp only
    rcases hdc : QOAPlayer.decode_channels p.frame_header.num_channels
        (QOAPlayer.read_slices p.frame_header.num_channels
          (256 * p.frame_header.num_channels - p.slice_read_idx) p.reader p.slice_read_idx
          p.slices).2.2
        p.frame_header.num_channels 0 p.states
        (resize p.decode_tmp (p.frame_header.num_channels * QOA_SLICE_SAMPLES) 0)
      with e | ⟨st1, tmp1⟩
    · have := decode_channels_fault _ _ _ _ _ _ _ hdc
      subst this
      simp
    · dsimp only
      split_ifs <;> simp

theorem decode_loop_total (n : Nat) :
    ∀ (fuel : Nat) (p : QOAPlayer) (ip : Nat) (buf : List Int),
      p.passes_bound < fuel → QOAPlayer.decode_loop n fuel p ip buf ≠ .error .fuel := by
  intro fuel
  induction fuel with
  | zero => intro p ip buf h; omega
  | succ fuel ih =>
    intro p ip buf h
    unfold QOAPlayer.decode_loop
    rcases hb : p.loop_body n ip buf with e | out
    · have := loop_body_no_fuel p n ip buf
      rw [hb] at this
      simpa using this
    · rcases out with ⟨r, p1⟩ | ⟨p1, ip1, buf1⟩
      · simp
      · have := loop_body_passes p p1 n ip ip1 buf buf1 hb
        exact ih p1 ip1 buf1 (by omega)

/-- The loop of `decode` is never stopped by the number of passes it is given:
`decode` either returns or ends in a failed assertion, an access past the end of
a vector or a division by zero. -/
theorem decode_total (p : QOAPlayer) (n : Nat) : p.decode n ≠ .error .fuel := by
  unfold QOAPlayer.decode
  split_ifs with g1
  · simp
  · rcases hd : p.drain n with e | ⟨p2, ip, buf⟩
    · unfold QOAPlayer.drain at hd
      split_ifs at hd <;> simp at hd <;> subst hd <;> simp
    · have hp2 : p2.passes_bound = p.passes_bound := by
        unfold QOAPlayer.drain at hd
        split_ifs at hd <;> simp only [Except.ok.injEq, Prod.mk.injEq] at hd <;>
          (obtain ⟨rfl, -, -⟩ := hd; rfl)
      dsimp only
      split_ifs with g2
      · simp
      · apply decode_loop_total
        have : p2.passes_bound ≤ p2.reader.bytes.length + 3 := by
          unfold QOAPlayer.passes_bound
          split <;> (try split_ifs) <;> omega
        omega

/-! ## The streaming engine on particular streams -/

/-- C2 (never more than fit), evaluated on `channel_change`: after a call with
a destination of 6 samples, the call with a destination of 35 samples returns
43 and stores 43 samples. -/
theorem decode_overruns_destination :
    (stream_calls sample.channel_change [6, 35]).map
        (List.map (Except.map fun r => (r.ret, r.written.length)))
      = some [.ok (6, 6), .ok (43, 43)] := by
  decide

/-- C3 (sample-frame alignment), evaluated on `stereo20` with destinations of
3 samples: the second call returns 3 samples, one and a half sample frames, and
leaves 35 queued samples for 2 channels; the third call fails the assertion. -/
theorem drain_breaks_alignment :
    stream_calls sample.stereo20 [3, 3, 3]
        = some [.ok ⟨2, [-22, -245]⟩, .ok ⟨3, [16384, 16551, -32693]⟩, .error .assertion]
      ∧ (stream_after sample.stereo20 [3, 3]).map
          (fun p => (p.num_channels, p.buffered_pcm.length)) = some (2, 35) := by
  decide

/-- C4 (truncation tolerance), evaluated on `stereo_cut` with destinations of
40 samples: the first call returns the 40 samples of the complete batch, the
second one reads `slices[1]` although one slice only was read. -/
theorem cut_batch_is_accessed :
    (stream_calls sample.stereo_cut [40, 40]).map (List.map (Except.map DecodeResult.ret))
      = some [.ok 40, .error .out_of_bounds] := by
  decide

/-- C5 (unknown length), evaluated on `unknown_length` with a destination of 20
samples: the first call returns no sample and leaves the engine waiting for a
frame header. -/
theorem unknown_length_yields_nothing :
    stream_calls sample.unknown_length [20] = some [.ok ⟨0, []⟩]
      ∧ (stream_after sample.unknown_length [20]).map (fun p => p.read_state)
          = some .ReadFrameHeader := by
  decide

/-! ## The parsers of the container records -/

/-- C11 (frame header).  On a reader whose next eight bytes are `b0 .. b7`,
`FrameHeader::read` succeeds exactly when `b0 ≠ 0`, `(b1, b2, b3) ≠ (0, 0, 0)`,
`(b4, b5) ≠ (0, 0)` and `(b6, b7) ≠ (0, 0)`; it then leaves the reader right
after these eight bytes and returns `num_channels = b0`,
`sample_rate = b1 * 65536 + b2 * 256 + b3`, `frame_samples = b4 * 256 + b5` and
`frame_size = b6 * 256 + b7`. -/
theorem frame_header_fields (b0 b1 b2 b3 b4 b5 b6 b7 : Fin 256) (rest : List (Fin 256)) :
    ((∃ fh rd1, FrameHeader.read ⟨b0 :: b1 :: b2 :: b3 :: b4 :: b5 :: b6 :: b7 :: rest⟩
          = (.ok fh, rd1))
        ↔ (b0 ≠ 0 ∧ ¬ (b1 = 0 ∧ b2 = 0 ∧ b3 = 0) ∧ ¬ (b4 = 0 ∧ b5 = 0) ∧ ¬ (b6 = 0 ∧ b7 = 0)))
      ∧ ∀ fh rd1,
          FrameHeader.read ⟨b0 :: b1 :: b2 :: b3 :: b4 :: b5 :: b6 :: b7 :: rest⟩ = (.ok fh, rd1) →
          rd1 = ⟨rest⟩ ∧ fh.num_channels = b0.val
            ∧ fh.sample_rate = b1.val * 65536 + b2.val * 256 + b3.val
            ∧ fh.frame_samples = b4.val * 256 + b5.val
            ∧ fh.frame_size = b6.val * 256 + b7.val := by
  have e0 : b0.val = 0 ↔ b0 = 0 := by rw [Fin.ext_iff]; rfl
  have e1 : b1.val * 65536 + b2.val * 256 + b3.val = 0 ↔ (b1 = 0 ∧ b2 = 0 ∧ b3 = 0) := by
    simp only [Fin.ext_iff, Fin.val_zero]; omega
  have e2 : b4.val * 256 + b5.val = 0 ↔ (b4 = 0 ∧ b5 = 0) := by
    simp only [Fin.ext_iff, Fin.val_zero]; omega
  have e3 : b6.val * 256 + b7.val = 0 ↔ (b6 = 0 ∧ b7 = 0) := by
    simp only [Fin.ext_iff, Fin.val_zero]; omega
  simp only [FrameHeader.read, FileReader.read_u8, FileReader.read_u24, FileReader.read_u16,
    FileReader.read, List.take, List.drop, e0, e1, e2, e3]
  constructor
  · constructor
    · intro ⟨fh, rd1, h⟩
      split_ifs at h with g0 g1 g2 g3 <;> simp at h
      exact ⟨g0, g1, g2, g3⟩
    · intro ⟨g0, g1, g2, g3⟩
      simp only [g0, g1, g2, g3, if_false]
      exact ⟨_, _, rfl⟩
  · intro fh rd1 h
    split_ifs at h with g0 g1 g2 g3 <;> simp at h
    obtain ⟨rfl, rfl⟩ := h
    exact ⟨rfl, rfl, rfl, rfl, rfl⟩

/-- The frame header theorem on the header of a stereo frame at 44100 Hz. -/
theorem frame_header_fields_witness :
    FrameHeader.read ⟨sample.frame_header 2 20 56 ++ sample.lsm⟩
        = (.ok ⟨2, 44100, 20, 56⟩, ⟨sample.lsm⟩)
      ∧ ((⟨sample.lsm⟩ : FileReader) = ⟨sample.lsm⟩ ∧ (2 : Nat) = (2 : Fin 256).val
          ∧ 44100 = (0 : Fin 256).val * 65536 + (0xAC : Fin 256).val * 256 + (0x44 : Fin 256).val
          ∧ 20 = (0 : Fin 256).val * 256 + (20 : Fin 256).val
          ∧ 56 = (0 : Fin 256).val * 256 + (56 : Fin 256).val) :=
  ⟨by decide, (frame_header_fields 2 0 0xAC 0x44 0 20 0 56 sample.lsm).2 ⟨2, 44100, 20, 56⟩
    ⟨sample.lsm⟩ (by decide)⟩


theorem u24_eq_zero (b1 b2 b3 : Fin 256) :
    b1.val * 65536 + b2.val * 256 + b3.val = 0 ↔ (b1 = 0 ∧ b2 = 0 ∧ b3 = 0) := by
  simp only [Fin.ext_iff, Fin.val_zero]; omega

theorem u16_eq_zero (b1 b2 : Fin 256) :
    b1.val * 256 + b2.val = 0 ↔ (b1 = 0 ∧ b2 = 0) := by
  simp only [Fin.ext_iff, Fin.val_zero]; omega

theorem u8_eq_zero (b0 : Fin 256) : b0.val = 0 ↔ b0 = 0 := by
  rw [Fin.ext_iff]; rfl

theorem FileHeader_read_cases (bs : List (Fin 256)) :
    ((bs.length < 4 ∨ bs.take 4 ≠ qoaf_magic) →
        (FileHeader.read ⟨bs⟩).1 = .error "Invalid magic")
      ∧ (bs.take 4 = qoaf_magic → bs.length < 8 →
          (FileHeader.read ⟨bs⟩).1 = .error "Failed to read samples")
      ∧ (bs.take 4 = qoaf_magic → 8 ≤ bs.length → ∃ hd, (FileHeader.read ⟨bs⟩).1 = .ok hd) := by
  have hlen : (bs.take 4).length ≠ 4 ↔ bs.length < 4 := by
    rw [List.length_take]; omega
  refine ⟨?_, ?_, ?_⟩
  · intro h
    have : (bs.take 4).length ≠ 4 ∨ bs.take 4 ≠ qoaf_magic := by
      rcases h with h | h
      · exact Or.inl (hlen.2 h)
      · exact Or.inr h
    simp only [FileHeader.read, FileReader.read, this, if_true]
  · intro h1 h2
    have h4 : ¬ ((bs.take 4).length ≠ 4 ∨ bs.take 4 ≠ qoaf_magic) := by
      rw [h1]; simp [qoaf_magic]
    have h5 : (bs.drop 4).length < 4 := by rw [List.length_drop]; omega
    simp only [FileHeader.read, FileReader.read, h4, if_false]
    rcases hd : bs.drop 4 with _ | ⟨a, _ | ⟨b, _ | ⟨c, _ | ⟨d, l⟩⟩⟩⟩ <;>
      simp [FileReader.read_u32, FileReader.read, hd]
    rw [hd] at h5
    simp at h5
    omega
  · intro h1 h2
    have h4 : ¬ ((bs.take 4).length ≠ 4 ∨ bs.take 4 ≠ qoaf_magic) := by
      rw [h1]; simp [qoaf_magic]
    have h5 : 4 ≤ (bs.drop 4).length := by rw [List.length_drop]; omega
    simp only [FileHeader.read, FileReader.read, h4, if_false]
    rcases hd : bs.drop 4 with _ | ⟨a, _ | ⟨b, _ | ⟨c, _ | ⟨d, l⟩⟩⟩⟩ <;>
      rw [hd] at h5 <;> simp at h5
    simp [FileReader.read_u32, FileReader.read, hd]

/-- C12 as stated fails for the magic tag: on a reader that returns only two of
the four bytes requested for the tag, `FileHeader::read` fails with the same
error, `Invalid magic`, as on eight bytes whose tag is `qoag`. -/
theorem short_magic_is_invalid_magic :
    (FileHeader.read ⟨[0x71, 0x6f]⟩).1 = .error "Invalid magic"
      ∧ (FileHeader.read ⟨[0x71, 0x6f, 0x61, 0x67, 0, 0, 0, 20]⟩).1 = .error "Invalid magic" := by
  constructor <;> rfl

/-- C12 (classification of parse errors), amended.  `FileHeader::read` fails
with `Invalid magic` when the reader returns fewer than the four bytes of the
tag and also when the four bytes differ from `qoaf`, with
`Failed to read samples` when the tag is right and fewer than four bytes follow
it, and succeeds otherwise.  `FrameHeader::read` goes through its four fields in
order and fails at the first one that is cut short, with
`Failed to read <field>`, or that is read in full and is zero, with
`<field> cannot be 0`.  No message of a short read is a message of a bad
value. -/
theorem parse_error_classes (bs : List (Fin 256)) :
    ((bs.length < 4 ∨ bs.take 4 ≠ qoaf_magic) →
        (FileHeader.read ⟨bs⟩).1 = .error "Invalid magic")
      ∧ (bs.take 4 = qoaf_magic → bs.length < 8 →
          (FileHeader.read ⟨bs⟩).1 = .error "Failed to read samples")
      ∧ (bs.take 4 = qoaf_magic → 8 ≤ bs.length → ∃ hd, (FileHeader.read ⟨bs⟩).1 = .ok hd)
      ∧ (bs = [] → (FrameHeader.read ⟨bs⟩).1 = .error "Failed to read num_channels")
      ∧ (∀ b0 rest, bs = b0 :: rest →
          (b0 = 0 → (FrameHeader.read ⟨bs⟩).1 = .error "num_channels cannot be 0")
          ∧ (b0 ≠ 0 → rest.length < 3 →
              (FrameHeader.read ⟨bs⟩).1 = .error "Failed to read sample_rate"))
      ∧ (∀ b0 b1 b2 b3 rest, bs = b0 :: b1 :: b2 :: b3 :: rest → b0 ≠ 0 →
          ((b1 = 0 ∧ b2 = 0 ∧ b3 = 0) →
              (FrameHeader.read ⟨bs⟩).1 = .error "sample_rate cannot be 0")
          ∧ (¬ (b1 = 0 ∧ b2 = 0 ∧ b3 = 0) → rest.length < 2 →
              (FrameHeader.read ⟨bs⟩).1 = .error "Failed to read frame_samples"))
      ∧ (∀ b0 b1 b2 b3 b4 b5 rest, bs = b0 :: b1 :: b2 :: b3 :: b4 :: b5 :: rest → b0 ≠ 0 →
          ¬ (b1 = 0 ∧ b2 = 0 ∧ b3 = 0) →
          ((b4 = 0 ∧ b5 = 0) →
              (FrameHeader.read ⟨bs⟩).1 = .error "frame_samples cannot be 0")
          ∧ (¬ (b4 = 0 ∧ b5 = 0) → rest.length < 2 →
              (FrameHeader.read ⟨bs⟩).1 = .error "Failed to read frame_size"))
      ∧ (∀ b0 b1 b2 b3 b4 b5 b6 b7 rest,
          bs = b0 :: b1 :: b2 :: b3 :: b4 :: b5 :: b6 :: b7 :: rest → b0 ≠ 0 →
          ¬ (b1 = 0 ∧ b2 = 0 ∧ b3 = 0) → ¬ (b4 = 0 ∧ b5 = 0) → (b6 = 0 ∧ b7 = 0) →
          (FrameHeader.read ⟨bs⟩).1 = .error "frame_size cannot be 0")
      ∧ ∀ e ∈ short_read_errors, e ∉ bad_value_errors := by
  obtain ⟨f1, f2, f3⟩ := FileHeader_read_cases bs
  refine ⟨f1, f2, f3, ?_, ?_, ?_, ?_, ?_, ?_⟩
  · rintro rfl
    rfl
  · rintro b0 rest rfl
    constructor
    · rintro rfl
      rfl
    · intro h0 hr
      have h0v : b0.val ≠ 0 := fun h => h0 ((u8_eq_zero b0).1 h)
      rcases rest with _ | ⟨b1, _ | ⟨b2, _ | ⟨b3, l⟩⟩⟩ <;>
        simp [FrameHeader.read, FileReader.read_u8, FileReader.read_u24, FileReader.read, h0v]
      simp at hr
      omega
  · rintro b0 b1 b2 b3 rest rfl h0
    have h0v : b0.val ≠ 0 := fun h => h0 ((u8_eq_zero b0).1 h)
    constructor
    · rintro ⟨rfl, rfl, rfl⟩
      simp [FrameHeader.read, FileReader.read_u8, FileReader.read_u24, FileReader.read, h0v]
    · intro h1 hr
      have h1v := (not_congr (u24_eq_zero b1 b2 b3)).2 h1
      rcases rest with _ | ⟨b4, _ | ⟨b5, l⟩⟩ <;>
        simp [FrameHeader.read, FileReader.read_u8, FileReader.read_u24, FileReader.read_u16,
          FileReader.read, h0v, h1v]
      simp at hr
      omega
  · rintro b0 b1 b2 b3 b4 b5 rest rfl h0 h1
    have h0v : b0.val ≠ 0 := fun h => h0 ((u8_eq_zero b0).1 h)
    have h1v := (not_congr (u24_eq_zero b1 b2 b3)).2 h1
    constructor
    · rintro ⟨rfl, rfl⟩
      simp [FrameHeader.read, FileReader.read_u8, FileReader.read_u24, FileReader.read_u16,
        FileReader.read, h0v, h1v]
    · intro h2 hr
      have h2v := (not_congr (u16_eq_zero b4 b5)).2 h2
      rcases rest with _ | ⟨b6, _ | ⟨b7, l⟩⟩ <;>
        simp [FrameHeader.read, FileReader.read_u8, FileReader.read_u24, FileReader.read_u16,
          FileReader.read, h0v, h1v, h2v]
      simp at hr
      omega
  · rintro b0 b1 b2 b3 b4 b5 b6 b7 rest rfl h0 h1 h2 ⟨rfl, rfl⟩
    have h0v : b0.val ≠ 0 := fun h => h0 ((u8_eq_zero b0).1 h)
    have h1v := (not_congr (u24_eq_zero b1 b2 b3)).2 h1
    have h2v := (not_congr (u16_eq_zero b4 b5)).2 h2
    simp [FrameHeader.read, FileReader.read_u8, FileReader.read_u24, FileReader.read_u16,
      FileReader.read, h0v, h1v, h2v]
  · decide

/-- The classification theorem on the first six bytes of a frame header whose
field `frame_samples` is zero, and on a stream header cut after its tag. -/
theorem parse_error_classes_witness :
    ((2 : Fin 256) ≠ 0 ∧ ¬ ((0 : Fin 256) = 0 ∧ (0xAC : Fin 256) = 0 ∧ (0x44 : Fin 256) = 0)
        ∧ ((0 : Fin 256) = 0 ∧ (0 : Fin 256) = 0))
      ∧ (FrameHeader.read ⟨[2, 0, 0xAC, 0x44, 0, 0]⟩).1 = .error "frame_samples cannot be 0"
      ∧ (FileHeader.read ⟨[0x71, 0x6f, 0x61, 0x66, 0]⟩).1 = .error "Failed to read samples" :=
  ⟨by decide,
    ((parse_error_classes [2, 0, 0xAC, 0x44, 0, 0]).2.2.2.2.2.2.1 2 0 0xAC 0x44 0 0 [] rfl
      (by decide) (by decide)).1 ⟨rfl, rfl⟩,
    (parse_error_classes [0x71, 0x6f, 0x61, 0x66, 0]).2.1 rfl (by decide)⟩

/-- C13 (predictor state).  On a reader whose next sixteen bytes are
`b0 .. b15`, `LSMState::read` returns `history[i]` equal to the conversion to
`i16` of the big-endian value of bytes `2i, 2i + 1` and `weights[i]` equal to
the same conversion of the value of bytes `8 + 2i, 9 + 2i`, and leaves the
reader right after the sixteen bytes; on a 16-bit value that conversion is the
reading in two's complement (the value itself below 32768, the value minus 65536
from 32768 on), so the bytes `FF FF` give -1 and the bytes `80 00` give -32768;
on a reader with fewer than sixteen bytes left `LSMState::read` fails. -/
theorem lsm_state_is_signed
    (b0 b1 b2 b3 b4 b5 b6 b7 b8 b9 b10 b11 b12 b13 b14 b15 : Fin 256) (rest : List (Fin 256)) :
    LSMState.read ⟨b0 :: b1 :: b2 :: b3 :: b4 :: b5 :: b6 :: b7 :: b8 :: b9 :: b10 :: b11
            :: b12 :: b13 :: b14 :: b15 :: rest⟩
          = (.ok ⟨⟨to_i16 (b0.val * 256 + b1.val : Nat), to_i16 (b2.val * 256 + b3.val : Nat),
                    to_i16 (b4.val * 256 + b5.val : Nat), to_i16 (b6.val * 256 + b7.val : Nat)⟩,
                  ⟨to_i16 (b8.val * 256 + b9.val : Nat), to_i16 (b10.val * 256 + b11.val : Nat),
                    to_i16 (b12.val * 256 + b13.val : Nat),
                    to_i16 (b14.val * 256 + b15.val : Nat)⟩⟩, ⟨rest⟩)
      ∧ (∀ v : Nat, v < 65536 →
          to_i16 (v : Int) = if v < 32768 then (v : Int) else (v : Int) - 65536)
      ∧ to_i16 ((0xFF * 256 + 0xFF : Nat) : Int) = -1
      ∧ to_i16 ((0x80 * 256 + 0x00 : Nat) : Int) = -32768
      ∧ ∀ rd : FileReader, rd.bytes.length < 16 →
          ∃ e rd1, LSMState.read rd = (.error e, rd1) := by
  refine ⟨?_, ?_, by decide, by decide, ?_⟩
  · simp [LSMState.read, LSMState.read_i16x4, FileReader.read_u16, FileReader.read]
  · intro v hv
    unfold to_i16
    split_ifs <;> omega
  · intro rd h
    obtain ⟨e, he⟩ := (LSMState_read_spec rd).2 h
    exact ⟨e, _, he⟩

/-- The predictor-state theorem on the sixteen bytes of `lsm`, and on a reader
with only the first fifteen of them. -/
theorem lsm_state_is_signed_witness :
    LSMState.read ⟨sample.lsm ++ sample.slice_a⟩ = (.ok sample.the_state, ⟨sample.slice_a⟩)
      ∧ ((⟨sample.lsm.take 15⟩ : FileReader).bytes.length < 16
          ∧ ∃ e rd1, LSMState.read ⟨sample.lsm.take 15⟩ = (.error e, rd1)) :=
  ⟨(lsm_state_is_signed 0 1 0 2 0xff 0xff 0x80 0 0x10 0 0x20 0 0xf0 0 0 5 sample.slice_a).1.trans
      (by decide),
    by decide,
    (lsm_state_is_signed 0 0 0 0 0 0 0 0 0 0 0 0 0 0 0 0 []).2.2.2.2 ⟨sample.lsm.take 15⟩
      (by decide)⟩

theorem read_qr_eq : ∀ (k data : Nat) (qr : List Nat),
    slice.read_qr k data qr
      = (List.range k).map (fun i => (data >>> (3 * (k - 1 - i))) &&& 7) ++ qr := by
  intro k
  induction k with
  | zero => intro data qr; simp [slice.read_qr]
  | succ k ih =>
    intro data qr
    rw [slice.read_qr, ih, List.range_succ, List.map_append, List.append_assoc]
    congr 1
    · apply List.map_congr_left
      intro i hi
      rw [List.mem_range] at hi
      rw [← Nat.shiftRight_add]
      congr 2
      omega
    · simp

theorem be64_lt (b0 b1 b2 b3 b4 b5 b6 b7 : Fin 256) : be64 b0 b1 b2 b3 b4 b5 b6 b7 < 2 ^ 64 := by
  unfold be64
  have := b0.isLt; have := b1.isLt; have := b2.isLt; have := b3.isLt
  have := b4.isLt; have := b5.isLt; have := b6.isLt; have := b7.isLt
  norm_num
  omega

theorem octal_digits : ∀ (k w : Nat),
    ((List.range k).map fun i => ((w >>> (3 * (k - 1 - i))) &&& 7) * 2 ^ (3 * (k - 1 - i))).sum
      = w % 2 ^ (3 * k) := by
  intro k
  induction k with
  | zero => intro w; simp [Nat.mod_one]
  | succ k ih =>
    intro w
    rw [List.range_succ, List.map_append, List.sum_append]
    have e : (List.range k).map
          (fun i => ((w >>> (3 * (k + 1 - 1 - i))) &&& 7) * 2 ^ (3 * (k + 1 - 1 - i)))
        = (List.range k).map
          (fun i => (((w >>> 3) >>> (3 * (k - 1 - i))) &&& 7) * 2 ^ (3 * (k - 1 - i)) * 8) := by
      apply List.map_congr_left
      intro i hi
      rw [List.mem_range] at hi
      rw [← Nat.shiftRight_add, Nat.mul_assoc]
      have h1 : 3 * (k + 1 - 1 - i) = 3 + 3 * (k - 1 - i) := by omega
      rw [h1, Nat.pow_add, Nat.mul_comm (2 ^ 3)]
    rw [e, List.sum_map_mul_right, ih (w >>> 3)]
    simp only [List.map_cons, List.map_nil, List.sum_cons, List.sum_nil, Nat.add_zero]
    have h7 : w &&& 7 = w % 8 := Nat.and_pow_two_sub_one_eq_mod w 3
    have h2 : k + 1 - 1 - k = 0 := by omega
    rw [h2, Nat.mul_zero, Nat.shiftRight_zero, Nat.pow_zero, Nat.mul_one, h7,
      Nat.shiftRight_eq_div_pow]
    have h3 : 2 ^ (3 * (k + 1)) = 8 * 2 ^ (3 * k) := by
      rw [Nat.mul_add, Nat.pow_add]; ring
    rw [h3, Nat.mod_mul, show (2:Nat) ^ 3 = 8 by norm_num]
    ring

/-- C14 (slice bit layout).  For the eight bytes `b0 .. b7` read as the
big-endian 64-bit word `w`, `slice::read` returns `quant = w >> 60`, which is
below 16, and `qr[i] = (w >> (3 * (19 - i))) & 7` for `i` in `0 .. 19`, every
one below 8; and `w = quant * 2^60 + sum of qr[i] * 2^(3 * (19 - i))`, so that
no bit of the word is lost. -/
theorem slice_bit_layout (b0 b1 b2 b3 b4 b5 b6 b7 : Fin 256) (rest : List (Fin 256))
    (w : Nat) (hw : w = be64 b0 b1 b2 b3 b4 b5 b6 b7) :
    slice.read ⟨b0 :: b1 :: b2 :: b3 :: b4 :: b5 :: b6 :: b7 :: rest⟩
        = (.ok ⟨w >>> 60, (List.range 20).map fun i => (w >>> (3 * (19 - i))) &&& 7⟩, ⟨rest⟩)
      ∧ w >>> 60 < 16
      ∧ (∀ i, i < 20 → (w >>> (3 * (19 - i))) &&& 7 < 8)
      ∧ w = (w >>> 60) * 2 ^ 60
          + ((List.range 20).map fun i => ((w >>> (3 * (19 - i))) &&& 7) * 2 ^ (3 * (19 - i))).sum
      := by
  have hlt : w < 2 ^ 64 := by rw [hw]; exact be64_lt b0 b1 b2 b3 b4 b5 b6 b7
  have hq : w >>> 60 < 16 := by
    rw [Nat.shiftRight_eq_div_pow]
    apply Nat.div_lt_of_lt_mul
    calc w < 2 ^ 64 := hlt
      _ = 2 ^ 60 * 16 := by norm_num
  refine ⟨?_, hq, ?_, ?_⟩
  · simp only [slice.read, FileReader.read, List.take, List.drop, QOA_SLICE_SAMPLES]
    rw [read_qr_eq, List.append_nil, ← hw, Nat.mod_eq_of_lt (by omega)]
  · intro i _
    rw [show (7 : Nat) = 2 ^ 3 - 1 by norm_num, Nat.and_pow_two_sub_one_eq_mod]
    exact Nat.mod_lt _ (by norm_num)
  · have h := octal_digits 20 w
    simp only [show 20 - 1 = 19 by norm_num, show 3 * 20 = 60 by norm_num] at h
    rw [h, Nat.shiftRight_eq_div_pow]
    exact (Nat.div_add_mod' w (2 ^ 60)).symm

/-- The bit layout theorem on the eight bytes of `slice_a`. -/
theorem slice_bit_layout_witness :
    (0x123456789abcdef0 = be64 0x12 0x34 0x56 0x78 0x9a 0xbc 0xde 0xf0 ∧ 1 < 20)
      ∧ slice.read ⟨sample.slice_a ++ sample.slice_b⟩ = (.ok sample.the_slice, ⟨sample.slice_b⟩)
      ∧ (0x123456789abcdef0 >>> (3 * (19 - 1))) &&& 7 < 8 :=
  ⟨⟨by decide, by decide⟩,
    (slice_bit_layout 0x12 0x34 0x56 0x78 0x9a 0xbc 0xde 0xf0 sample.slice_b 0x123456789abcdef0
      (by decide)).1.trans (by decide),
    (slice_bit_layout 0x12 0x34 0x56 0x78 0x9a 0xbc 0xde 0xf0 sample.slice_b 0x123456789abcdef0
      (by decide)).2.2.1 1 (by decide)⟩

theorem slice_read_take (rd : FileReader) (h : 8 ≤ rd.bytes.length) :
    slice.read rd = (.ok (parse_slice (rd.bytes.take 8)), ⟨rd.bytes.drop 8⟩) := by
  have h1 := (slice_read_append (rd.bytes.take 8) (rd.bytes.drop 8)
    (by rw [List.length_take]; omega)).1
  rw [List.take_append_drop] at h1
  exact h1

theorem frame_read_slices_eq : ∀ (k : Nat) (rd : FileReader) (acc : List slice),
    Frame.read_slices k rd acc
      = (acc ++ (List.range (min k (rd.bytes.length / 8))).map
            (fun i => parse_slice ((rd.bytes.drop (8 * i)).take 8)),
          if k ≤ rd.bytes.length / 8 then ⟨rd.bytes.drop (8 * k)⟩ else ⟨[]⟩) := by
  intro k
  induction k with
  | zero => intro rd acc; simp [Frame.read_slices]
  | succ k ih =>
    intro rd acc
    by_cases h : 8 ≤ rd.bytes.length
    · rw [Frame.read_slices, slice_read_take rd h]
      simp only
      rw [ih]
      have hm : min (k + 1) (rd.bytes.length / 8)
          = min k ((rd.bytes.drop 8).length / 8) + 1 := by
        rw [List.length_drop]; omega
      have hc : (k ≤ (rd.bytes.drop 8).length / 8) ↔ (k + 1 ≤ rd.bytes.length / 8) := by
        rw [List.length_drop]; omega
      have hd : ∀ i, (rd.bytes.drop 8).drop (8 * i) = rd.bytes.drop (8 * (i + 1)) := by
        intro i
        rw [List.drop_drop]
        congr 1
        omega
      rw [hm, List.range_succ_eq_map, List.map_cons, List.map_map]
      simp only [hc, hd, Nat.mul_zero, List.drop_zero, List.append_assoc, List.singleton_append]
      rfl
    · have hs := (slice_read_spec rd).2 (by omega)
      have h0 : rd.bytes.length / 8 = 0 := by omega
      rw [Frame.read_slices, hs]
      simp [h0]

/-- C15 (slice grouping of `Frame::read`).  Once the frame header and the
`num_channels` predictor states have been read, `Frame::read` reads
`k = min (256 * num_channels) (bytes left / 8)` slices, the consecutive complete
groups of eight bytes, in order: it stops after `256 * num_channels` slices or
at the first slice that comes up short.  It returns an error exactly when `k` is
not a multiple of `num_channels`, and otherwise the frame with the header, the
states and exactly these `k` slices in the order of the stream. -/
theorem frame_read_grouping (rd rd1 rd2 : FileReader) (fh : FrameHeader)
    (states : List LSMState) (k : Nat) (slices : List slice)
    (hh : FrameHeader.read rd = (.ok fh, rd1))
    (hs : Frame.read_states fh.num_channels rd1 [] = (.ok states, rd2))
    (hk : k = min (256 * fh.num_channels) (rd2.bytes.length / 8))
    (hsl : slices = (List.range k).map fun i => parse_slice ((rd2.bytes.drop (8 * i)).take 8)) :
    (Frame.read_slices (256 * fh.num_channels) rd2 []).1 = slices
      ∧ ((∃ e r, Frame.read rd = (.error e, r)) ↔ k % fh.num_channels ≠ 0)
      ∧ (k % fh.num_channels ≠ 0 → (Frame.read rd).1 = .error "Unexpected end of file")
      ∧ (k % fh.num_channels = 0 → ∃ r, Frame.read rd = (.ok ⟨fh, states, slices⟩, r)) := by
  have e := frame_read_slices_eq (256 * fh.num_channels) rd2 []
  rw [List.nil_append, ← hk, ← hsl] at e
  have hl : slices.length = k := by rw [hsl]; simp
  refine ⟨by rw [e], ?_, ?_, ?_⟩
  · simp only [Frame.read, hh, hs, e]
    rw [hl]
    by_cases hk0 : k % fh.num_channels = 0
    · simp [hk0]
    · simp only [ne_eq, hk0, not_false_eq_true, if_true, iff_true]
      exact ⟨_, _, rfl⟩
  · intro hk0
    simp only [Frame.read, hh, hs, e]
    rw [hl]
    simp [hk0]
  · intro hk0
    simp only [Frame.read, hh, hs, e]
    rw [hl]
    simp only [ne_eq, hk0, not_true_eq_false, if_false]
    exact ⟨_, rfl⟩

/-- The grouping theorem on a frame of two channels whose input ends after
three slices and three more bytes: three slices are read and `Frame::read`
returns an error. -/
theorem frame_read_grouping_witness :
    (FrameHeader.read ⟨sample.stereo_cut.bytes.drop 8⟩
          = (.ok ⟨2, 44100, 40, 72⟩, ⟨sample.stereo_cut.bytes.drop 16⟩)
        ∧ Frame.read_states 2 ⟨sample.stereo_cut.bytes.drop 16⟩ []
          = (.ok [sample.the_state, sample.the_state], ⟨sample.stereo_cut.bytes.drop 48⟩)
        ∧ 3 = min (256 * 2) ((sample.stereo_cut.bytes.drop 48).length / 8)
        ∧ 3 % 2 ≠ 0)
      ∧ (Frame.read ⟨sample.stereo_cut.bytes.drop 8⟩).1 = .error "Unexpected end of file" :=
  ⟨⟨by decide, by decide, by decide, by decide⟩,
    (frame_read_grouping ⟨sample.stereo_cut.bytes.drop 8⟩ ⟨sample.stereo_cut.bytes.drop 16⟩
      ⟨sample.stereo_cut.bytes.drop 48⟩ ⟨2, 44100, 40, 72⟩ [sample.the_state, sample.the_state]
      3 _ (by decide) (by decide) (by decide) rfl).2.2.1 (by decide)⟩

/-! ## The steps of the slice decoder -/

/-- C17 (dequantisation).  The scale factors are 1, 7, 21, 45, 84, 138, 211,
304, 421, 562, 731, 928, 1157, 1419, 1715, 2048; the entry `v` for `quant` is
the integer nearest to `(quant + 1) ^ 2.75`, that is to say
`(2v - 1)^4 ≤ 16 (quant + 1)^11 < (2v + 1)^4`; the dequantisation values, kept
in quarters, are 0.75, -0.75, 2.5, -2.5, 4.5, -4.5, 7, -7; and for every `quant`
below 16 and every code `c` below 8 the residual `r` of `slice::decode` is the
integer nearest to the product `fr = sf * dequant_tab[c]` (in quarters:
`|4r - 4fr| ≤ 2`), a tie going away from zero (`|4r - 4fr| = 2` only with
`|4fr| < |4r|`); with `quant = 1`, the codes 2 and 3 (17.5 and -17.5) give 18
and -18.  That residual is the one added to the prediction in the sample that
`slice::decode` stores. -/
theorem dequantization :
    sf_dequant_tab
        = [1, 7, 21, 45, 84, 138, 211, 304, 421, 562, 731, 928, 1157, 1419, 1715, 2048]
      ∧ (∀ quant : Fin 16,
          (2 * sf_dequant_tab.getD quant.val 0 - 1) ^ 4 ≤ 16 * ((quant.val : Int) + 1) ^ 11
            ∧ 16 * ((quant.val : Int) + 1) ^ 11 < (2 * sf_dequant_tab.getD quant.val 0 + 1) ^ 4)
      ∧ dequant_tab4.map (fun x => (x : ℚ) / 4) = [0.75, -0.75, 2.5, -2.5, 4.5, -4.5, 7, -7]
      ∧ (∀ (quant : Fin 16) (c : Fin 8),
          |4 * slice.residual (sf_dequant_tab.getD quant.val 0) c.val
              - sf_dequant_tab.getD quant.val 0 * dequant_tab4.getD c.val 0| ≤ 2
            ∧ (|4 * slice.residual (sf_dequant_tab.getD quant.val 0) c.val
                  - sf_dequant_tab.getD quant.val 0 * dequant_tab4.getD c.val 0| = 2 →
                |sf_dequant_tab.getD quant.val 0 * dequant_tab4.getD c.val 0|
                  < |4 * slice.residual (sf_dequant_tab.getD quant.val 0) c.val|))
      ∧ slice.residual (sf_dequant_tab.getD 1 0) 2 = 18
      ∧ slice.residual (sf_dequant_tab.getD 1 0) 3 = -18
      ∧ ∀ (s : slice) (c : Nat) (state : LSMState),
          (slice.decode_sample (sf_dequant_tab.getD s.quant 0) c state).1
            = slice.clamp (slice.residual (sf_dequant_tab.getD s.quant 0) c
                + slice.predict state) := by
  refine ⟨rfl, by decide, ?_, by decide, by decide, by decide, ?_⟩
  · simp only [dequant_tab4, List.map_cons, List.map_nil]
    norm_num
  · intro s c state
    simp only [slice.decode_sample, to_i16_clamp]

/-- The dequantisation theorem at the tie of `quant = 1` and code 2: the
product is 17.5 and the residual 18. -/
theorem dequantization_witness :
    |4 * slice.residual (sf_dequant_tab.getD (1 : Fin 16).val 0) (2 : Fin 8).val
        - sf_dequant_tab.getD (1 : Fin 16).val 0 * dequant_tab4.getD (2 : Fin 8).val 0| = 2
      ∧ |sf_dequant_tab.getD (1 : Fin 16).val 0 * dequant_tab4.getD (2 : Fin 8).val 0|
          < |4 * slice.residual (sf_dequant_tab.getD (1 : Fin 16).val 0) (2 : Fin 8).val| :=
  ⟨by decide, (dequantization.2.2.2.1 1 2).2 (by decide)⟩

theorem int_shiftRight_eq (x : Int) (n : Nat) : x >>> (n : Int) = x / ((2 ^ n : Nat) : Int) := by
  cases x with
  | ofNat m =>
    rw [Int.ofNat_eq_coe, Int.shiftRight_coe_nat, Nat.shiftRight_eq_div_pow]
    norm_cast
  | negSucc m =>
    rw [Int.shiftRight_negSucc, Nat.shiftRight_eq_div_pow,
      Int.negSucc_ediv m (by positivity)]
    rw [Int.negSucc_eq]
    norm_cast

theorem shift13 (x : Int) : x >>> (13 : Int) = x / 8192 := by
  have h := int_shiftRight_eq x 13
  norm_num at h
  exact h

theorem shift4 (x : Int) : x >>> (4 : Int) = x / 16 := by
  have h := int_shiftRight_eq x 4
  norm_num at h
  exact h
theorem wrap_i32_range (v : Int) : -2147483648 ≤ wrap_i32 v ∧ wrap_i32 v < 2147483648 := by
  unfold wrap_i32; omega

theorem wrap_i32_of_range (v : Int) (h1 : -2147483648 ≤ v) (h2 : v < 2147483648) :
    wrap_i32 v = v := by
  unfold wrap_i32; omega

theorem wrap_i32_add (a b : Int) : wrap_i32 (wrap_i32 a + b) = wrap_i32 (a + b) := by
  unfold wrap_i32; omega

theorem predict_eq (state : LSMState) :
    slice.predict state
      = wrap_i32 (state.history.a0 * state.weights.a0 + state.history.a1 * state.weights.a1
          + state.history.a2 * state.weights.a2 + state.history.a3 * state.weights.a3) / 8192 := by
  unfold slice.predict
  simp only [Int.zero_add, wrap_i32_add, shift13]

/-- C18 (prediction).  For every predictor state, with `exact` the sum of the
four products `history[i] * weights[i]` and `S` its reduction to signed 32-bit
two's complement (`S` lies in `-2^31 .. 2^31 - 1` and differs from `exact` by a
multiple of `2^32`: the sum wraps, it does not saturate), the prediction `p` of
`slice::decode` is `floor (S / 8192)`, that is `8192 p ≤ S < 8192 p + 8192`; when
`exact` itself lies in the signed 32-bit range, which it does whenever the
sixteen-bit values make no overflow, `p` is `floor (exact / 8192)`.  That
prediction, from the state at the start of the step, is the one added to the
residual in the sample that every step of `slice::decode` stores. -/
theorem prediction_wraps (state : LSMState) (exact S : Int)
    (hexact : exact = state.history.a0 * state.weights.a0 + state.history.a1 * state.weights.a1
      + state.history.a2 * state.weights.a2 + state.history.a3 * state.weights.a3)
    (hS : S = wrap_i32 exact) :
    (-2 ^ 31 ≤ S ∧ S < 2 ^ 31 ∧ ∃ m : Int, S = exact + m * 2 ^ 32)
      ∧ slice.predict state = S / 8192
      ∧ (8192 * slice.predict state ≤ S ∧ S < 8192 * slice.predict state + 8192)
      ∧ (-2 ^ 31 ≤ exact → exact < 2 ^ 31 →
          slice.predict state = exact / 8192
            ∧ 8192 * slice.predict state ≤ exact ∧ exact < 8192 * slice.predict state + 8192)
      ∧ ∀ (sf : Int) (c : Nat),
          (slice.decode_sample sf c state).1
            = slice.clamp (slice.residual sf c + slice.predict state) := by
  have hp : slice.predict state = S / 8192 := by rw [hS, hexact]; exact predict_eq state
  have hr := wrap_i32_range exact
  rw [← hS] at hr
  refine ⟨⟨by norm_num; exact hr.1, by norm_num; exact hr.2, ?_⟩, hp, ?_, ?_, ?_⟩
  · refine ⟨-((exact + 2147483648) / 4294967296), ?_⟩
    rw [hS]
    simp only [wrap_i32]
    norm_num
    omega
  · rw [hp]; omega
  · intro h1 h2
    have e : S = exact := by
      rw [hS]
      exact wrap_i32_of_range exact (by norm_num at h1; exact h1) (by norm_num at h2; exact h2)
    rw [hp, e]
    omega
  · intro sf c
    simp only [slice.decode_sample, to_i16_clamp]

/-- The prediction theorem on the state with history `32767, 32767, 32767, 0`
and weights `32767, 32767, 1, 0`, whose exact sum is below `2^31`, and the
wrapped prediction of the state with all eight values `-32768`, whose exact sum
is `2^32`. -/
theorem prediction_wraps_witness :
    ((2147385345 : Int) = 32767 * 32767 + 32767 * 32767 + 32767 * 1 + 0 * 0
        ∧ (2147385345 : Int) = wrap_i32 2147385345
        ∧ -(2 : Int) ^ 31 ≤ 2147385345 ∧ (2147385345 : Int) < 2 ^ 31)
      ∧ slice.predict ⟨⟨32767, 32767, 32767, 0⟩, ⟨32767, 32767, 1, 0⟩⟩ = 2147385345 / 8192
      ∧ slice.predict ⟨⟨-32768, -32768, -32768, -32768⟩, ⟨-32768, -32768, -32768, -32768⟩⟩
          = 0 :=
  ⟨by decide,
    ((prediction_wraps ⟨⟨32767, 32767, 32767, 0⟩, ⟨32767, 32767, 1, 0⟩⟩ 2147385345 2147385345
      (by decide) (by decide)).2.2.2.1 (by decide) (by decide)).1,
    by decide⟩

theorem state_at_succ (s : slice) (state : LSMState) (n : Nat) (hn : n < s.qr.length) :
    s.state_at state (n + 1)
      = (slice.decode_sample (sf_dequant_tab.getD s.quant 0) (s.qr.getD n 0)
          (s.state_at state n)).2 := by
  unfold slice.state_at
  rw [List.take_succ, List.foldl_append, List.getElem?_eq_getElem hn]
  simp [List.getD_eq_getElem?_getD, List.getElem?_eq_getElem hn]

theorem state_at_length (s : slice) (state : LSMState) :
    s.state_at state s.qr.length = s.final_state state := by
  unfold slice.state_at slice.final_state slice.decode
  rw [decode_loop_state, List.take_length]

theorem samples_getD (s : slice) (state : LSMState) (n : Nat) (hn : n < s.qr.length) :
    (s.samples state).getD n 0
      = (slice.decode_sample (sf_dequant_tab.getD s.quant 0) (s.qr.getD n 0)
          (s.state_at state n)).1 := by
  have h2 := decode_loop_get (sf_dequant_tab.getD s.quant 0) 0 1 (by omega) s.qr 0 state
    (List.replicate s.qr.length 0) n hn (by simpa using hn)
  simp only [Nat.zero_add, Nat.mul_one] at h2
  unfold slice.samples slice.decode slice.state_at
  generalize slice.decode_loop (sf_dequant_tab.getD s.quant 0) 0 1 s.qr 0 state
    (List.replicate s.qr.length 0) = r at h2 ⊢
  rw [List.getD_eq_getElem?_getD, h2]
  rfl

theorem state_at_history (s : slice) (state : LSMState) (n : Nat) (hn : n < s.qr.length) :
    (s.state_at state (n + 1)).history
      = ⟨(s.state_at state n).history.a1, (s.state_at state n).history.a2,
          (s.state_at state n).history.a3, (s.samples state).getD n 0⟩ := by
  rw [state_at_succ s state n hn, samples_getD s state n hn]
  rfl

theorem to_i16_range (v : Int) : -32768 ≤ to_i16 v ∧ to_i16 v ≤ 32767 := by
  unfold to_i16; omega

/-- C19 (update of the predictor state).  In one step of `slice::decode`, with
`r` the residual, `delta = floor (r / 16)` (so `16 delta ≤ r < 16 delta + 16`;
`r = 1` gives 0 and `r = -1` gives -1) and `sample` the clamped `r + p`: every
`weights[i]` becomes `weights[i] + delta` when the `history[i]` from before the
step is at least 0 and `weights[i] - delta` otherwise, reduced to a signed
16-bit value, the history becomes `history[1], history[2], history[3], sample`,
and `sample` is the value stored.  Hence after a whole slice of 20 residual
codes the history is made of the samples 16, 17, 18 and 19 of the slice, in this
order. -/
theorem predictor_update (sf : Int) (c : Nat) (state next : LSMState) (r delta sample : Int)
    (hr : r = slice.residual sf c) (hdelta : delta = r / 16)
    (hsample : sample = slice.clamp (r + slice.predict state))
    (hnext : next = (slice.decode_sample sf c state).2) :
    (16 * delta ≤ r ∧ r < 16 * delta + 16 ∧ (r = 1 → delta = 0) ∧ (r = -1 → delta = -1))
      ∧ next.weights
          = ⟨to_i16 (if 0 ≤ state.history.a0 then state.weights.a0 + delta
                else state.weights.a0 - delta),
              to_i16 (if 0 ≤ state.history.a1 then state.weights.a1 + delta
                else state.weights.a1 - delta),
              to_i16 (if 0 ≤ state.history.a2 then state.weights.a2 + delta
                else state.weights.a2 - delta),
              to_i16 (if 0 ≤ state.history.a3 then state.weights.a3 + delta
                else state.weights.a3 - delta)⟩
      ∧ (∀ v : Int, -32768 ≤ to_i16 v ∧ to_i16 v ≤ 32767 ∧ ∃ m : Int, to_i16 v = v + m * 65536)
      ∧ next.history = ⟨state.history.a1, state.history.a2, state.history.a3, sample⟩
      ∧ (slice.decode_sample sf c state).1 = sample
      ∧ ∀ (s : slice) (first : LSMState), s.qr.length = 20 →
          (s.final_state first).history
            = ⟨(s.samples first).getD 16 0, (s.samples first).getD 17 0,
                (s.samples first).getD 18 0, (s.samples first).getD 19 0⟩ := by
  subst hnext hsample hdelta hr
  refine ⟨⟨by omega, by omega, by omega, by omega⟩, ?_, ?_, ?_, ?_, ?_⟩
  · simp only [slice.decode_sample, shift4]
    have e : ∀ h w : Int, w + (if h < 0 then -(slice.residual sf c / 16)
          else slice.residual sf c / 16)
        = if 0 ≤ h then w + slice.residual sf c / 16 else w - slice.residual sf c / 16 := by
      intro h w
      split_ifs <;> omega
    simp only [e]
  · intro v
    refine ⟨(to_i16_range v).1, (to_i16_range v).2, -((v + 32768) / 65536), ?_⟩
    unfold to_i16
    omega
  · simp only [slice.decode_sample, to_i16_clamp]
  · simp only [slice.decode_sample, to_i16_clamp]
  · intro s first h
    rw [← state_at_length, h, state_at_history s first 19 (by omega),
      state_at_history s first 18 (by omega), state_at_history s first 17 (by omega),
      state_at_history s first 16 (by omega)]

/-- The update theorem for the slice of `slice_a` decoded from the predictor
state of `lsm`: the history left is made of its last four samples. -/
theorem predictor_update_witness :
    ((1 : Int) = slice.residual 1 0 ∧ (0 : Int) = 1 / 16
        ∧ (1 : Int) = slice.clamp (1 + slice.predict LSMState.zero)
        ∧ (⟨⟨0, 0, 0, 1⟩, ⟨0, 0, 0, 0⟩⟩ : LSMState) = (slice.decode_sample 1 0 LSMState.zero).2
        ∧ sample.the_slice.qr.length = 20)
      ∧ (sample.the_slice.final_state sample.the_state).history
          = ⟨(sample.the_slice.samples sample.the_state).getD 16 0,
              (sample.the_slice.samples sample.the_state).getD 17 0,
              (sample.the_slice.samples sample.the_state).getD 18 0,
              (sample.the_slice.samples sample.the_state).getD 19 0⟩ :=
  ⟨by decide,
    (predictor_update 1 0 LSMState.zero ⟨⟨0, 0, 0, 1⟩, ⟨0, 0, 0, 0⟩⟩ 1 0 1
      (by decide) (by decide) (by decide) (by decide)).2.2.2.2.2 sample.the_slice
      sample.the_state (by decide)⟩

theorem chunks_length {α : Type} (C : Nat) : ∀ (m : Nat) (l : List α),
    (chunks C m l).length = m := by
  intro m
  induction m with
  | zero => intro l; rfl
  | succ m ih => intro l; simp [chunks, ih]

theorem chunks_flatten {α : Type} (C : Nat) : ∀ (m : Nat) (l : List α),
    l.length = m * C → (chunks C m l).flatten = l := by
  intro m
  induction m with
  | zero =>
    intro l h
    simp only [Nat.zero_mul, List.length_eq_zero] at h
    simp [chunks, h]
  | succ m ih =>
    intro l h
    rw [chunks, List.flatten_cons, ih (l.drop C) (by rw [List.length_drop, h]; simp [Nat.add_mul]),
      List.take_append_drop]

theorem chunks_getD {α : Type} (C : Nat) : ∀ (m : Nat) (l : List α) (occ : Nat), occ < m →
    (chunks C m l).getD occ [] = (l.drop (occ * C)).take C := by
  intro m
  induction m with
  | zero => intro l occ h; omega
  | succ m ih =>
    intro l occ h
    cases occ with
    | zero => simp [chunks]
    | succ occ =>
      rw [chunks, List.getD_cons_succ, ih (l.drop C) occ (by omega), List.drop_drop]
      congr 2
      rw [Nat.add_mul, Nat.one_mul, Nat.add_comm]

theorem chunks_mem {α : Type} (C : Nat) : ∀ (m : Nat) (l : List α), l.length = m * C →
    ∀ b ∈ chunks C m l, b.length = C ∧ ∀ x ∈ b, x ∈ l := by
  intro m
  induction m with
  | zero => intro l _ b hb; simp [chunks] at hb
  | succ m ih =>
    intro l h b hb
    rw [chunks, List.mem_cons] at hb
    rcases hb with rfl | hb
    · refine ⟨by rw [List.length_take, h, Nat.add_mul]; omega, ?_⟩
      intro x hx
      exact List.mem_of_mem_take hx
    · obtain ⟨h1, h2⟩ := ih (l.drop C)
        (by rw [List.length_drop, h]; simp [Nat.add_mul]) b hb
      exact ⟨h1, fun x hx => List.mem_of_mem_drop (h2 x hx)⟩

theorem states_after_cons (C : Nat) (states : List LSMState) (b : List slice)
    (bs : List (List slice)) : ∀ occ : Nat,
    states_after C states (b :: bs) (occ + 1) = states_after C (batch_states C b states) bs occ := by
  intro occ
  induction occ with
  | zero => simp [states_after]
  | succ occ ih =>
    rw [states_after, ih, List.getD_cons_succ]
    rfl

theorem frame_ref_get (C : Nat) : ∀ (pbs : List (List slice)) (states : List LSMState)
    (occ j : Nat), occ < pbs.length → j < 20 * C →
    (frame_ref C states pbs)[occ * (20 * C) + j]?
      = (batch_out C (pbs.getD occ []) (states_after C states pbs occ))[j]? := by
  intro pbs
  induction pbs with
  | nil => intro states occ j h; simp at h
  | cons b bs ih =>
    intro states occ j h hj
    cases occ with
    | zero =>
      simp only [Nat.zero_mul, Nat.zero_add, frame_ref, List.getD_cons_zero, states_after]
      rw [List.getElem?_append_left (by rw [batch_out_length]; exact hj)]
    | succ occ =>
      rw [frame_ref, List.getElem?_append_right (by rw [batch_out_length, Nat.add_mul]; omega),
        batch_out_length, states_after_cons, List.getD_cons_succ]
      rw [show (occ + 1) * (20 * C) + j - 20 * C = occ * (20 * C) + j by
        rw [Nat.add_mul]; omega]
      exact ih _ occ j (by simpa using h) hj

theorem div_mod_decomp (C a b : Nat) (hb : b < C) :
    (a * C + b) / C = a ∧ (a * C + b) % C = b := by
  have hC : 0 < C := by omega
  constructor
  · rw [Nat.add_comm, Nat.add_mul_div_right _ _ hC, Nat.div_eq_of_lt hb, Nat.zero_add]
  · rw [Nat.add_comm, Nat.add_mul_mod_self_right, Nat.mod_eq_of_lt hb]

theorem batch_out_get (C : Nat) (b : List slice) (states : List LSMState) (n ch : Nat)
    (hn : n < 20) (hch : ch < C) :
    (batch_out C b states)[n * C + ch]?
      = some (((b.getD ch ⟨0, []⟩).samples (states.getD ch LSMState.zero)).getD n 0) := by
  have hj : n * C + ch < 20 * C := by
    calc n * C + ch < n * C + C := by omega
      _ = (n + 1) * C := by ring
      _ ≤ 20 * C := Nat.mul_le_mul_right C (by omega)
  obtain ⟨h1, h2⟩ := div_mod_decomp C n ch hch
  simp [batch_out, hj, h1, h2]

theorem states_after_length (C : Nat) (states : List LSMState) (pbs : List (List slice))
    (hs : states.length = C) : ∀ occ : Nat, (states_after C states pbs occ).length = C := by
  intro occ
  cases occ with
  | zero => exact hs
  | succ occ => rw [states_after, batch_states_length]

theorem states_after_getD (f : Frame) (m : Nat) (c : Nat)
    (hc : c < f.header.num_channels) : ∀ occ : Nat, occ ≤ m →
    (states_after f.header.num_channels f.states
        (chunks f.header.num_channels m f.slices) occ).getD c LSMState.zero
      = f.channel_state c occ := by
  intro occ
  induction occ with
  | zero => intro _; rfl
  | succ occ ih =>
    intro h
    rw [states_after, Frame.channel_state, ← ih (by omega),
      chunks_getD _ m f.slices occ (by omega)]
    have e : ((f.slices.drop (occ * f.header.num_channels)).take f.header.num_channels).getD c
          ⟨0, []⟩
        = f.slices.getD (occ * f.header.num_channels + c) ⟨0, []⟩ := by
      rw [List.getD_eq_getElem?_getD, List.getD_eq_getElem?_getD, List.getElem?_take_of_lt hc,
        List.getElem?_drop]
    simp only [batch_states, List.getD_eq_getElem?_getD, List.getElem?_map,
      List.getElem?_range hc, Option.map_some', Option.getD_some]
    rw [← List.getD_eq_getElem?_getD, ← List.getD_eq_getElem?_getD, e]
    simp only [List.getD_eq_getElem?_getD]

theorem frame_decode_chunks (f : Frame) (m : Nat)
    (hst : f.states.length = f.header.num_channels)
    (hk : f.slices.length = m * f.header.num_channels)
    (hqr : ∀ s ∈ f.slices, s.qr.length = 20) :
    ∃ st1, f.decode = .ok (st1, frame_ref f.header.num_channels f.states
      (chunks f.header.num_channels m f.slices)) := by
  have hpb : ∀ b ∈ chunks f.header.num_channels m f.slices,
      b.length = f.header.num_channels ∧ ∀ s ∈ b, s.qr.length = 20 := by
    intro b hb
    obtain ⟨h1, h2⟩ := chunks_mem f.header.num_channels m f.slices hk b hb
    exact ⟨h1, fun s hs => hqr s (h2 s hs)⟩
  obtain ⟨st1, h⟩ := frame_decode_batches f.header.num_channels
    (chunks f.header.num_channels m f.slices) 0 f.states [] hpb hst (by simp)
  refine ⟨st1, ?_⟩
  have hres : resize ([] : List Int) (f.slices.length * 20) 0
      = List.replicate ((chunks f.header.num_channels m f.slices).length
          * (20 * f.header.num_channels)) 0 := by
    simp only [resize, List.take_nil, List.length_nil, Nat.sub_zero, List.nil_append, hk,
      chunks_length]
    congr 1
    ring
  have hmod : f.slices.length % f.header.num_channels = 0 := by
    rw [hk, Nat.mul_mod_left]
  rw [chunks_flatten f.header.num_channels m f.slices hk] at h
  simp only [Frame.decode, hmod, ne_eq, not_true_eq_false, and_false, if_false, hres]
  simpa using h

theorem sample_index_eq (C sid n : Nat) :
    Frame.sample_index C sid n = sid / C * (20 * C) + (n * C + sid % C) := by
  unfold Frame.sample_index QOA_SLICE_SAMPLES
  ring

theorem sample_index_inj (C sid n i : Nat) (hn : n < 20) (hC : 0 < C)
    (h : Frame.sample_index C sid n = i) :
    sid = i / (20 * C) * C + i % (20 * C) % C ∧ n = i % (20 * C) / C := by
  rw [sample_index_eq] at h
  have hch : sid % C < C := Nat.mod_lt _ hC
  have hj : n * C + sid % C < 20 * C := by
    calc n * C + sid % C < n * C + C := by omega
      _ = (n + 1) * C := by ring
      _ ≤ 20 * C := Nat.mul_le_mul_right C (by omega)
  obtain ⟨h1, h2⟩ := div_mod_decomp (20 * C) (sid / C) (n * C + sid % C) hj
  obtain ⟨h3, h4⟩ := div_mod_decomp C n (sid % C) hch
  rw [← h, h1, h2, h3, h4]
  exact ⟨(Nat.div_add_mod' sid C).symm, rfl⟩

/-- C16 (interleaved layout of the bulk decoder).  For a frame with
`C = num_channels ≥ 1`, `C` predictor states and `k = m * C` slices of 20
residual codes, `Frame::decode` returns `20 * k` samples; for every slice
`sid < k` and every `n < 20` the sample at index
`(sid / C) * C * 20 + sid % C + n * C` is sample `n` of slice `sid` decoded from
the predictor state of channel `sid % C` as the `sid / C` earlier slices of that
channel left it; and every index below `20 * k` is the index of exactly one pair
`(sid, n)`, so that every output sample is stored exactly once. -/
theorem bulk_layout (f : Frame) (m : Nat) (hC : 0 < f.header.num_channels)
    (hst : f.states.length = f.header.num_channels)
    (hk : f.slices.length = m * f.header.num_channels)
    (hqr : ∀ s ∈ f.slices, s.qr.length = 20) :
    ∃ states samples, f.decode = .ok (states, samples)
      ∧ samples.length = 20 * f.slices.length
      ∧ (∀ sid n, sid < f.slices.length → n < 20 →
          samples[Frame.sample_index f.header.num_channels sid n]?
            = some (((f.slices.getD sid ⟨0, []⟩).samples
                (f.channel_state (sid % f.header.num_channels)
                  (sid / f.header.num_channels))).getD n 0))
      ∧ ∀ i, i < 20 * f.slices.length →
          ∃ sid n, sid < f.slices.length ∧ n < 20
            ∧ Frame.sample_index f.header.num_channels sid n = i
            ∧ ∀ sid2 n2, sid2 < f.slices.length → n2 < 20 →
                Frame.sample_index f.header.num_channels sid2 n2 = i → sid2 = sid ∧ n2 = n := by
  obtain ⟨st1, hdec⟩ := frame_decode_chunks f m hst hk hqr
  refine ⟨st1, _, hdec, ?_, ?_, ?_⟩
  · rw [frame_ref_length, chunks_length, hk]
    ring
  · intro sid n hsid hn
    have hch : sid % f.header.num_channels < f.header.num_channels := Nat.mod_lt _ hC
    have hocc : sid / f.header.num_channels < m := by
      apply Nat.div_lt_of_lt_mul
      rw [Nat.mul_comm, ← hk]
      exact hsid
    have hj : n * f.header.num_channels + sid % f.header.num_channels
        < 20 * f.header.num_channels := by
      calc n * f.header.num_channels + sid % f.header.num_channels
          < n * f.header.num_channels + f.header.num_channels := by omega
        _ = (n + 1) * f.header.num_channels := by ring
        _ ≤ 20 * f.header.num_channels := Nat.mul_le_mul_right _ (by omega)
    rw [sample_index_eq, frame_ref_get _ _ _ _ _ (by rw [chunks_length]; exact hocc) hj,
      batch_out_get _ _ _ n _ hn hch,
      states_after_getD f m _ hch _ (by omega),
      chunks_getD _ m f.slices _ hocc]
    have e : ((f.slices.drop (sid / f.header.num_channels * f.header.num_channels)).take
          f.header.num_channels).getD (sid % f.header.num_channels) ⟨0, []⟩
        = f.slices.getD sid ⟨0, []⟩ := by
      rw [List.getD_eq_getElem?_getD, List.getD_eq_getElem?_getD, List.getElem?_take_of_lt hch,
        List.getElem?_drop, Nat.div_add_mod' sid f.header.num_channels]
    rw [e]
  · intro i hi
    have h20 : 0 < 20 * f.header.num_channels := by omega
    have hlen : 20 * f.slices.length = m * (20 * f.header.num_channels) := by
      rw [hk]; ring
    have hq : i / (20 * f.header.num_channels) < m := by
      apply Nat.div_lt_of_lt_mul
      rw [Nat.mul_comm, ← hlen]
      exact hi
    have hr : i % (20 * f.header.num_channels) < 20 * f.header.num_channels := Nat.mod_lt _ h20
    have hch : i % (20 * f.header.num_channels) % f.header.num_channels
        < f.header.num_channels := Nat.mod_lt _ hC
    have hn : i % (20 * f.header.num_channels) / f.header.num_channels < 20 :=
      Nat.div_lt_of_lt_mul (Nat.lt_of_lt_of_eq hr (Nat.mul_comm _ _))
    obtain ⟨h1, h2⟩ := div_mod_decomp f.header.num_channels (i / (20 * f.header.num_channels))
      (i % (20 * f.header.num_channels) % f.header.num_channels) hch
    refine ⟨i / (20 * f.header.num_channels) * f.header.num_channels
        + i % (20 * f.header.num_channels) % f.header.num_channels,
      i % (20 * f.header.num_channels) / f.header.num_channels, ?_, hn, ?_, ?_⟩
    · rw [hk]
      calc i / (20 * f.header.num_channels) * f.header.num_channels
            + i % (20 * f.header.num_channels) % f.header.num_channels
          < i / (20 * f.header.num_channels) * f.header.num_channels + f.header.num_channels :=
            by omega
        _ = (i / (20 * f.header.num_channels) + 1) * f.header.num_channels := by ring
        _ ≤ m * f.header.num_channels := Nat.mul_le_mul_right _ (by omega)
    · rw [sample_index_eq, h1, h2, Nat.div_add_mod', Nat.div_add_mod']
    · intro sid2 n2 _ hn2 h
      exact sample_index_inj _ sid2 n2 i hn2 hC h

/-- The layout theorem on the frame of two channels and two batches
`stereo40_parsed`. -/
theorem bulk_layout_witness :
    (0 < sample.stereo40_parsed.header.num_channels
        ∧ sample.stereo40_parsed.states.length = sample.stereo40_parsed.header.num_channels
        ∧ sample.stereo40_parsed.slices.length = 2 * sample.stereo40_parsed.header.num_channels
        ∧ ∀ s ∈ sample.stereo40_parsed.slices, s.qr.length = 20)
      ∧ ∃ states samples, sample.stereo40_parsed.decode = .ok (states, samples)
          ∧ samples.length = 20 * sample.stereo40_parsed.slices.length :=
  ⟨⟨by decide, by decide, by decide, by decide⟩,
    (bulk_layout sample.stereo40_parsed 2 (by decide) (by decide) (by decide) (by decide)).elim
      fun states h => h.elim fun samples hs => ⟨states, samples, hs.1, hs.2.1⟩⟩

/-! ## The budget counter in every engine -/

theorem drain_budget_inv (p p1 : QOAPlayer) (n ip : Nat) (buf : List Int) (hinv : p.budget_inv)
    (hd : p.drain n = .ok (p1, ip, buf)) : p1.budget_inv := by
  unfold QOAPlayer.drain at hd
  split_ifs at hd <;> simp only [Except.ok.injEq, Prod.mk.injEq] at hd <;>
    (obtain ⟨rfl, -, -⟩ := hd; exact hinv)

theorem reachable_budget_inv (p : QOAPlayer) (h : p.reachable) : p.budget_inv := by
  induction h with
  | new rd p h => exact new_budget_inv rd p h
  | drain p p1 n ip buf _ hd ih => exact drain_budget_inv p p1 n ip buf ih hd
  | pass p n ip buf out _ hb ih => exact loop_body_budget_inv p n ip buf out ih hb

theorem decode_loop_reachable (n : Nat) :
    ∀ (fuel : Nat) (p : QOAPlayer) (ip : Nat) (buf : List Int) (r : DecodeResult)
      (p1 : QOAPlayer), p.reachable → QOAPlayer.decode_loop n fuel p ip buf = .ok (r, p1) →
      p1.reachable := by
  intro fuel
  induction fuel with
  | zero => intro p ip buf r p1 _ h; simp [QOAPlayer.decode_loop] at h
  | succ fuel ih =>
    intro p ip buf r p1 hp h
    unfold QOAPlayer.decode_loop at h
    rcases hb : p.loop_body n ip buf with e | out
    · rw [hb] at h; simp at h
    · have hr := QOAPlayer.reachable.pass p n ip buf out hp hb
      rw [hb] at h
      rcases out with ⟨r2, p2⟩ | ⟨p2, ip2, buf2⟩
      · simp only [Except.ok.injEq, Prod.mk.injEq] at h
        rw [← h.2]; exact hr
      · exact ih _ _ _ _ _ hr h

theorem decode_reachable (p p1 : QOAPlayer) (n : Nat) (r : DecodeResult)
    (hp : p.reachable) (h : p.decode n = .ok (r, p1)) : p1.reachable := by
  unfold QOAPlayer.decode at h
  split_ifs at h with g1
  · simp only [Except.ok.injEq, Prod.mk.injEq] at h
    rw [← h.2]; exact hp
  · rcases hd : p.drain n with e | ⟨p2, ip, buf⟩
    · rw [hd] at h; simp at h
    · rw [hd] at h
      have hp2 := QOAPlayer.reachable.drain p p2 n ip buf hp hd
      dsimp only at h
      split_ifs at h with g2
      · simp only [Except.ok.injEq, Prod.mk.injEq] at h
        rw [← h.2]; exact hp2
      · exact decode_loop_reachable n _ _ _ _ _ _ hp2 h

theorem after_calls_reachable : ∀ (ns : List Nat) (p p1 : QOAPlayer),
    p.reachable → p.after_calls ns = some p1 → p1.reachable := by
  intro ns
  induction ns with
  | nil =>
    intro p p1 hp h
    simp only [QOAPlayer.after_calls, Option.some.injEq] at h
    rw [← h]; exact hp
  | cons n ns ih =>
    intro p p1 hp h
    unfold QOAPlayer.after_calls at h
    rcases hd : p.decode n with e | ⟨r, p2⟩
    · rw [hd] at h; simp at h
    · rw [hd] at h
      exact ih p2 p1 (decode_reachable p p2 n r hp hd) h

theorem phase_slice_counter (p : QOAPlayer) (n ip : Nat) (buf : List Int) (out : LoopOutcome)
    (hinv : p.budget_inv) (h : p.phase_slice n ip buf = .ok out) :
    (n / p.frame_header.num_channels * p.frame_header.num_channels = 0 →
        out.player.decoded_sample_ch = p.decoded_sample_ch)
      ∧ (n / p.frame_header.num_channels * p.frame_header.num_channels ≠ 0 →
          out.player.decoded_sample_ch = p.decoded_sample_ch
            + min (min (size_sub (n / p.frame_header.num_channels * p.frame_header.num_channels)
                    ip) (p.frame_header.num_channels * 20))
                ((p.header.samples - p.decoded_sample_ch) * p.frame_header.num_channels)
              / p.frame_header.num_channels) := by
  obtain ⟨i1, i2, i3, i4⟩ := hinv
  unfold QOAPlayer.phase_slice at h
  dsimp only at h
  rcases hrs : QOAPlayer.read_slices p.frame_header.num_channels
      (256 * p.frame_header.num_channels - p.slice_read_idx) p.reader p.slice_read_idx p.slices
    with ⟨rd1, idx1, sl1⟩
  rw [hrs] at h
  dsimp only at h
  rcases hdc : QOAPlayer.decode_channels p.frame_header.num_channels sl1
      p.frame_header.num_channels 0 p.states
      (resize p.decode_tmp (p.frame_header.num_channels * QOA_SLICE_SAMPLES) 0)
    with e | ⟨st1, tmp1⟩
  · rw [hdc] at h; simp at h
  · rw [hdc] at h
    dsimp only at h
    have hlen : tmp1.length = p.frame_header.num_channels * 20 := by
      rw [decode_channels_length _ _ _ _ _ _ _ _ hdc, resize_length, QOA_SLICE_SAMPLES]
    have hC0 : p.frame_header.num_channels ≠ 0 := by omega
    have hsub : size_sub p.header.samples p.decoded_sample_ch
        = p.header.samples - p.decoded_sample_ch := size_sub_eq _ _ i1 (by omega)
    have hmul : size_mul (p.header.samples - p.decoded_sample_ch) p.frame_header.num_channels
        = (p.header.samples - p.decoded_sample_ch) * p.frame_header.num_channels := by
      apply size_mul_eq
      calc (p.header.samples - p.decoded_sample_ch) * p.frame_header.num_channels
          ≤ 2 ^ 32 * 256 := Nat.mul_le_mul (by omega) (by omega)
        _ < 2 ^ 64 := by norm_num
    rw [hsub, hmul, hlen] at h
    simp only [hC0, if_false] at h
    split_ifs at h with g1 g2 g3 g4
    · simp only [Except.ok.injEq] at h
      subst h
      exact ⟨fun _ => rfl, fun g => absurd g1 g⟩
    all_goals
      simp only [Except.ok.injEq] at h
      subst h
      exact ⟨fun g => absurd g g1, fun _ => rfl⟩

/-- C20 (budget counter).  In every engine that the constructor and `decode`
bring about, between two calls or within a call,
`decoded_sample_ch ≤ header.samples`; so in the cap
`(header.samples - decoded_sample_ch) * num_channels` of the `ReadSlice` phase
the subtraction in `size_t` is the subtraction of the integers and the product
stays below `2^64`; and a pass through the `ReadSlice` phase raises
`decoded_sample_ch` by exactly `can_copy / num_channels`, `can_copy` being the
minimum of `buf_size_aligned_channels - insert_pos` (in `size_t`), the batch
size and the cap (the counter stays as it is in the pass that returns because
`buf_size_aligned_channels` is 0, where no `can_copy` is computed). -/
theorem budget_counter_invariant (p : QOAPlayer) (h : p.reachable) :
    p.decoded_sample_ch ≤ p.header.samples
      ∧ size_sub p.header.samples p.decoded_sample_ch = p.header.samples - p.decoded_sample_ch
      ∧ (p.header.samples - p.decoded_sample_ch) * p.frame_header.num_channels < 2 ^ 64
      ∧ size_mul (size_sub p.header.samples p.decoded_sample_ch) p.frame_header.num_channels
          = (p.header.samples - p.decoded_sample_ch) * p.frame_header.num_channels
      ∧ ∀ n ip buf out, p.phase_slice n ip buf = .ok out →
          (n / p.frame_header.num_channels * p.frame_header.num_channels = 0 →
              out.player.decoded_sample_ch = p.decoded_sample_ch)
            ∧ (n / p.frame_header.num_channels * p.frame_header.num_channels ≠ 0 →
                out.player.decoded_sample_ch = p.decoded_sample_ch
                  + min (min (size_sub
                          (n / p.frame_header.num_channels * p.frame_header.num_channels) ip)
                        (p.frame_header.num_channels * 20))
                      ((p.header.samples - p.decoded_sample_ch) * p.frame_header.num_channels)
                    / p.frame_header.num_channels)
            ∧ out.player.decoded_sample_ch ≤ out.player.header.samples := by
  have hinv := reachable_budget_inv p h
  obtain ⟨i1, i2, i3, i4⟩ := hinv
  have hlt : (p.header.samples - p.decoded_sample_ch) * p.frame_header.num_channels < 2 ^ 64 :=
    calc (p.header.samples - p.decoded_sample_ch) * p.frame_header.num_channels
        ≤ 2 ^ 32 * 256 := Nat.mul_le_mul (by omega) (by omega)
      _ < 2 ^ 64 := by norm_num
  have hsub : size_sub p.header.samples p.decoded_sample_ch
      = p.header.samples - p.decoded_sample_ch := size_sub_eq _ _ i1 (by omega)
  refine ⟨i1, hsub, hlt, by rw [hsub]; exact size_mul_eq _ _ hlt, ?_⟩
  intro n ip buf out ho
  obtain ⟨c1, c2⟩ := phase_slice_counter p n ip buf out ⟨i1, i2, i3, i4⟩ ho
  obtain ⟨k, -, -, -, -, hk⟩ := phase_slice_budget p n ip buf out ⟨i1, i2, i3, i4⟩ ho
  exact ⟨c1, c2, hk.1⟩

/-- The budget counter theorem for the engine made from `mono30` after two
calls with a destination of 10 samples. -/
theorem budget_counter_invariant_witness :
    sample.mono30_later.reachable
      ∧ sample.mono30_later.decoded_sample_ch ≤ sample.mono30_later.header.samples
      ∧ (sample.mono30_later.header.samples - sample.mono30_later.decoded_sample_ch)
          * sample.mono30_later.frame_header.num_channels < 2 ^ 64 :=
  ⟨after_calls_reachable [10, 10] sample.mono30_engine sample.mono30_later
      (QOAPlayer.reachable.new sample.mono30 sample.mono30_engine (by decide)) (by decide),
    (budget_counter_invariant sample.mono30_later
      (after_calls_reachable [10, 10] sample.mono30_engine sample.mono30_later
        (QOAPlayer.reachable.new sample.mono30 sample.mono30_engine (by decide))
        (by decide))).1,
    (budget_counter_invariant sample.mono30_later
      (after_calls_reachable [10, 10] sample.mono30_engine sample.mono30_later
        (QOAPlayer.reachable.new sample.mono30 sample.mono30_engine (by decide))
        (by decide))).2.2.1⟩

end magicqoa
